import Mathlib

/-!
# Contextual-Tidy: the naming engine of `src/rules.js`

A shallow embedding of the download-renaming rules (`applyRules` and its helpers) and
machine-checked statements about them.

## Conventions of the embedding

* A JavaScript string is a `List Char` (`JSString`).  `String.prototype.length` counts UTF-16
  code units, so it is embedded as `jsLength`, which counts two units for a character outside
  the Basic Multilingual Plane.  Lone surrogates are not representable.
* Regular expressions of the source are written as values of the small syntax tree `Re` and run
  by one backtracking matcher (`Re.run`), which lists the possible ends of a match in the
  priority order of the ECMAScript matcher (greedy quantifiers first, left alternative first).
* Built-ins whose behaviour depends on tables that are not part of the repository
  (`toLowerCase`, `normalize`, `decodeURIComponent`, the `URL` parser, the `RegExp` parser)
  are fields of `Runtime`, together with the facts about them that the proofs use.
* `new Date()` is the argument `now : JSDate` of `applyRules`.
* A JavaScript exception is the value `none` of an `Option`.
-/

namespace ContextualTidy

/-! ## Strings -/

/-- A JavaScript string, as the list of its characters. -/
abbrev JSString := List Char

/-- Number of UTF-16 code units of one character. -/
def unitsOf (c : Char) : Nat := if c.toNat < 65536 then 1 else 2

/-- The `length` property of a string: its number of UTF-16 code units. -/
def jsLength : JSString → Nat
  | [] => 0
  | c :: t => unitsOf c + jsLength t

/-- Membership of a character in an inclusive range such as `a-z`. -/
def inRange (lo hi c : Char) : Bool := decide (lo.toNat ≤ c.toNat) && decide (c.toNat ≤ hi.toNat)

/-- The class `[0-9]`, also written `\d`. -/
def isDigit (c : Char) : Bool := inRange '0' '9' c

/-- The class `[a-z]`. -/
def isLowerAZ (c : Char) : Bool := inRange 'a' 'z' c

/-- The class `[A-Z]`. -/
def isUpperAZ (c : Char) : Bool := inRange 'A' 'Z' c

/-- The class `[a-zA-Z0-9]`. -/
def isAlnum (c : Char) : Bool := isLowerAZ c || isUpperAZ c || isDigit c

/-- The class `[a-f0-9]` under the `i` flag: hexadecimal digits of either case. -/
def isHexCI (c : Char) : Bool := inRange 'a' 'f' c || inRange 'A' 'F' c || isDigit c

/-- The class `\s` of a regular expression, which is also what `trim` removes:
ECMAScript WhiteSpace and LineTerminator code points. -/
def isSpace (c : Char) : Bool :=
  let n := c.toNat
  decide (n = 9) || decide (n = 10) || decide (n = 11) || decide (n = 12) || decide (n = 13) ||
  decide (n = 32) || decide (n = 160) || decide (n = 5760) ||
  (decide (8192 ≤ n) && decide (n ≤ 8202)) ||
  decide (n = 8232) || decide (n = 8233) || decide (n = 8239) || decide (n = 8287) ||
  decide (n = 12288) || decide (n = 65279)

/-- Line terminators, which `.` does not match. -/
def isLineTerminator (c : Char) : Bool :=
  let n := c.toNat
  decide (n = 10) || decide (n = 13) || decide (n = 8232) || decide (n = 8233)

/-- The atom `.` (without the `s` flag). -/
def isDot (c : Char) : Bool := !isLineTerminator c

/-- ASCII characters. -/
def isAscii (c : Char) : Bool := decide (c.toNat < 128)

/-- Lower-casing of the letters `A-Z`, every other character unchanged. -/
def asciiLower (c : Char) : Char := if isUpperAZ c then Char.ofNat (c.toNat + 32) else c

/-- Upper-casing of the letters `a-z`, every other character unchanged. -/
def asciiUpper (c : Char) : Char := if isLowerAZ c then Char.ofNat (c.toNat - 32) else c

/-- Equality of a subject character with an ASCII pattern character under the `i` flag.
Canonicalisation maps no character outside ASCII to an ASCII one, so only the two cases of an
ASCII letter match it. -/
def ciEq (pat c : Char) : Bool := asciiUpper pat == asciiUpper c

/-- The built-in `String.prototype.trim`. -/
def trim (s : JSString) : JSString :=
  ((s.dropWhile isSpace).reverse.dropWhile isSpace).reverse

/-- The built-in `String.prototype.includes`. -/
def includes (s sub : JSString) : Bool := s.tails.any (fun t => sub.isPrefixOf t)

/-- The built-in `String.prototype.endsWith`. -/
def endsWith (s suf : JSString) : Bool := suf.isSuffixOf s

/-- The built-in `String.prototype.split` with a one-character separator. -/
def split (sep : Char) : JSString → List JSString
  | [] => [[]]
  | c :: t =>
    if c = sep then [] :: split sep t
    else
      match split sep t with
      | [] => [[c]]
      | p :: ps => (c :: p) :: ps

/-- Index of the last occurrence of `c` among the first positions of `s`, counted from `i`;
`-1` when there is none. -/
def lastIndexAux (c : Char) : JSString → Nat → Int → Int
  | [], _, acc => acc
  | d :: t, i, acc => lastIndexAux c t (i + 1) (if d = c then (i : Int) else acc)

/-- The built-in `String.prototype.lastIndexOf` with a one-character needle: `-1` when absent. -/
def lastIndexOf (c : Char) (s : JSString) : Int := lastIndexAux c s 0 (-1)

/-- The call `lastIndexOf(c, fromIndex)`: the last occurrence at an index not above `fromIndex`. -/
def lastIndexOfFrom (c : Char) (s : JSString) (fromIndex : Nat) : Int :=
  lastIndexOf c (s.take (fromIndex + 1))

/-- The built-in `String.prototype.padStart(n, '0')` on a string of ASCII digits. -/
def padStart (n : Nat) (fill : Char) (s : JSString) : JSString :=
  List.replicate (n - s.length) fill ++ s

/-- The built-in `String(n)` for a natural number. -/
def natToString (n : Nat) : JSString := Nat.toDigits 10 n

/-! ## Regular expressions -/

/-- The fragment of regular-expression syntax that the source uses.  Quantifiers are greedy and
only ever apply to a character class. -/
inductive Re where
  | eps : Re
  | bol : Re
  | eol : Re
  | rep (p : Char → Bool) (lo : Nat) (hi : Option Nat) : Re
  | seq (a b : Re) : Re
  | alt (a b : Re) : Re

/-- A matcher state: the index reached and the input that remains. -/
abbrev MState := Nat × JSString

/-- Length of the longest run of characters of the class at the head of the input. -/
def spanLen (p : Char → Bool) : JSString → Nat
  | [] => 0
  | c :: t => if p c then spanLen p t + 1 else 0

/-- The numbers `k, k-1, ..., lo` (empty when `k < lo`): the repetition counts a greedy
quantifier tries, in order. -/
def countsDown (lo : Nat) : Nat → List Nat
  | 0 => if lo = 0 then [0] else []
  | k + 1 => if lo ≤ k + 1 then (k + 1) :: countsDown lo k else []

/-- Upper bound of a quantifier applied to a run of the given length. -/
def capAt (hi : Option Nat) (k : Nat) : Nat :=
  match hi with
  | none => k
  | some h => min h k

namespace Re

/-- One character of a class. -/
def one (p : Char → Bool) : Re := rep p 1 (some 1)

/-- A literal character. -/
def chr (c : Char) : Re := one (fun d => d == c)

/-- A literal character under the `i` flag. -/
def chrCI (c : Char) : Re := one (ciEq c)

/-- The quantified class `p*`. -/
def star (p : Char → Bool) : Re := rep p 0 none

/-- The quantified class `p+`. -/
def plus (p : Char → Bool) : Re := rep p 1 none

/-- The optional expression `r?`. -/
def opt (r : Re) : Re := alt r eps

/-- Concatenation of a list of expressions. -/
def cat : List Re → Re
  | [] => eps
  | r :: rs => seq r (cat rs)

/-- A literal string. -/
def str (s : JSString) : Re := cat (s.map chr)

/-- A literal string under the `i` flag. -/
def strCI (s : JSString) : Re := cat (s.map chrCI)

/-- All the ends of a match of the expression started in the given state, in the order in
which the backtracking matcher would find them. -/
def run : Re → MState → List MState
  | eps, st => [st]
  | bol, st => if st.1 = 0 then [st] else []
  | eol, st => if st.2.isEmpty then [st] else []
  | rep p lo hi, st =>
    (countsDown lo (capAt hi (spanLen p st.2))).map (fun n => (st.1 + n, st.2.drop n))
  | seq a b, st => (run a st).flatMap (run b)
  | alt a b, st => run a st ++ run b st

/-- The end of the match the matcher reports at one start position, if there is one. -/
def matchAt (r : Re) (st : MState) : Option MState := (r.run st).head?

/-- Leftmost match from index `i` on: the start index and the end state. -/
def searchFrom (r : Re) : Nat → JSString → Option (Nat × MState)
  | i, [] => (r.matchAt (i, [])).map (fun e => (i, e))
  | i, c :: t =>
    match r.matchAt (i, c :: t) with
    | some e => some (i, e)
    | none => searchFrom r (i + 1) t

/-- The built-in `RegExp.prototype.test` (no `g` flag). -/
def test (r : Re) (s : JSString) : Bool := (r.searchFrom 0 s).isSome

/-- Body of a global replacement by a fixed string.  `skip` counts the characters of the
current match that remain to be dropped. -/
def replaceAllAux (r : Re) (repl : JSString) : Nat → Nat → JSString → JSString
  | _, i, [] => if (r.matchAt (i, [])).isSome then repl else []
  | skip + 1, i, _ :: t => replaceAllAux r repl skip (i + 1) t
  | 0, i, c :: t =>
    match r.matchAt (i, c :: t) with
    | none => c :: replaceAllAux r repl 0 (i + 1) t
    | some e =>
      if e.1 - i = 0 then repl ++ c :: replaceAllAux r repl 0 (i + 1) t
      else repl ++ replaceAllAux r repl (e.1 - i - 1) (i + 1) t

/-- The built-in `String.prototype.replace` with a regular expression without the `g` flag and a fixed
replacement: only the leftmost match is replaced. -/
def replaceFirst (r : Re) (repl : JSString) (s : JSString) : JSString :=
  match r.searchFrom 0 s with
  | none => s
  | some (i, e) => s.take i ++ repl ++ e.2

/-- The built-in `String.prototype.replace` with the `g` flag and a fixed replacement. -/
def replaceAll (r : Re) (repl : JSString) (s : JSString) : JSString :=
  r.replaceAllAux repl 0 0 s

end Re

/-- A regular expression with one capture group, `pre(cap)post`. -/
structure ReCap where
  pre : Re
  cap : Re
  post : Re

namespace ReCap

/-- All the matches started in the given state, in the matcher's order: the text of the
capture group and the end state. -/
def runAt (rc : ReCap) (st : MState) : List (JSString × MState) :=
  (rc.pre.run st).flatMap (fun s1 =>
    (rc.cap.run s1).flatMap (fun s2 =>
      (rc.post.run s2).map (fun s3 => (s1.2.take (s2.1 - s1.1), s3))))

/-- Leftmost match from index `i` on: start index, capture and end state. -/
def searchFrom (rc : ReCap) : Nat → JSString → Option (Nat × JSString × MState)
  | i, [] => ((rc.runAt (i, [])).head?).map (fun m => (i, m))
  | i, c :: t =>
    match (rc.runAt (i, c :: t)).head? with
    | some m => some (i, m)
    | none => searchFrom rc (i + 1) t

/-- The first capture group of `String.prototype.match` (no `g` flag); `none` when the
expression does not match. -/
def capture (rc : ReCap) (s : JSString) : Option JSString :=
  (rc.searchFrom 0 s).map (fun m => m.2.1)

/-- The built-in `String.prototype.replace` (no `g` flag) with a callback that receives the matched text
and the capture. -/
def replaceWith (rc : ReCap) (f : JSString → JSString → JSString) (s : JSString) : JSString :=
  match rc.searchFrom 0 s with
  | none => s
  | some (i, cap, e) => s.take i ++ f ((s.drop i).take (e.1 - i)) cap ++ e.2

end ReCap

/-! ## The JavaScript runtime -/

/-- Text of the pattern handed to `new RegExp` in `cleanPageTitle` for a site name. -/
def sitePatternSource (siteName : JSString) : JSString :=
  "\\s*[\\|–\\-—]?\\s*".toList ++ siteName ++ "\\s*$".toList

/-- The built-ins of the host that the rules call and whose behaviour is fixed by tables
outside the repository, with the facts about them that are used. -/
structure Runtime where
  /-- The built-in `String.prototype.toLowerCase`. -/
  toLowerCase : JSString → JSString
  /-- The built-in `String.prototype.normalize('NFD')`. -/
  normalizeNFD : JSString → JSString
  /-- The built-in `decodeURIComponent`; `none` when it throws a `URIError`. -/
  decodeURIComponent : JSString → Option JSString
  /-- The built-in `new URL(s).hostname`; `none` when the constructor throws. -/
  urlHostname : JSString → Option JSString
  /-- The built-in `new RegExp(source, 'i')`; `none` when it throws a `SyntaxError`. -/
  compileRegExp : JSString → Option Re
  /-- String form of the property that a plain object inherits under the given key
  (`constructor`, `toString`, ...); `none` when there is no such property. -/
  protoLookup : JSString → Option JSString
  /-- On ASCII text, lower-casing changes the letters `A-Z` only. -/
  toLowerCase_ascii : ∀ s : JSString, s.all isAscii = true → toLowerCase s = s.map asciiLower
  /-- ASCII text is in normal form. -/
  normalizeNFD_ascii : ∀ s : JSString, s.all isAscii = true → normalizeNFD s = s
  /-- Text without `%` decodes to itself. -/
  decode_plain : ∀ s : JSString, '%' ∉ s → decodeURIComponent s = some s
  /-- A `%` that is not followed by two hexadecimal digits makes decoding throw. -/
  decode_malformed : ∀ a b : JSString, ¬ ((b.take 2).length = 2 ∧ (b.take 2).all isHexCI = true) →
    decodeURIComponent (a ++ '%' :: b) = none
  /-- An inherited property is a function or an object: its string form is not empty. -/
  protoLookup_nonempty : ∀ k v : JSString, protoLookup k = some v → v ≠ []
  /-- No inherited property has a `/` in its name. -/
  protoLookup_slash : ∀ k : JSString, '/' ∈ k → protoLookup k = none
  /-- A site name with an opening parenthesis that nothing closes or escapes leaves the
  pattern with an unterminated group. -/
  compile_unclosed : ∀ n : JSString, '(' ∈ n → ')' ∉ n → '\\' ∉ n → '[' ∉ n →
    compileRegExp (sitePatternSource n) = none
  /-- A plain object inherits `constructor`, a native function, whose string form starts with
  the keyword `function`. -/
  protoLookup_constructor : ∃ v : JSString,
    protoLookup "constructor".toList = some v ∧ "function".toList <+: v
  /-- Lower-casing introduces no full stop. -/
  toLowerCase_dot : ∀ s : JSString, '.' ∉ s → '.' ∉ toLowerCase s
  /-- Lower-cased text has none of the letters `A-Z`. -/
  toLowerCase_noUpper : ∀ (s : JSString) (c : Char), c ∈ toLowerCase s → isUpperAZ c = false

/-- The value of `new Date()`, as far as `getFormattedDate` reads it: `getFullYear()` (of the
common era), `getMonth()` (from 0) and `getDate()`. -/
structure JSDate where
  fullYear : Nat
  month : Nat
  date : Nat

/-! ## The rules of `src/rules.js` -/

/-- The operator `a || b` on two strings: the empty string is the only falsy one. -/
def jsOr (a b : JSString) : JSString := if a.isEmpty then b else a

/-- The decision context handed to `applyRules`.  `pageTitle`, `mimeType` and
`contentDisposition` may be absent (`undefined` or `null`). -/
structure Context where
  originalName : JSString
  url : JSString
  pageTitle : Option JSString
  mimeType : Option JSString
  contentDisposition : Option JSString

/-- The list `TITLE_SUFFIXES`. -/
def TITLE_SUFFIXES : List JSString :=
  ["pinterest", "instagram", "youtube", "twitter", "x", "facebook",
   "reddit", "tiktok", "google", "wikipedia", "linkedin", "tumblr",
   "flickr", "unsplash", "pexels", "shutterstock", "getty images"].map String.toList

/-- The table `CDN_MAP` of `getSiteName`, in the order of its entries. -/
def CDN_MAP : List (JSString × JSString) :=
  [("pinimg.com", "pinterest"), ("twimg.com", "twitter"), ("fbcdn.net", "facebook"),
   ("cdninstagram.com", "instagram"), ("ytimg.com", "youtube"), ("redd.it", "reddit"),
   ("redditmedia.com", "reddit"), ("reddituploads.com", "reddit"),
   ("akamaized.net", ""), ("cloudfront.net", ""), ("amazonaws.com", "")].map
    (fun e => (e.1.toList, e.2.toList))

/-- The table `mimeMap` of `getExtension`. -/
def mimeMap : List (JSString × JSString) :=
  [("image/jpeg", "jpg"), ("image/jpg", "jpg"), ("image/png", "png"), ("image/webp", "webp"),
   ("image/gif", "gif"), ("image/svg+xml", "svg"), ("image/avif", "avif"),
   ("video/mp4", "mp4"), ("video/webm", "webm"), ("video/quicktime", "mov"),
   ("audio/mpeg", "mp3"), ("audio/wav", "wav"), ("audio/ogg", "ogg"),
   ("application/pdf", "pdf"), ("application/zip", "zip"), ("application/gzip", "gz"),
   ("application/json", "json"), ("application/xml", "xml"),
   ("text/plain", "txt"), ("text/csv", "csv"), ("text/html", "html"),
   ("application/vnd.openxmlformats-officedocument.wordprocessingml.document", "docx"),
   ("application/vnd.openxmlformats-officedocument.spreadsheetml.sheet", "xlsx"),
   ("application/vnd.openxmlformats-officedocument.presentationml.presentation", "pptx"),
   ("application/msword", "doc"), ("application/vnd.ms-excel", "xls")].map
    (fun e => (e.1.toList, e.2.toList))

/-- The function `getExtension`.  `mimeMap[mimeType]` reads own entries of the table first and
inherited properties of the object otherwise; every own value is a non-empty string, and an
inherited property is a truthy value that later appears through its string form. -/
def getExtension (R : Runtime) (mimeType : Option JSString) : JSString :=
  match mimeType with
  | none => []
  | some m =>
    if m.isEmpty then []
    else
      match mimeMap.lookup m with
      | some e => e
      | none => (R.protoLookup m).getD []

/-- The function `getExtFromFilename`. -/
def getExtFromFilename (R : Runtime) (name : JSString) : JSString :=
  if name.isEmpty || !name.contains '.' then []
  else
    let ext := R.toLowerCase ((split '.' name).getLast?.getD [])
    if jsLength ext ≤ 5 then ext else []

/-- The function `stripExtension`. -/
def stripExtension (name : JSString) : JSString :=
  if name.isEmpty then []
  else
    let lastDot := lastIndexOf '.' name
    if lastDot > 0 then name.take lastDot.toNat else name

/-- The class `[\u0300-\u036f]` of combining diacritical marks. -/
def isCombining (c : Char) : Bool := decide (768 ≤ c.toNat) && decide (c.toNat ≤ 879)

/-- The class `[a-z0-9\s-]`, whose complement `slugify` deletes. -/
def isSlugInput (c : Char) : Bool := isLowerAZ c || isDigit c || isSpace c || c == '-'

/-- The pattern `/^-+|-+$/`. -/
def edgeHyphens : Re :=
  Re.alt (Re.seq Re.bol (Re.plus (fun c => c == '-'))) (Re.seq (Re.plus (fun c => c == '-')) Re.eol)

/-- The function `slugify`. -/
def slugify (R : Runtime) (str : JSString) : JSString :=
  if str.isEmpty then []
  else
    let s1 := R.toLowerCase str
    let s2 := R.normalizeNFD s1
    let s3 := (Re.one isCombining).replaceAll [] s2
    let s4 := (Re.one (fun c => !isSlugInput c)).replaceAll [] s3
    let s5 := trim s4
    let s6 := (Re.plus isSpace).replaceAll ['-'] s5
    let s7 := (Re.plus (fun c => c == '-')).replaceAll ['-'] s6
    edgeHyphens.replaceAll [] s7

/-- The function `truncateAtWord`.  Indices count UTF-16 code units, which are the characters
of the list for text of the Basic Multilingual Plane, as every slug is. -/
def truncateAtWord (slug : JSString) (maxLen : Nat) : JSString :=
  if jsLength slug ≤ maxLen then slug
  else
    let cut := lastIndexOfFrom '-' slug maxLen
    if cut > 0 then slug.take cut.toNat else slug.take maxLen

/-- The class `[a-zA-Z0-9_-]`. -/
def isWord (c : Char) : Bool := isAlnum c || c == '_' || c == '-'

/-- The pattern `/^[0-9_-]{12,}$/`. -/
def numericPattern : Re :=
  Re.cat [Re.bol, Re.rep (fun c => isDigit c || c == '_' || c == '-') 12 none, Re.eol]

/-- The pattern `/^[a-f0-9]{20,}$/i`. -/
def hexPattern : Re := Re.cat [Re.bol, Re.rep isHexCI 20 none, Re.eol]

/-- The pattern `/^[a-zA-Z0-9]{25,}$/`. -/
def alnumPattern : Re := Re.cat [Re.bol, Re.rep isAlnum 25 none, Re.eol]

/-- The pattern `/^[a-zA-Z0-9_-]{8,}-[a-zA-Z0-9_-]{4,}-[a-zA-Z0-9_-]{4,}/i`. -/
def uuidPattern : Re :=
  Re.cat [Re.bol, Re.rep isWord 8 none, Re.chr '-', Re.rep isWord 4 none, Re.chr '-',
          Re.rep isWord 4 none]

/-- The pattern `/^(img|dsc|image|photo)_?\d+$/i`. -/
def cameraPattern : Re :=
  Re.cat [Re.bol,
          Re.alt (Re.strCI "img".toList) (Re.alt (Re.strCI "dsc".toList)
            (Re.alt (Re.strCI "image".toList) (Re.strCI "photo".toList))),
          Re.opt (Re.chr '_'), Re.plus isDigit, Re.eol]

/-- The pattern `/^\d{3,4}x(\d{3,4})?$/`. -/
def sizePattern : Re :=
  Re.cat [Re.bol, Re.rep isDigit 3 (some 4), Re.chr 'x', Re.opt (Re.rep isDigit 3 (some 4)),
          Re.eol]

/-- The pattern `/^[a-f0-9]{6,}-[a-f0-9]{6,}$/i`. -/
def hashPairPattern : Re :=
  Re.cat [Re.bol, Re.rep isHexCI 6 none, Re.chr '-', Re.rep isHexCI 6 none, Re.eol]

/-- The patterns of `isGarbage`, in the order of the source. -/
def garbagePatterns : List Re :=
  [numericPattern, hexPattern, alnumPattern, uuidPattern, cameraPattern, sizePattern,
   hashPairPattern]

/-- The function `isGarbage`.  The argument is `none` for an absent (`undefined`, `null`)
name. -/
def isGarbage (name : Option JSString) : Bool :=
  match name with
  | none => true
  | some n => if n.isEmpty then true else garbagePatterns.any (fun p => p.test n)

/-- The function `normalizeFilename`. -/
def normalizeFilename (R : Runtime) (name fallbackExt : JSString) : JSString :=
  let existingExt := getExtFromFilename R name
  let base := stripExtension name
  let ext := jsOr existingExt fallbackExt
  if ext.isEmpty then slugify R base else slugify R base ++ '.' :: ext

/-- The pattern `/filename\*\s*=\s*(?:[^']*'[^']*'|UTF-8'')([^;]+)/i`. -/
def rfc5987Pattern : ReCap where
  pre := Re.cat [Re.strCI "filename".toList, Re.chr '*', Re.star isSpace, Re.chr '=',
                 Re.star isSpace,
                 Re.alt
                   (Re.cat [Re.star (fun c => !(c == '\'')), Re.chr '\'',
                            Re.star (fun c => !(c == '\'')), Re.chr '\''])
                   (Re.strCI "UTF-8\'\'".toList)]
  cap := Re.plus (fun c => !(c == ';'))
  post := Re.eps

/-- The pattern `/filename\s*=\s*"([^"]+)"/i`. -/
def quotedPattern : ReCap where
  pre := Re.cat [Re.strCI "filename".toList, Re.star isSpace, Re.chr '=', Re.star isSpace,
                 Re.chr '"']
  cap := Re.plus (fun c => !(c == '"'))
  post := Re.chr '"'

/-- The pattern `/filename\s*=\s*([^;]+)/i`. -/
def barePattern : ReCap where
  pre := Re.cat [Re.strCI "filename".toList, Re.star isSpace, Re.chr '=', Re.star isSpace]
  cap := Re.plus (fun c => !(c == ';'))
  post := Re.eps

/-- The function `parseContentDisposition`; `none` is its `null`. -/
def parseContentDisposition (R : Runtime) (header : JSString) : Option JSString :=
  let decoded : Option JSString :=
    match rfc5987Pattern.capture header with
    | some v => R.decodeURIComponent (trim v)
    | none => none
  match decoded with
  | some name => some name
  | none =>
    match quotedPattern.capture header with
    | some v => some (trim v)
    | none =>
      match barePattern.capture header with
      | some v => some (trim v)
      | none => none

/-- The separator class `[\|–\-—]`. -/
def isSep (c : Char) : Bool := c == '|' || c == '–' || c == '-' || c == '—'

/-- The pattern `/\s*[\|–\-—]\s*(.+)$/` of `cleanPageTitle`. -/
def titleSuffixPattern : ReCap where
  pre := Re.cat [Re.star isSpace, Re.one isSep, Re.star isSpace]
  cap := Re.plus isDot
  post := Re.eol

/-- Characters that stand for themselves in the source of a regular expression, among those
a site name is made of. -/
def isPlainChar (c : Char) : Bool := isAlnum c || c == '-' || c == '_'

/-- The expression built by `new RegExp` from a site name, with the flag `i`.  A
name of letters, digits, `-` and `_` is a literal; any other text goes through the parser of
the runtime. -/
def sitePattern (R : Runtime) (siteName : JSString) : Option Re :=
  if siteName.all isPlainChar then
    some (Re.cat [Re.star isSpace, Re.opt (Re.one isSep), Re.star isSpace,
                  Re.strCI siteName, Re.star isSpace, Re.eol])
  else R.compileRegExp (sitePatternSource siteName)

/-- The pattern `/\s*\(\d+x\d+\)/`. -/
def sizeTagPattern : Re :=
  Re.cat [Re.star isSpace, Re.chr '(', Re.plus isDigit, Re.chr 'x', Re.plus isDigit, Re.chr ')']

/-- The pattern `/\s*\((HD|4K|1080p|720p|Full HD)\)/i`. -/
def qualityTagPattern : Re :=
  Re.cat [Re.star isSpace, Re.chr '(',
          Re.alt (Re.strCI "HD".toList) (Re.alt (Re.strCI "4K".toList)
            (Re.alt (Re.strCI "1080p".toList) (Re.alt (Re.strCI "720p".toList)
              (Re.strCI "Full HD".toList)))),
          Re.chr ')']

/-- The function `cleanPageTitle`; `none` when `new RegExp` throws. -/
def cleanPageTitle (R : Runtime) (title siteName : JSString) : Option JSString :=
  let cleaned1 := titleSuffixPattern.replaceWith
    (fun whole suffix =>
      let suffixLower := R.toLowerCase (trim suffix)
      let isSiteSuffix := TITLE_SUFFIXES.any (fun s => includes suffixLower s)
      if isSiteSuffix then [] else whole) title
  let cleaned2 : Option JSString :=
    if siteName.isEmpty then some cleaned1
    else (sitePattern R siteName).map (fun p => p.replaceFirst [] cleaned1)
  cleaned2.map (fun c2 =>
    let c3 := qualityTagPattern.replaceAll [] (sizeTagPattern.replaceAll [] c2)
    truncateAtWord (slugify R (trim c3)) 50)

/-- The pattern `/^www\./`. -/
def wwwPattern : Re := Re.seq Re.bol (Re.str "www.".toList)

/-- The function `getSiteName`. -/
def getSiteName (R : Runtime) (urlStr : JSString) : JSString :=
  match R.urlHostname urlStr with
  | none => []
  | some host =>
    let hostname := wwwPattern.replaceFirst [] host
    match CDN_MAP.find? (fun e => endsWith hostname e.1) with
    | some e => e.2
    | none =>
      let parts := split '.' hostname
      let domain :=
        if parts.length ≥ 2 then parts.getD (parts.length - 2) [] else parts.getD 0 []
      if jsLength domain > 2 then domain else []

/-- The function `getFormattedDate`, on the value of `new Date()`. -/
def getFormattedDate (d : JSDate) : JSString :=
  natToString d.fullYear ++ '-' :: padStart 2 '0' (natToString (d.month + 1)) ++
    '-' :: padStart 2 '0' (natToString d.date)

/-- The function `applyRules`; `none` when an exception escapes it. -/
def applyRules (R : Runtime) (now : JSDate) (ctx : Context) : Option JSString :=
  -- 1. Setup extension & base name
  let ext := jsOr (getExtension R ctx.mimeType) (jsOr (getExtFromFilename R ctx.originalName) [])
  let cleanOriginal := stripExtension ctx.originalName
  -- 2. Content-Disposition first
  let fromHeader : Option JSString :=
    match ctx.contentDisposition with
    | none => none
    | some cd =>
      if cd.isEmpty then none
      else
        match parseContentDisposition R cd with
        | none => none
        | some cdName =>
          if !cdName.isEmpty && !isGarbage (some (stripExtension cdName)) then
            some (normalizeFilename R cdName ext)
          else none
  match fromHeader with
  | some name => some name
  | none =>
    -- 3. Only act if the name is actually garbage
    if !isGarbage (some cleanOriginal) then some ctx.originalName
    else
      -- 4. Build a better name from available context
      let dateStr := getFormattedDate now
      let siteName := getSiteName R ctx.url
      let cleanTitle : Option JSString :=
        match ctx.pageTitle with
        | none => some []
        | some t => if t.isEmpty then some [] else cleanPageTitle R t siteName
      match cleanTitle with
      | none => none
      | some cleanTitle =>
        let betterName : JSString :=
          if jsLength cleanTitle > 5 then
            dateStr ++ '-' :: (if siteName.isEmpty then [] else siteName ++ ['-']) ++ cleanTitle
          else if jsLength siteName > 2 then dateStr ++ '-' :: siteName
          else []
        -- 5. Safety check
        if jsLength betterName < 15 then some ctx.originalName
        else some (if ext.isEmpty then betterName else betterName ++ '.' :: ext)

/-! ## A reference runtime

A concrete runtime for evaluating the rules on plain inputs: ASCII text, escapes of ASCII
characters, and `http`/`https` URLs whose host is written in lower-case letters, digits, `-`,
`_`, `.` and parentheses.  On such inputs it computes what the built-ins compute. -/

/-- Value of a hexadecimal digit. -/
def hexVal (c : Char) : Option Nat :=
  if isDigit c then some (c.toNat - 48)
  else if inRange 'a' 'f' c then some (c.toNat - 87)
  else if inRange 'A' 'F' c then some (c.toNat - 55)
  else none

/-- Percent-decoding of text whose escapes all denote ASCII characters; `none` on a malformed
escape (and on escapes of other bytes, which the reference runtime does not cover). -/
def decodeAscii : JSString → Option JSString
  | [] => some []
  | c :: t =>
    if c = '%' then
      match t with
      | h :: l :: u =>
        match hexVal h, hexVal l with
        | some a, some b =>
          if 16 * a + b < 128 then (decodeAscii u).map (fun r => Char.ofNat (16 * a + b) :: r)
          else none
        | _, _ => none
      | _ => none
    else (decodeAscii t).map (fun r => c :: r)

/-- Characters of a host name that the URL parser keeps as they are: lower-case letters,
digits, `-`, `_`, `.` and the parentheses, none of which is a forbidden host code point. -/
def isHostChar (c : Char) : Bool :=
  isLowerAZ c || isDigit c || c == '-' || c == '_' || c == '.' || c == '(' || c == ')'

/-- Host of an `http://` or `https://` URL with a plain host that starts with a letter and has
no port or credentials; `none` for any other text. -/
def simpleHostname (url : JSString) : Option JSString :=
  let rest : Option JSString :=
    if "https://".toList.isPrefixOf url then some (url.drop 8)
    else if "http://".toList.isPrefixOf url then some (url.drop 7)
    else none
  match rest with
  | none => none
  | some r =>
    let host := r.takeWhile (fun c => !(c == '/') && !(c == '?') && !(c == '#'))
    match host with
    | [] => none
    | c :: _ => if isLowerAZ c && host.all isHostChar then some host else none

/-- The reference runtime. -/
def refRuntime : Runtime where
  toLowerCase := fun s => s.map asciiLower
  normalizeNFD := fun s => s
  decodeURIComponent := decodeAscii
  urlHostname := simpleHostname
  compileRegExp := fun _ => none
  protoLookup := fun k =>
    if k = "constructor".toList then some "function Object() \x7b [native code] \x7d".toList
    else none
  toLowerCase_ascii := fun _ _ => rfl
  normalizeNFD_ascii := fun _ _ => rfl
  decode_plain := by
    intro s
    induction s with
    | nil => intro _; rfl
    | cons c t ih =>
      intro h
      have hc : c ≠ '%' := fun e => h (by simp [e])
      have ht : '%' ∉ t := fun e => h (List.mem_cons_of_mem _ e)
      unfold decodeAscii; simp [hc, ih ht]
  decode_malformed := by
    have hx : ∀ c : Char, isHexCI c = false → hexVal c = none := by
      intro c hc
      unfold isHexCI at hc
      simp only [Bool.or_eq_false_iff] at hc
      simp [hexVal, hc.1.1, hc.1.2, hc.2]
    have hp : hexVal '%' = none := by decide
    have key : ∀ (n : Nat) (a : JSString), a.length ≤ n → ∀ b : JSString,
        ¬ ((b.take 2).length = 2 ∧ (b.take 2).all isHexCI = true) →
        decodeAscii (a ++ '%' :: b) = none := by
      intro n
      induction n using Nat.strong_induction_on with
      | _ n ih =>
        intro a ha b hb
        match a, ha with
        | [], _ =>
          match b, hb with
          | [], _ => simp [decodeAscii]
          | [_], _ => simp [decodeAscii]
          | h :: l :: u, hb =>
            by_cases h1 : isHexCI h = true
            · by_cases h2 : isHexCI l = true
              · exact absurd (by simp [h1, h2]) hb
              · have h2' : isHexCI l = false := by simpa using h2
                cases hh : hexVal h <;> simp [decodeAscii, hh, hx l h2']
            · have h1' : isHexCI h = false := by simpa using h1
              simp [decodeAscii, hx h h1']
        | c :: a', ha =>
          by_cases hc : c = '%'
          · subst hc
            match a', ha with
            | [], _ =>
              show decodeAscii ('%' :: '%' :: b) = none
              unfold decodeAscii
              cases b <;> simp [hp]
            | [h], _ =>
              show decodeAscii ('%' :: h :: '%' :: b) = none
              unfold decodeAscii
              cases hh : hexVal h <;> simp [hp, hh]
            | h :: l :: a'', ha =>
              have := ih a''.length (by simp at ha; omega) a'' (le_refl _) b hb
              show decodeAscii ('%' :: h :: l :: (a'' ++ '%' :: b)) = none
              unfold decodeAscii
              cases hh : hexVal h <;> cases hl : hexVal l <;> simp [hh, hl, this]
          · have := ih a'.length (by simp at ha; omega) a' (le_refl _) b hb
            show decodeAscii (c :: (a' ++ '%' :: b)) = none
            unfold decodeAscii
            simp [hc, this]
    exact fun a b hb => key a.length a (le_refl _) b hb
  protoLookup_nonempty := by
    intro k v h
    beta_reduce at h
    by_cases hk : k = "constructor".toList
    · rw [if_pos hk] at h; cases h; decide
    · rw [if_neg hk] at h; cases h
  protoLookup_slash := by
    intro k hk
    have : k ≠ "constructor".toList := by
      intro e; subst e; revert hk; decide
    exact if_neg this
  compile_unclosed := fun _ _ _ _ _ => rfl
  protoLookup_constructor := ⟨_, rfl, by decide⟩
  toLowerCase_dot := by
    intro s hs hc
    rw [List.mem_map] at hc
    obtain ⟨d, hd, he⟩ := hc
    by_cases hu : isUpperAZ d = true
    · have hu2 := hu
      simp only [isUpperAZ, inRange, Bool.and_eq_true, decide_eq_true_eq] at hu2
      have e2 : ('Z' : Char).toNat = 90 := by decide
      have e1 : ('A' : Char).toNat = 65 := by decide
      rw [e1, e2] at hu2
      have hv : (d.toNat + 32).isValidChar := Or.inl (by omega)
      have hn : (Char.ofNat (d.toNat + 32)).toNat = d.toNat + 32 := by
        unfold Char.ofNat
        rw [dif_pos hv]
        simp [Char.ofNatAux, Char.toNat, UInt32.toNat]
      unfold asciiLower at he
      rw [if_pos hu] at he
      rw [he] at hn
      have e3 : ('.' : Char).toNat = 46 := by decide
      omega
    · unfold asciiLower at he
      rw [if_neg hu] at he
      exact hs (he ▸ hd)
  toLowerCase_noUpper := by
    intro s c hc
    rw [List.mem_map] at hc
    obtain ⟨d, _, he⟩ := hc
    by_cases hu : isUpperAZ d = true
    · have hu2 := hu
      simp only [isUpperAZ, inRange, Bool.and_eq_true, decide_eq_true_eq] at hu2
      have e2 : ('Z' : Char).toNat = 90 := by decide
      have e1 : ('A' : Char).toNat = 65 := by decide
      rw [e1, e2] at hu2
      have hv : (d.toNat + 32).isValidChar := Or.inl (by omega)
      have hn : (Char.ofNat (d.toNat + 32)).toNat = d.toNat + 32 := by
        unfold Char.ofNat
        rw [dif_pos hv]
        simp [Char.ofNatAux, Char.toNat, UInt32.toNat]
      unfold asciiLower at he
      rw [if_pos hu] at he
      rw [he] at hn
      simp only [isUpperAZ, inRange, e1, e2, Bool.and_eq_false_imp, decide_eq_true_eq,
        decide_eq_false_iff_not]
      omega
    · unfold asciiLower at he
      rw [if_neg hu] at he
      rw [← he]
      simpa using hu

/-! ## Vocabulary of the statements -/

/-- The header stage yields no usable name: the header is absent or empty, or no file name can
be read from it, or the name read has a garbage base. -/
def HeaderUnusable (R : Runtime) (cd : Option JSString) : Prop :=
  ∀ h, cd = some h → h ≠ [] →
    ∀ n, parseContentDisposition R h = some n → isGarbage (some (stripExtension n)) = true

/-- The extension `applyRules` resolves in its first step. -/
def resolvedExt (R : Runtime) (ctx : Context) : JSString :=
  jsOr (getExtension R ctx.mimeType) (jsOr (getExtFromFilename R ctx.originalName) [])

/-- The title slug `T` of a context for the site identity `S`: the empty string when the page
title is absent (or empty), the result of `cleanPageTitle` otherwise. -/
def TitleSlug (R : Runtime) (ctx : Context) (S T : JSString) : Prop :=
  match ctx.pageTitle with
  | none => T = []
  | some t => if t = [] then T = [] else cleanPageTitle R t S = some T

/-- The candidate name as the specification composes it from the date string `D`, the site
identity `S` and the title slug `T`; `none` when there is no candidate. -/
def specCandidate (D S T : JSString) : Option JSString :=
  if jsLength T > 5 then
    (if S = [] then some (D ++ "-".toList ++ T) else some (D ++ "-".toList ++ S ++ "-".toList ++ T))
  else if jsLength S > 2 then some (D ++ "-".toList ++ S)
  else none

/-- A candidate with its extension: `candidate.ext`, or the bare candidate without one. -/
def withExt (c ext : JSString) : JSString := if ext = [] then c else c ++ ".".toList ++ ext

/-! ## Scenarios -/

/-- An invocation date: 5 January 2024. -/
def sampleDate : JSDate := { fullYear := 2024, month := 0, date := 5 }

/-- Scenario A of the specification. -/
def scenarioA : Context :=
  { originalName := "pin_8372910293.jpg".toList,
    url := "https://i.pinimg.com/x/abc.jpg".toList,
    pageTitle := some "Cozy Reading Nook Ideas | Pinterest".toList,
    mimeType := some "image/jpeg".toList,
    contentDisposition := none }

/-- Scenario A with a camera-default original name. -/
def scenarioACamera : Context :=
  { scenarioA with originalName := "IMG_8372910293.jpg".toList }

/-- Scenario B of the specification, with a page title and a MIME type present. -/
def scenarioB : Context :=
  { originalName := "vacation_photo.png".toList,
    url := "https://i.pinimg.com/x/abc.jpg".toList,
    pageTitle := some "Cozy Reading Nook Ideas | Pinterest".toList,
    mimeType := some "image/jpeg".toList,
    contentDisposition := none }

/-- Scenario C of the specification, on a garbage original name. -/
def scenarioC : Context :=
  { originalName := "a1b2c3d4e5f6-f6e5d4c3b2a1".toList,
    url := [],
    pageTitle := none,
    mimeType := none,
    contentDisposition := some "attachment; filename=\"Quarterly Report.pdf\"".toList }

/-- Scenario C with a header name that has no extension, and no other source of one. -/
def scenarioCBare : Context :=
  { scenarioC with contentDisposition := some "attachment; filename=\"Quarterly Report\"".toList }

/-- Scenario D of the specification: a garbage name, no title, no header, no site. -/
def scenarioD : Context :=
  { originalName := "a1b2c3d4e5f6-f6e5d4c3b2a1".toList,
    url := [],
    pageTitle := none,
    mimeType := none,
    contentDisposition := none }

/-! ## The documented shape classes of garbage names -/

/-- Shape 1: 12 or more characters drawn only from digits, `_` and `-`. -/
def ShapeNumeric (n : JSString) : Prop :=
  12 ≤ n.length ∧ ∀ c ∈ n, isDigit c = true ∨ c = '_' ∨ c = '-'

/-- Shape 2: 20 or more hexadecimal characters. -/
def ShapeHex (n : JSString) : Prop := 20 ≤ n.length ∧ ∀ c ∈ n, isHexCI c = true

/-- Shape 3: 25 or more ASCII alphanumeric characters. -/
def ShapeAlnum (n : JSString) : Prop := 25 ≤ n.length ∧ ∀ c ∈ n, isAlnum c = true

/-- Shape 4: three or more dash-separated alphanumeric groups, the first of at least 8
characters and every later one of at least 4. -/
def ShapeUuid (n : JSString) : Prop :=
  ∃ (g1 g2 g3 : JSString) (gs : List JSString),
    n = List.intercalate ['-'] (g1 :: g2 :: g3 :: gs) ∧
    (∀ g ∈ g1 :: g2 :: g3 :: gs, ∀ c ∈ g, isAlnum c = true) ∧
    8 ≤ g1.length ∧ ∀ g ∈ g2 :: g3 :: gs, 4 ≤ g.length

/-- Shape 5: `img`, `dsc`, `image` or `photo` in any letter case, an optional underscore, and
one or more digits. -/
def ShapeCamera (n : JSString) : Prop :=
  ∃ w u ds : JSString, n = w ++ u ++ ds ∧
    w.map asciiLower ∈ ["img".toList, "dsc".toList, "image".toList, "photo".toList] ∧
    (u = [] ∨ u = ['_']) ∧ ds ≠ [] ∧ ∀ c ∈ ds, isDigit c = true

/-- A group of 3 or 4 digits. -/
def DigitGroup (a : JSString) : Prop :=
  3 ≤ a.length ∧ a.length ≤ 4 ∧ ∀ c ∈ a, isDigit c = true

/-- Shape 6: a group of 3 or 4 digits, `x`, and optionally a second such group. -/
def ShapeSize (n : JSString) : Prop :=
  ∃ a b : JSString, n = a ++ 'x' :: b ∧ DigitGroup a ∧ (b = [] ∨ DigitGroup b)

/-- Shape 7: two hexadecimal runs of 6 or more characters joined by a single hyphen. -/
def ShapeHashPair (n : JSString) : Prop :=
  ∃ a b : JSString, n = a ++ '-' :: b ∧ 6 ≤ a.length ∧ 6 ≤ b.length ∧
    (∀ c ∈ a, isHexCI c = true) ∧ ∀ c ∈ b, isHexCI c = true

/-! ## Slugs -/

/-- The characters of a slug: `[a-z0-9-]`. -/
def isSlugChar (c : Char) : Bool := isLowerAZ c || isDigit c || c == '-'

/-- A valid Slug: only characters of `[a-z0-9-]`, no leading hyphen, no trailing hyphen and no
two consecutive hyphens. -/
def ValidSlug (s : JSString) : Prop :=
  (∀ c ∈ s, isSlugChar c = true) ∧ s.head? ≠ some '-' ∧ s.getLast? ≠ some '-' ∧
    ∀ a b : JSString, s ≠ a ++ '-' :: '-' :: b

/-- Replace every maximal run of characters of a class by the character `x`; `inRun` tells
that the preceding character belonged to a run. -/
def collapseRuns (p : Char → Bool) (x : Char) : Bool → JSString → JSString
  | _, [] => []
  | inRun, c :: t =>
    if p c then (if inRun then collapseRuns p x true t else x :: collapseRuns p x true t)
    else c :: collapseRuns p x false t

/-- Remove the hyphens that end a string. -/
def dropTrailingHyphens : JSString → JSString
  | [] => []
  | c :: t => if (c :: t).all (fun d => d == '-') then [] else c :: dropTrailingHyphens t

/-- A camera-default name downloaded from a host whose registrable label has two consecutive
hyphens. -/
def scenarioDoubleHyphen : Context :=
  { originalName := "IMG_0012.jpg".toList,
    url := "https://cool--site.com/f.jpg".toList,
    pageTitle := some "Holiday pictures".toList,
    mimeType := some "image/jpeg".toList,
    contentDisposition := none }

/-- A header whose `filename*=` value is not valid percent-encoding, and nothing else. -/
def undecodableHeader : JSString := "attachment; filename*=UTF-8''%ZZ.pdf".toList

/-- The same header followed by a plain `filename=` parameter. -/
def undecodableHeaderWithPlain : JSString :=
  "attachment; filename*=UTF-8''%ZZ.pdf; filename=fallback.pdf".toList

/-- A camera-default name downloaded from a host whose registrable label has an opening
parenthesis, from a page with a title. -/
def scenarioParen : Context :=
  { originalName := "IMG_0012.jpg".toList,
    url := "https://a(b.com/x.jpg".toList,
    pageTitle := some "Holiday pictures".toList,
    mimeType := some "image/jpeg".toList,
    contentDisposition := none }

/-- A numeric name with the suffix `png`, served with the content type `constructor`, the name
of a property that every object inherits. -/
def scenarioProto : Context :=
  { originalName := "123456789012.png".toList,
    url := "https://www.example.com/a".toList,
    pageTitle := none,
    mimeType := some "constructor".toList,
    contentDisposition := none }

/-- The same download with an original name that has no suffix. -/
def scenarioProtoBare : Context :=
  { scenarioProto with originalName := "123456789012".toList }

/-- A slug of one word of 60 letters. -/
def longWord : JSString := List.replicate 60 'a'

/-- A slug of 65 characters whose 51 first characters hold several hyphens. -/
def longSlug : JSString :=
  "the-quick-brown-fox-jumps-over-the-lazy-dog-and-keeps-running-far".toList

/-- A download whose original name is a dot-file, with no other information. -/
def scenarioDotfile : Context :=
  { originalName := ".gitignore".toList,
    url := [],
    pageTitle := none,
    mimeType := none,
    contentDisposition := none }

/-- A download whose header name has a base made of punctuation only. -/
def scenarioSymbols : Context :=
  { originalName := "report.pdf".toList,
    url := [],
    pageTitle := none,
    mimeType := some "application/pdf".toList,
    contentDisposition := some "attachment; filename=\"!!!.pdf\"".toList }

/-- A download whose header name is made of punctuation only, with no extension anywhere. -/
def scenarioSymbolsBare : Context :=
  { originalName := "report".toList,
    url := [],
    pageTitle := none,
    mimeType := none,
    contentDisposition := some "attachment; filename=\"!!!\"".toList }

/-- Scenario A for a file that already bears the name synthesis gives it on 5 January 2024. -/
def scenarioRenamed : Context :=
  { scenarioA with originalName := "2024-01-05-pinterest-cozy-reading-nook-ideas.jpg".toList }

/-- Shape 4 as the pattern of the source has it: the name starts with three groups joined by
hyphens, the first of at least 8 characters and the two others of at least 4, whose characters
are letters, digits, `_` or `-`; any text may follow. -/
def ShapeUuidPrefix (n : JSString) : Prop :=
  ∃ x y z rest : JSString, n = x ++ '-' :: (y ++ '-' :: (z ++ rest)) ∧
    8 ≤ x.length ∧ 4 ≤ y.length ∧ 4 ≤ z.length ∧
    (∀ c ∈ x, isWord c = true) ∧ (∀ c ∈ y, isWord c = true) ∧ ∀ c ∈ z, isWord c = true

/-- A hyphenated phrase whose first group has two letters. -/
def phraseName : JSString := "my-summer-vacation-photo-album".toList

/-! # Proofs -/

/-! ## Characters -/

theorem toNat_ofNat_small (n : Nat) (h : n < 55296) : (Char.ofNat n).toNat = n := by
  have hv : n.isValidChar := Or.inl h
  unfold Char.ofNat
  rw [dif_pos hv]
  simp [Char.ofNatAux, Char.toNat, UInt32.toNat]

theorem asciiUpper_asciiLower (c : Char) : asciiUpper (asciiLower c) = asciiUpper c := by
  unfold asciiLower
  by_cases h : isUpperAZ c = true
  · rw [if_pos h]
    have h' := h
    simp only [isUpperAZ, inRange, Bool.and_eq_true, decide_eq_true_eq] at h'
    have e1 : ('A' : Char).toNat = 65 := by decide
    have e2 : ('Z' : Char).toNat = 90 := by decide
    rw [e1, e2] at h'
    have hn : (Char.ofNat (c.toNat + 32)).toNat = c.toNat + 32 := toNat_ofNat_small _ (by omega)
    have hl : isLowerAZ (Char.ofNat (c.toNat + 32)) = true := by
      simp only [isLowerAZ, inRange, Bool.and_eq_true, decide_eq_true_eq, hn]
      have e3 : ('a' : Char).toNat = 97 := by decide
      have e4 : ('z' : Char).toNat = 122 := by decide
      rw [e3, e4]; omega
    have hc : isLowerAZ c = false := by
      simp only [isLowerAZ, inRange, Bool.and_eq_false_imp, decide_eq_true_eq, decide_eq_false_iff_not]
      have e3 : ('a' : Char).toNat = 97 := by decide
      rw [e3]; intro; omega
    unfold asciiUpper
    rw [if_pos hl, hn, hc]
    simp
  · rw [if_neg h]

/-! ## The matcher -/

theorem mem_countsDown {lo k n : Nat} : n ∈ countsDown lo k ↔ lo ≤ n ∧ n ≤ k := by
  induction k with
  | zero =>
    unfold countsDown
    by_cases h : lo = 0
    · simp [h]
    · simp [h]; omega
  | succ k ih =>
    unfold countsDown
    by_cases h : lo ≤ k + 1
    · simp [h, ih]; omega
    · simp [h]; omega

theorem le_spanLen {p : Char → Bool} {a b : JSString} (h : a.all p = true) :
    a.length ≤ spanLen p (a ++ b) := by
  induction a with
  | nil => simp
  | cons c t ih =>
    simp only [List.all_cons, Bool.and_eq_true] at h
    simp [spanLen, h.1, ih h.2]

theorem spanLen_le (p : Char → Bool) (s : JSString) : spanLen p s ≤ s.length := by
  induction s with
  | nil => simp [spanLen]
  | cons c t ih =>
    unfold spanLen
    by_cases h : p c = true
    · simp [h, ih]
    · simp [h]

theorem take_all_of_le_spanLen {p : Char → Bool} {s : JSString} {n : Nat}
    (h : n ≤ spanLen p s) : (s.take n).all p = true := by
  induction s generalizing n with
  | nil => simp
  | cons c t ih =>
    cases n with
    | zero => simp
    | succ n =>
      unfold spanLen at h
      by_cases hc : p c = true
      · rw [if_pos hc] at h
        simp [hc, ih (Nat.le_of_succ_le_succ h)]
      · rw [if_neg hc] at h; omega

namespace Re

theorem mem_run_rep {p : Char → Bool} {lo : Nat} {hi : Option Nat} {st e : MState} :
    e ∈ run (rep p lo hi) st ↔
      ∃ n, lo ≤ n ∧ n ≤ capAt hi (spanLen p st.2) ∧ e = (st.1 + n, st.2.drop n) := by
  simp only [run, List.mem_map, mem_countsDown]
  constructor
  · rintro ⟨n, ⟨h1, h2⟩, rfl⟩; exact ⟨n, h1, h2, rfl⟩
  · rintro ⟨n, h1, h2, rfl⟩; exact ⟨n, ⟨h1, h2⟩, rfl⟩

/-- A run of characters of the class, of an admissible length, is a match of the quantified
class. -/
theorem run_rep_of_all (p : Char → Bool) (lo : Nat) (hi : Option Nat) (i : Nat)
    (a b : JSString) (hp : a.all p = true) (hlo : lo ≤ a.length)
    (hhi : ∀ h, hi = some h → a.length ≤ h) :
    (i + a.length, b) ∈ run (rep p lo hi) (i, a ++ b) := by
  rw [mem_run_rep]
  refine ⟨a.length, hlo, ?_, by simp⟩
  have := le_spanLen (b := b) hp
  cases hi with
  | none => exact this
  | some h => exact Nat.le_min.mpr ⟨hhi h rfl, this⟩

theorem mem_run_seq {a b : Re} {st e : MState} :
    e ∈ run (seq a b) st ↔ ∃ m, m ∈ run a st ∧ e ∈ run b m := by
  simp [run, List.mem_flatMap]

theorem mem_run_alt {a b : Re} {st e : MState} :
    e ∈ run (alt a b) st ↔ e ∈ run a st ∨ e ∈ run b st := by
  simp [run]

theorem mem_run_eps {st e : MState} : e ∈ run eps st ↔ e = st := by simp [run]

theorem mem_run_bol {st e : MState} : e ∈ run bol st ↔ st.1 = 0 ∧ e = st := by
  by_cases h : st.1 = 0 <;> simp [run, h]

theorem mem_run_eol {st e : MState} : e ∈ run eol st ↔ st.2 = [] ∧ e = st := by
  by_cases h : st.2 = [] <;> simp [run, h]

/-- Every end of a match is reached by consuming a piece of the input. -/
theorem run_consumes (r : Re) : ∀ (st e : MState), e ∈ run r st →
    ∃ a, st.2 = a ++ e.2 ∧ e.1 = st.1 + a.length := by
  induction r with
  | eps => intro st e h; rw [mem_run_eps] at h; subst h; exact ⟨[], rfl, rfl⟩
  | bol => intro st e h; rw [mem_run_bol] at h; rw [h.2]; exact ⟨[], rfl, rfl⟩
  | eol => intro st e h; rw [mem_run_eol] at h; rw [h.2]; exact ⟨[], rfl, rfl⟩
  | rep p lo hi =>
    intro st e h
    rw [mem_run_rep] at h
    obtain ⟨n, _, hn, rfl⟩ := h
    have hle : n ≤ st.2.length := by
      have h1 : capAt hi (spanLen p st.2) ≤ spanLen p st.2 := by
        cases hi with
        | none => exact le_refl _
        | some h => exact Nat.min_le_right _ _
      exact le_trans hn (le_trans h1 (spanLen_le p st.2))
    exact ⟨st.2.take n, (List.take_append_drop n st.2).symm, by simp [hle]⟩
  | seq a b iha ihb =>
    intro st e h
    rw [mem_run_seq] at h
    obtain ⟨m, hm, he⟩ := h
    obtain ⟨x, hx1, hx2⟩ := iha st m hm
    obtain ⟨y, hy1, hy2⟩ := ihb m e he
    exact ⟨x ++ y, by rw [hx1, hy1, List.append_assoc], by rw [hy2, hx2, List.length_append]; omega⟩
  | alt a b iha ihb =>
    intro st e h
    rw [mem_run_alt] at h
    rcases h with h | h
    · exact iha st e h
    · exact ihb st e h

theorem matchAt_isSome_of_mem {r : Re} {st e : MState} (h : e ∈ run r st) :
    (r.matchAt st).isSome = true := by
  unfold matchAt
  cases hr : run r st with
  | nil => rw [hr] at h; cases h
  | cons _ _ => rfl

/-- A match at the start of the input makes `test` succeed. -/
theorem test_of_mem {r : Re} {s : JSString} {e : MState} (h : e ∈ run r (0, s)) :
    r.test s = true := by
  have hm := matchAt_isSome_of_mem h
  unfold test
  cases s with
  | nil =>
    unfold searchFrom
    cases hx : r.matchAt (0, []) with
    | none => rw [hx] at hm; cases hm
    | some _ => rfl
  | cons c t =>
    unfold searchFrom
    cases hx : r.matchAt (0, c :: t) with
    | none => rw [hx] at hm; cases hm
    | some _ => rfl

end Re

/-! ## The stages of `applyRules` -/

theorem jsLength_append (a b : JSString) : jsLength (a ++ b) = jsLength a + jsLength b := by
  induction a with
  | nil => simp [jsLength]
  | cons c t ih => simp [jsLength, ih]; omega

theorem length_le_jsLength (s : JSString) : s.length ≤ jsLength s := by
  induction s with
  | nil => simp [jsLength]
  | cons c t ih =>
    simp only [jsLength, List.length_cons, unitsOf]
    split <;> omega

theorem jsLength_eq_zero {s : JSString} : jsLength s = 0 ↔ s = [] := by
  constructor
  · intro h
    have := length_le_jsLength s
    exact List.length_eq_zero.mp (by omega)
  · rintro rfl; rfl

/-- No file name can be read from an empty header. -/
theorem parseContentDisposition_nil (R : Runtime) : parseContentDisposition R [] = none := by
  have h1 : rfc5987Pattern.capture [] = none := by decide
  have h2 : quotedPattern.capture [] = none := by decide
  have h3 : barePattern.capture [] = none := by decide
  simp [parseContentDisposition, h1, h2, h3]

/-- A header whose name has a sound base decides the result. -/
theorem applyRules_header (R : Runtime) (now : JSDate) (ctx : Context) (h n : JSString)
    (hcd : ctx.contentDisposition = some h) (hp : parseContentDisposition R h = some n)
    (hg : isGarbage (some (stripExtension n)) = false) :
    applyRules R now ctx = some (normalizeFilename R n (resolvedExt R ctx)) := by
  have hh : h ≠ [] := by
    rintro rfl
    rw [parseContentDisposition_nil] at hp
    cases hp
  have hn : n ≠ [] := by
    rintro rfl
    revert hg
    decide
  unfold applyRules resolvedExt
  simp [hcd, hh, hp, hn, hg]

/-- An unusable header leaves the result to the later stages. -/
theorem applyRules_skipHeader (R : Runtime) (now : JSDate) (ctx : Context)
    (hcd : HeaderUnusable R ctx.contentDisposition) :
    applyRules R now ctx = applyRules R now { ctx with contentDisposition := none } := by
  unfold applyRules
  cases hc : ctx.contentDisposition with
  | none => rfl
  | some cd =>
    by_cases he : cd = []
    · simp [he]
    · cases hp : parseContentDisposition R cd with
      | none => simp [he, hp]
      | some n =>
        have := hcd cd hc he n hp
        simp [he, hp, this]

/-- Without a usable header, a name whose base is not garbage is returned as it is. -/
theorem applyRules_passThrough (R : Runtime) (now : JSDate) (ctx : Context)
    (hcd : HeaderUnusable R ctx.contentDisposition)
    (hg : isGarbage (some (stripExtension ctx.originalName)) = false) :
    applyRules R now ctx = some ctx.originalName := by
  rw [applyRules_skipHeader R now ctx hcd]
  unfold applyRules
  simp [hg]

/-- Without a usable header and with a garbage base, the result is the accepted candidate with
the extension, or the original name. -/
theorem applyRules_synthesis (R : Runtime) (now : JSDate) (ctx : Context) (T : JSString)
    (hcd : HeaderUnusable R ctx.contentDisposition)
    (hg : isGarbage (some (stripExtension ctx.originalName)) = true)
    (hT : TitleSlug R ctx (getSiteName R ctx.url) T) :
    applyRules R now ctx =
      some (match specCandidate (getFormattedDate now) (getSiteName R ctx.url) T with
        | none => ctx.originalName
        | some c =>
          if jsLength c < 15 then ctx.originalName else withExt c (resolvedExt R ctx)) := by
  rw [applyRules_skipHeader R now ctx hcd]
  have hT' : (match ctx.pageTitle with
      | none => some []
      | some t => if t.isEmpty then some [] else cleanPageTitle R t (getSiteName R ctx.url))
      = some T := by
    unfold TitleSlug at hT
    cases hpt : ctx.pageTitle with
    | none => rw [hpt] at hT; simp [hT]
    | some t =>
      rw [hpt] at hT
      by_cases ht : t = []
      · simp [ht] at hT ⊢; exact hT
      · simp [ht] at hT ⊢; exact hT
  unfold applyRules
  simp only [hg, hT', Bool.not_true, Bool.false_eq_true, if_false]
  unfold specCandidate withExt resolvedExt
  have e1 : ∀ a b : JSString, a ++ "-".toList ++ b = a ++ '-' :: b := by intro a b; simp
  have e2 : ∀ a b : JSString, a ++ ".".toList ++ b = a ++ '.' :: b := by intro a b; simp
  have h0 : jsLength [] < 15 := by decide
  simp only [e1, e2, List.isEmpty_iff, List.append_assoc, List.cons_append, List.nil_append]
  by_cases h5 : jsLength T > 5
  · by_cases hS : getSiteName R ctx.url = []
    · simp only [h5, hS, if_true, List.nil_append]
      by_cases hl : jsLength (getFormattedDate now ++ '-' :: T) < 15
      · simp only [hl, if_true]
      · simp only [hl, if_false]
    · simp only [h5, hS, if_true, if_false, List.append_assoc, List.cons_append, List.nil_append]
      by_cases hl : jsLength (getFormattedDate now ++ '-' :: (getSiteName R ctx.url ++ '-' :: T)) < 15
      · simp only [hl, if_true]
      · simp only [hl, if_false]
  · by_cases h2 : jsLength (getSiteName R ctx.url) > 2
    · simp only [h5, h2, if_true, if_false]
      by_cases hl : jsLength (getFormattedDate now ++ '-' :: getSiteName R ctx.url) < 15
      · simp only [hl, if_true]
      · simp only [hl, if_false]
    · simp only [h5, h2, if_false, h0, if_true]

/-! ## Claims about the control flow of `applyRules` -/

/-- C1. Pass-through: when the Content-Disposition header is absent or yields no usable name,
and the extension-stripped original name is not garbage, `applyRules` returns the original
name itself, whatever the URL, the page title and the MIME type are. -/
theorem C1_pass_through (R : Runtime) (now : JSDate) (ctx : Context)
    (hcd : HeaderUnusable R ctx.contentDisposition)
    (hg : isGarbage (some (stripExtension ctx.originalName)) = false) :
    applyRules R now ctx = some ctx.originalName :=
  applyRules_passThrough R now ctx hcd hg

set_option maxRecDepth 100000 in
/-- Witness of C1, on Scenario B: `vacation_photo.png` is returned unchanged. -/
theorem C1_pass_through_witness :
    HeaderUnusable refRuntime scenarioB.contentDisposition ∧
    isGarbage (some (stripExtension scenarioB.originalName)) = false ∧
    applyRules refRuntime sampleDate scenarioB = some "vacation_photo.png".toList :=
  have h1 : HeaderUnusable refRuntime scenarioB.contentDisposition :=
    fun _ h => by cases h
  have h2 : isGarbage (some (stripExtension scenarioB.originalName)) = false := by decide
  ⟨h1, h2, C1_pass_through refRuntime sampleDate scenarioB h1 h2⟩

set_option maxRecDepth 100000 in
/-- Counterexample to C2 as stated.  The header `attachment; filename="Quarterly Report"`
carries a sound name without an extension; with no MIME type and no extension on the original name the result is
`quarterly-report`: the slug alone, not the slug followed by `.` and an extension. -/
theorem C2_counterexample :
    parseContentDisposition refRuntime "attachment; filename=\"Quarterly Report\"".toList
      = some "Quarterly Report".toList ∧
    isGarbage (some (stripExtension "Quarterly Report".toList)) = false ∧
    applyRules refRuntime sampleDate scenarioCBare = some "quarterly-report".toList ∧
    applyRules refRuntime sampleDate scenarioCBare ≠
      some (slugify refRuntime (stripExtension "Quarterly Report".toList) ++ '.' ::
        jsOr (getExtFromFilename refRuntime "Quarterly Report".toList)
          (resolvedExt refRuntime scenarioCBare)) := by
  decide

/-- C2 (amended). Content-Disposition stage: a header name `n` with a sound base makes
`applyRules` return `normalizeFilename(n, ext)`, which is the slug of the base of `n` followed
by `.` and the extension of `n` (or the fallback extension when `n` has none) when there is
such an extension, and the slug alone when there is none; this does not depend on the garbage
status of the original name, on the URL or on the page title.  A header that yields no name,
or a name with a garbage base, gives what the same context gives without the header. -/
theorem C2_header_stage (R : Runtime) (now : JSDate) (ctx : Context) :
    (∀ h n, ctx.contentDisposition = some h → parseContentDisposition R h = some n →
      isGarbage (some (stripExtension n)) = false →
        applyRules R now ctx = some (normalizeFilename R n (resolvedExt R ctx)) ∧
        normalizeFilename R n (resolvedExt R ctx) =
          withExt (slugify R (stripExtension n))
            (jsOr (getExtFromFilename R n) (resolvedExt R ctx))) ∧
    (HeaderUnusable R ctx.contentDisposition →
      applyRules R now ctx = applyRules R now { ctx with contentDisposition := none }) := by
  refine ⟨fun h n hcd hp hg => ⟨applyRules_header R now ctx h n hcd hp hg, ?_⟩,
    applyRules_skipHeader R now ctx⟩
  unfold normalizeFilename withExt
  by_cases he : jsOr (getExtFromFilename R n) (resolvedExt R ctx) = []
  · simp [he]
  · simp [he]

set_option maxRecDepth 100000 in
/-- Witness of C2, on Scenario C: `attachment; filename="Quarterly Report.pdf"` gives
`quarterly-report.pdf`. -/
theorem C2_header_stage_witness :
    scenarioC.contentDisposition = some "attachment; filename=\"Quarterly Report.pdf\"".toList ∧
    parseContentDisposition refRuntime "attachment; filename=\"Quarterly Report.pdf\"".toList
      = some "Quarterly Report.pdf".toList ∧
    isGarbage (some (stripExtension "Quarterly Report.pdf".toList)) = false ∧
    applyRules refRuntime sampleDate scenarioC = some "quarterly-report.pdf".toList :=
  have h2 : parseContentDisposition refRuntime
      "attachment; filename=\"Quarterly Report.pdf\"".toList
      = some "Quarterly Report.pdf".toList := by decide
  have h3 : isGarbage (some (stripExtension "Quarterly Report.pdf".toList)) = false := by decide
  have h4 : normalizeFilename refRuntime "Quarterly Report.pdf".toList
      (resolvedExt refRuntime scenarioC) = "quarterly-report.pdf".toList := by decide
  ⟨rfl, h2, h3,
    ((C2_header_stage refRuntime sampleDate scenarioC).1 _ _ rfl h2 h3).1.trans
      (congrArg some h4)⟩

/-- Either the title slug of a context exists, or building it throws and so does
`applyRules`, once the header is unusable and the original name is garbage. -/
theorem titleSlug_or_throws (R : Runtime) (now : JSDate) (ctx : Context)
    (hcd : HeaderUnusable R ctx.contentDisposition)
    (hg : isGarbage (some (stripExtension ctx.originalName)) = true) :
    (∃ T, TitleSlug R ctx (getSiteName R ctx.url) T) ∨ applyRules R now ctx = none := by
  cases hpt : ctx.pageTitle with
  | none => exact Or.inl ⟨[], by simp [TitleSlug, hpt]⟩
  | some t =>
    by_cases ht : t = []
    · exact Or.inl ⟨[], by simp [TitleSlug, hpt, ht]⟩
    · cases hc : cleanPageTitle R t (getSiteName R ctx.url) with
      | some T => exact Or.inl ⟨T, by simp [TitleSlug, hpt, ht, hc]⟩
      | none =>
        right
        rw [applyRules_skipHeader R now ctx hcd]
        unfold applyRules
        simp [hg, hpt, ht, hc]

/-- C4. Composition: with no usable header name and a garbage original name, for the date
string `D`, the site identity `S` and the title slug `T`, the candidate is `D-S-T` (or `D-T`
when `S` is empty) when `T` has more than 5 characters, else `D-S` when `S` has more than 2
characters, else there is none; an accepted candidate (15 characters or more) is returned
followed by `.` and the resolved extension when that is non-empty, and bare otherwise. -/
theorem C4_composition (R : Runtime) (now : JSDate) (ctx : Context) (T c : JSString)
    (hcd : HeaderUnusable R ctx.contentDisposition)
    (hg : isGarbage (some (stripExtension ctx.originalName)) = true)
    (hT : TitleSlug R ctx (getSiteName R ctx.url) T)
    (hc : specCandidate (getFormattedDate now) (getSiteName R ctx.url) T = some c)
    (hacc : 15 ≤ jsLength c) :
    applyRules R now ctx = some (withExt c (resolvedExt R ctx)) ∧
    (resolvedExt R ctx ≠ [] →
      applyRules R now ctx = some (c ++ ".".toList ++ resolvedExt R ctx)) ∧
    (resolvedExt R ctx = [] → applyRules R now ctx = some c) := by
  have h := applyRules_synthesis R now ctx T hcd hg hT
  rw [hc] at h
  simp only [Nat.not_lt.mpr hacc, if_false] at h
  refine ⟨h, fun he => ?_, fun he => ?_⟩
  · rw [h, withExt, if_neg he]
  · rw [h, withExt, if_pos he]

set_option maxRecDepth 100000 in
/-- Witness of C4, on the camera-default variant of Scenario A: the candidate is
`2024-01-05-pinterest-cozy-reading-nook-ideas` and the result carries `.jpg`. -/
theorem C4_composition_witness :
    HeaderUnusable refRuntime scenarioACamera.contentDisposition ∧
    isGarbage (some (stripExtension scenarioACamera.originalName)) = true ∧
    TitleSlug refRuntime scenarioACamera (getSiteName refRuntime scenarioACamera.url)
      "cozy-reading-nook-ideas".toList ∧
    specCandidate (getFormattedDate sampleDate) (getSiteName refRuntime scenarioACamera.url)
      "cozy-reading-nook-ideas".toList
      = some "2024-01-05-pinterest-cozy-reading-nook-ideas".toList ∧
    applyRules refRuntime sampleDate scenarioACamera
      = some "2024-01-05-pinterest-cozy-reading-nook-ideas.jpg".toList :=
  have h1 : HeaderUnusable refRuntime scenarioACamera.contentDisposition :=
    fun _ h => by cases h
  have h2 : isGarbage (some (stripExtension scenarioACamera.originalName)) = true := by decide
  have h3 : TitleSlug refRuntime scenarioACamera (getSiteName refRuntime scenarioACamera.url)
      "cozy-reading-nook-ideas".toList := by
    show cleanPageTitle refRuntime _ _ = some _
    decide
  have h4 : specCandidate (getFormattedDate sampleDate)
      (getSiteName refRuntime scenarioACamera.url) "cozy-reading-nook-ideas".toList
      = some "2024-01-05-pinterest-cozy-reading-nook-ideas".toList := by decide
  have h5 : withExt "2024-01-05-pinterest-cozy-reading-nook-ideas".toList
      (resolvedExt refRuntime scenarioACamera)
      = "2024-01-05-pinterest-cozy-reading-nook-ideas.jpg".toList := by decide
  ⟨h1, h2, h3, h4,
    (C4_composition refRuntime sampleDate scenarioACamera _ _ h1 h2 h3 h4 (by decide)).1.trans
      (congrArg some h5)⟩

/-- C5. Minimum-length guard: with no usable header name and a garbage original name, a
candidate of fewer than 15 characters, or no candidate at all, makes `applyRules` return the
original name unchanged; hence a name that synthesis produces is a candidate of at least 15
characters, followed by the extension if there is one. -/
theorem C5_minimum_length (R : Runtime) (now : JSDate) (ctx : Context)
    (hcd : HeaderUnusable R ctx.contentDisposition)
    (hg : isGarbage (some (stripExtension ctx.originalName)) = true) :
    (∀ T, TitleSlug R ctx (getSiteName R ctx.url) T →
      (specCandidate (getFormattedDate now) (getSiteName R ctx.url) T = none ∨
        ∃ c, specCandidate (getFormattedDate now) (getSiteName R ctx.url) T = some c ∧
          jsLength c < 15) →
      applyRules R now ctx = some ctx.originalName) ∧
    (∀ name, applyRules R now ctx = some name → name ≠ ctx.originalName →
      ∃ T c, TitleSlug R ctx (getSiteName R ctx.url) T ∧
        specCandidate (getFormattedDate now) (getSiteName R ctx.url) T = some c ∧
        15 ≤ jsLength c ∧ name = withExt c (resolvedExt R ctx)) := by
  constructor
  · intro T hT hshort
    have h := applyRules_synthesis R now ctx T hcd hg hT
    rcases hshort with hn | ⟨c, hc, hlt⟩
    · rw [hn] at h; exact h
    · rw [hc] at h; simp only [hlt, if_true] at h; exact h
  · intro name hname hne
    rcases titleSlug_or_throws R now ctx hcd hg with ⟨T, hT⟩ | hthrow
    · have h := applyRules_synthesis R now ctx T hcd hg hT
      rw [hname] at h
      cases hc : specCandidate (getFormattedDate now) (getSiteName R ctx.url) T with
      | none => rw [hc] at h; exact absurd (Option.some.inj h) hne
      | some c =>
        rw [hc] at h
        by_cases hlt : jsLength c < 15
        · simp only [hlt, if_true] at h; exact absurd (Option.some.inj h) hne
        · simp only [hlt, if_false] at h
          exact ⟨T, c, hT, hc, Nat.not_lt.mp hlt, Option.some.inj h⟩
    · rw [hthrow] at hname; cases hname

set_option maxRecDepth 100000 in
/-- Witness of C5, on Scenario D: the garbage name `a1b2c3d4e5f6-f6e5d4c3b2a1`, with no title
and an empty site identity, is returned unchanged. -/
theorem C5_minimum_length_witness :
    HeaderUnusable refRuntime scenarioD.contentDisposition ∧
    isGarbage (some (stripExtension scenarioD.originalName)) = true ∧
    TitleSlug refRuntime scenarioD (getSiteName refRuntime scenarioD.url) [] ∧
    specCandidate (getFormattedDate sampleDate) (getSiteName refRuntime scenarioD.url) [] = none ∧
    applyRules refRuntime sampleDate scenarioD = some "a1b2c3d4e5f6-f6e5d4c3b2a1".toList :=
  have h1 : HeaderUnusable refRuntime scenarioD.contentDisposition := fun _ h => by cases h
  have h2 : isGarbage (some (stripExtension scenarioD.originalName)) = true := by decide
  have h3 : TitleSlug refRuntime scenarioD (getSiteName refRuntime scenarioD.url) [] := rfl
  have h4 : specCandidate (getFormattedDate sampleDate)
      (getSiteName refRuntime scenarioD.url) [] = none := by decide
  ⟨h1, h2, h3, h4,
    (C5_minimum_length refRuntime sampleDate scenarioD h1 h2).1 [] h3 (Or.inl h4)⟩

/-! ## Searching and replacing -/

namespace Re

theorem mem_of_matchAt {r : Re} {st e : MState} (h : r.matchAt st = some e) : e ∈ run r st :=
  List.mem_of_mem_head? h

/-- A reported match starts after a piece `a` of the input and is a match of the expression
there. -/
theorem searchFrom_some {r : Re} : ∀ {s : JSString} {i j : Nat} {e : MState},
    r.searchFrom i s = some (j, e) →
      ∃ a b, s = a ++ b ∧ j = i + a.length ∧ e ∈ run r (j, b) := by
  intro s
  induction s with
  | nil =>
    intro i j e h
    unfold searchFrom at h
    cases hm : r.matchAt (i, []) with
    | none => rw [hm] at h; cases h
    | some e' =>
      rw [hm] at h
      simp only [Option.map_some', Option.some.injEq, Prod.mk.injEq] at h
      obtain ⟨rfl, rfl⟩ := h
      exact ⟨[], [], rfl, rfl, mem_of_matchAt hm⟩
  | cons c t ih =>
    intro i j e h
    unfold searchFrom at h
    cases hm : r.matchAt (i, c :: t) with
    | some e' =>
      rw [hm] at h
      simp only [Option.some.injEq, Prod.mk.injEq] at h
      obtain ⟨rfl, rfl⟩ := h
      exact ⟨[], c :: t, rfl, rfl, mem_of_matchAt hm⟩
    | none =>
      rw [hm] at h
      obtain ⟨a, b, hab, hj, he⟩ := ih h
      exact ⟨c :: a, b, by rw [hab]; rfl, by rw [hj, List.length_cons]; omega, he⟩

/-- Deleting the leftmost match leaves characters of the input only. -/
theorem replaceFirst_nil_subset (r : Re) (s : JSString) : r.replaceFirst [] s ⊆ s := by
  unfold replaceFirst
  cases h : r.searchFrom 0 s with
  | none => exact List.Subset.refl _
  | some m =>
    obtain ⟨j, e⟩ := m
    obtain ⟨a, b, hab, hj, he⟩ := searchFrom_some h
    obtain ⟨x, hx, _⟩ := run_consumes r _ _ he
    simp only at hx
    have hta : s.take j = a := by
      rw [hab, hj]; simp
    show s.take j ++ [] ++ e.2 ⊆ s
    rw [hta, List.append_nil, hab, hx]
    intro c hc
    simp only [List.mem_append] at hc ⊢
    rcases hc with hc | hc
    · exact Or.inl hc
    · exact Or.inr (Or.inr hc)

theorem replaceAllAux_nil (r : Re) (repl : JSString) (k i : Nat) :
    r.replaceAllAux repl k i [] = if (r.matchAt (i, [])).isSome then repl else [] := by
  cases k <;> rfl

theorem replaceAllAux_skip (r : Re) (repl : JSString) (k i : Nat) (c : Char) (t : JSString) :
    r.replaceAllAux repl (k + 1) i (c :: t) = r.replaceAllAux repl k (i + 1) t := rfl

theorem replaceAllAux_none (r : Re) (repl : JSString) (i : Nat) (c : Char) (t : JSString)
    (h : r.matchAt (i, c :: t) = none) :
    r.replaceAllAux repl 0 i (c :: t) = c :: r.replaceAllAux repl 0 (i + 1) t := by
  rw [replaceAllAux, h]

theorem replaceAllAux_some (r : Re) (repl : JSString) (i : Nat) (c : Char) (t : JSString)
    (e : MState) (h : r.matchAt (i, c :: t) = some e) :
    r.replaceAllAux repl 0 i (c :: t) =
      if e.1 - i = 0 then repl ++ c :: r.replaceAllAux repl 0 (i + 1) t
      else repl ++ r.replaceAllAux repl (e.1 - i - 1) (i + 1) t := by
  rw [replaceAllAux, h]

/-- Deleting all matches leaves characters of the input only. -/
theorem replaceAllAux_nil_subset (r : Re) : ∀ (s : JSString) (k i : Nat),
    r.replaceAllAux [] k i s ⊆ s := by
  intro s
  induction s with
  | nil =>
    intro k i
    rw [replaceAllAux_nil]
    split <;> exact List.Subset.refl _
  | cons c t ih =>
    intro k i
    cases k with
    | succ k =>
      rw [replaceAllAux_skip]
      exact List.subset_cons_of_subset c (ih k (i + 1))
    | zero =>
      cases hm : r.matchAt (i, c :: t) with
      | none =>
        rw [replaceAllAux_none r [] i c t hm]
        exact List.cons_subset_cons c (ih 0 (i + 1))
      | some e =>
        rw [replaceAllAux_some r [] i c t e hm]
        split
        · exact List.cons_subset_cons c (ih 0 (i + 1))
        · exact List.subset_cons_of_subset c (ih _ (i + 1))

theorem replaceAll_nil_subset (r : Re) (s : JSString) : r.replaceAll [] s ⊆ s :=
  replaceAllAux_nil_subset r s 0 0

end Re

namespace ReCap

/-- A match with a capture consumes a piece of the input of which the capture is a part. -/
theorem runAt_consumes {rc : ReCap} {st : MState} {cap : JSString} {e : MState}
    (h : (cap, e) ∈ rc.runAt st) :
    ∃ x z, st.2 = x ++ cap ++ z ++ e.2 ∧ e.1 = st.1 + (x ++ cap ++ z).length ∧
      (st.1 + x.length, cap ++ z ++ e.2) ∈ rc.pre.run st ∧
      (st.1 + x.length + cap.length, z ++ e.2) ∈ rc.cap.run (st.1 + x.length, cap ++ z ++ e.2) ∧
      e ∈ rc.post.run (st.1 + x.length + cap.length, z ++ e.2) := by
  unfold runAt at h
  simp only [List.mem_flatMap, List.mem_map] at h
  obtain ⟨s1, h1, s2, h2, s3, h3, heq⟩ := h
  obtain ⟨x, hx1, hx2⟩ := Re.run_consumes _ _ _ h1
  obtain ⟨y, hy1, hy2⟩ := Re.run_consumes _ _ _ h2
  obtain ⟨z, hz1, hz2⟩ := Re.run_consumes _ _ _ h3
  simp only [Prod.mk.injEq] at heq
  obtain ⟨hcap, rfl⟩ := heq
  have hc : cap = y := by
    rw [← hcap, hy1, hy2]; simp
  subst hc
  obtain ⟨n1, t1⟩ := s1
  obtain ⟨n2, t2⟩ := s2
  simp only at hx1 hx2 hy1 hy2 hz1 hz2
  subst hx2 hy1 hy2 hz1
  refine ⟨x, z, ?_, ?_, ?_, ?_, ?_⟩
  · rw [hx1]; simp
  · rw [hz2]; simp; omega
  · simpa using h1
  · simpa using h2
  · simpa using h3

theorem capSearchFrom_some {rc : ReCap} : ∀ {s : JSString} {i j : Nat} {m : JSString × MState},
    rc.searchFrom i s = some (j, m) →
      ∃ a b, s = a ++ b ∧ j = i + a.length ∧ m ∈ rc.runAt (j, b) := by
  intro s
  induction s with
  | nil =>
    intro i j m h
    unfold searchFrom at h
    cases hm : (rc.runAt (i, [])).head? with
    | none => rw [hm] at h; cases h
    | some e' =>
      rw [hm] at h
      simp only [Option.map_some', Option.some.injEq, Prod.mk.injEq] at h
      obtain ⟨rfl, rfl⟩ := h
      exact ⟨[], [], rfl, rfl, List.mem_of_mem_head? hm⟩
  | cons c t ih =>
    intro i j m h
    unfold searchFrom at h
    cases hm : (rc.runAt (i, c :: t)).head? with
    | some e' =>
      rw [hm] at h
      simp only [Option.some.injEq, Prod.mk.injEq] at h
      obtain ⟨rfl, rfl⟩ := h
      exact ⟨[], c :: t, rfl, rfl, List.mem_of_mem_head? hm⟩
    | none =>
      rw [hm] at h
      obtain ⟨a, b, hab, hj, he⟩ := ih h
      exact ⟨c :: a, b, by rw [hab]; rfl, by rw [hj, List.length_cons]; omega, he⟩

end ReCap

/-! ## Independence of the runtime on ASCII text -/

theorem all_of_subset {P : Char → Bool} {a b : JSString} (h : a ⊆ b) (hb : b.all P = true) :
    a.all P = true := by
  rw [List.all_eq_true] at hb ⊢
  exact fun c hc => hb c (h hc)

theorem trim_subset (s : JSString) : trim s ⊆ s := by
  unfold trim
  intro c hc
  rw [List.mem_reverse] at hc
  have h1 := (List.dropWhile_sublist isSpace (l := (s.dropWhile isSpace).reverse)).subset hc
  rw [List.mem_reverse] at h1
  exact (List.dropWhile_sublist isSpace).subset h1

theorem isAscii_asciiLower {c : Char} (h : isAscii c = true) : isAscii (asciiLower c) = true := by
  unfold asciiLower
  by_cases hu : isUpperAZ c = true
  · rw [if_pos hu]
    simp only [isUpperAZ, inRange, Bool.and_eq_true, decide_eq_true_eq] at hu
    have e2 : ('Z' : Char).toNat = 90 := by decide
    rw [e2] at hu
    have hn : (Char.ofNat (c.toNat + 32)).toNat = c.toNat + 32 := toNat_ofNat_small _ (by omega)
    simp only [isAscii, decide_eq_true_eq, hn]
    omega
  · rw [if_neg hu]; exact h

/-- On ASCII text `slugify` does not depend on the runtime. -/
theorem slugify_ascii (R : Runtime) (s : JSString) (h : s.all isAscii = true) :
    slugify R s = slugify refRuntime s := by
  have h1 : R.toLowerCase s = s.map asciiLower := R.toLowerCase_ascii s h
  have h2 : (s.map asciiLower).all isAscii = true := by
    rw [List.all_eq_true] at h ⊢
    intro c hc
    rw [List.mem_map] at hc
    obtain ⟨d, hd, rfl⟩ := hc
    exact isAscii_asciiLower (h d hd)
  have h3 : R.normalizeNFD (s.map asciiLower) = s.map asciiLower := R.normalizeNFD_ascii _ h2
  unfold slugify
  simp only [h1, h3]
  rfl

/-- On an ASCII title and a plain site name `cleanPageTitle` does not depend on the
runtime. -/
theorem cleanPageTitle_ascii (R : Runtime) (title site : JSString)
    (ht : title.all isAscii = true) (hs : site.all isPlainChar = true) :
    cleanPageTitle R title site = cleanPageTitle refRuntime title site := by
  -- the callback of the first replacement
  have hf : ∀ (Q : Runtime),
      titleSuffixPattern.replaceWith
        (fun whole suffix =>
          if TITLE_SUFFIXES.any (fun s => includes (Q.toLowerCase (trim suffix)) s) = true
          then [] else whole) title =
      titleSuffixPattern.replaceWith
        (fun whole suffix =>
          if TITLE_SUFFIXES.any (fun s => includes ((trim suffix).map asciiLower) s) = true
          then [] else whole) title ∧
      titleSuffixPattern.replaceWith
        (fun whole suffix =>
          if TITLE_SUFFIXES.any (fun s => includes ((trim suffix).map asciiLower) s) = true
          then [] else whole) title ⊆ title := by
    intro Q
    unfold ReCap.replaceWith
    cases hsr : titleSuffixPattern.searchFrom 0 title with
    | none => exact ⟨rfl, List.Subset.refl _⟩
    | some m =>
      obtain ⟨j, cap, e⟩ := m
      obtain ⟨a, b, hab, hj, he⟩ := ReCap.capSearchFrom_some hsr
      obtain ⟨x, z, hb, he1, -, -, -⟩ := ReCap.runAt_consumes he
      simp only at hb he1
      have hcap : cap ⊆ title := by
        rw [hab, hb]; intro c hc; simp [hc]
      have hlow : Q.toLowerCase (trim cap) = (trim cap).map asciiLower :=
        Q.toLowerCase_ascii _ (all_of_subset ((trim_subset cap).trans hcap) ht)
      simp only [hlow, true_and]
      intro c hc
      simp only [List.mem_append] at hc
      rcases hc with (hc | hc) | hc
      · exact (List.take_subset _ _) hc
      · split at hc
        · cases hc
        · exact (List.drop_subset _ _) ((List.take_subset _ _) hc)
      · rw [hab, hb]; simp [hc]
  have h1 := (hf R).1
  have h2 := (hf refRuntime).1
  have hsub := (hf R).2
  have htail : ∀ (c2 : JSString), c2.all isAscii = true →
      truncateAtWord (slugify R (trim
        (qualityTagPattern.replaceAll [] (sizeTagPattern.replaceAll [] c2)))) 50 =
      truncateAtWord (slugify refRuntime (trim
        (qualityTagPattern.replaceAll [] (sizeTagPattern.replaceAll [] c2)))) 50 := by
    intro c2 hc2
    rw [slugify_ascii R _ (all_of_subset ((trim_subset _).trans
      ((Re.replaceAll_nil_subset _ _).trans (Re.replaceAll_nil_subset _ _))) hc2)]
  have hsp : sitePattern R site = sitePattern refRuntime site := by
    unfold sitePattern; rw [if_pos hs, if_pos hs]
  unfold cleanPageTitle
  simp only [h1, h2, hsp]
  generalize titleSuffixPattern.replaceWith
        (fun whole suffix =>
          if TITLE_SUFFIXES.any (fun s => includes ((trim suffix).map asciiLower) s) = true
          then [] else whole) title = c1 at hsub
  have hc1 : c1.all isAscii = true := all_of_subset hsub ht
  apply Option.map_congr
  intro c2 hc2
  apply htail
  by_cases hse : site.isEmpty = true
  · rw [if_pos hse] at hc2
    cases hc2
    exact hc1
  · rw [if_neg hse] at hc2
    generalize sitePattern refRuntime site = sp at hc2
    cases sp with
    | none => cases hc2
    | some p =>
      cases hc2
      exact all_of_subset (Re.replaceFirst_nil_subset _ _) hc1

set_option maxRecDepth 100000 in
/-- Counterexample to C3 as stated.  On the context of Scenario A the base `pin_8372910293`
of the original name matches no garbage pattern, and `applyRules` returns `pin_8372910293.jpg` itself, not the date followed by
`-pinterest-cozy-reading-nook-ideas.jpg`. -/
theorem C3_counterexample :
    isGarbage (some (stripExtension scenarioA.originalName)) = false ∧
    applyRules refRuntime sampleDate scenarioA = some scenarioA.originalName ∧
    applyRules refRuntime sampleDate scenarioA ≠
      some (getFormattedDate sampleDate ++ "-pinterest-cozy-reading-nook-ideas.jpg".toList) := by
  decide

set_option maxRecDepth 100000 in
/-- C3 (amended). Scenario A: for every invocation date, `applyRules` returns the original name
`pin_8372910293.jpg` unchanged, because `pin_8372910293` matches no garbage pattern.  With the
camera-default name `IMG_8372910293.jpg` and the rest of the context unchanged, it returns the
date string followed by `-pinterest-cozy-reading-nook-ideas.jpg`. -/
theorem C3_scenario_A (R : Runtime) (now : JSDate) :
    applyRules R now scenarioA = some "pin_8372910293.jpg".toList ∧
    (R.urlHostname "https://i.pinimg.com/x/abc.jpg".toList = some "i.pinimg.com".toList →
      applyRules R now scenarioACamera =
        some (getFormattedDate now ++ "-pinterest-cozy-reading-nook-ideas.jpg".toList)) := by
  constructor
  · exact applyRules_passThrough R now scenarioA (fun _ h => by cases h) (by decide)
  · intro hhost
    have hS : getSiteName R scenarioACamera.url = "pinterest".toList := by
      show getSiteName R "https://i.pinimg.com/x/abc.jpg".toList = _
      unfold getSiteName
      rw [hhost]
      decide
    have hT : TitleSlug R scenarioACamera (getSiteName R scenarioACamera.url)
        "cozy-reading-nook-ideas".toList := by
      rw [hS]
      show cleanPageTitle R "Cozy Reading Nook Ideas | Pinterest".toList "pinterest".toList
        = some _
      rw [cleanPageTitle_ascii R _ _ (by decide) (by decide)]
      decide
    have hE : resolvedExt R scenarioACamera = "jpg".toList := rfl
    have hc : specCandidate (getFormattedDate now) (getSiteName R scenarioACamera.url)
        "cozy-reading-nook-ideas".toList =
        some (getFormattedDate now ++ "-pinterest-cozy-reading-nook-ideas".toList) := by
      rw [hS]
      have h5 : jsLength "cozy-reading-nook-ideas".toList > 5 := by decide
      have hne : "pinterest".toList ≠ [] := by decide
      unfold specCandidate
      rw [if_pos h5, if_neg hne]
      simp
    have hlen : 15 ≤ jsLength
        (getFormattedDate now ++ "-pinterest-cozy-reading-nook-ideas".toList) := by
      rw [jsLength_append]
      have : jsLength "-pinterest-cozy-reading-nook-ideas".toList = 34 := by decide
      omega
    have h := applyRules_synthesis R now scenarioACamera _ (fun _ h => by cases h)
      (by decide) hT
    rw [hc] at h
    simp only [Nat.not_lt.mpr hlen, if_false] at h
    rw [h, hE]
    simp [withExt]

set_option maxRecDepth 100000 in
/-- Witness of C3: the camera-default variant of Scenario A on 5 January 2024. -/
theorem C3_scenario_A_witness :
    refRuntime.urlHostname "https://i.pinimg.com/x/abc.jpg".toList = some "i.pinimg.com".toList ∧
    applyRules refRuntime sampleDate scenarioACamera =
      some "2024-01-05-pinterest-cozy-reading-nook-ideas.jpg".toList :=
  have h : refRuntime.urlHostname "https://i.pinimg.com/x/abc.jpg".toList
      = some "i.pinimg.com".toList := by decide
  ⟨h, ((C3_scenario_A refRuntime sampleDate).2 h).trans (by decide)⟩

theorem endsWith_append (a b : JSString) : endsWith (a ++ b) b = true := by
  simp [endsWith]

set_option maxRecDepth 100000 in
/-- Counterexample to C6 as stated.  On Scenario B the MIME type `image/jpeg` maps to `jpg`
and the original name `vacation_photo.png` does not end in `.jpg`, yet the name returned is `vacation_photo.png`,
which does not end in `.jpg`. -/
theorem C6_counterexample :
    getExtension refRuntime scenarioB.mimeType = "jpg".toList ∧
    endsWith scenarioB.originalName ".jpg".toList = false ∧
    applyRules refRuntime sampleDate scenarioB = some "vacation_photo.png".toList ∧
    endsWith "vacation_photo.png".toList ".jpg".toList = false := by
  decide

set_option maxRecDepth 100000 in
/-- C6 (amended). Extension preservation: when the MIME type is `image/jpeg` or `image/jpg`,
the resolved extension is `jpg`; a name produced by title/site synthesis ends in `.jpg`; a name
taken from a Content-Disposition header ends in `.jpg` when the header name has no extension
of its own, and in `.` and that extension otherwise; a non-garbage original name, with no
usable header name, is returned unchanged whatever its extension. -/
theorem C6_extension (R : Runtime) (now : JSDate) (ctx : Context) (m : JSString)
    (hm : ctx.mimeType = some m)
    (hjpg : m = "image/jpeg".toList ∨ m = "image/jpg".toList) :
    resolvedExt R ctx = "jpg".toList ∧
    (HeaderUnusable R ctx.contentDisposition →
      isGarbage (some (stripExtension ctx.originalName)) = true →
      ∀ name, applyRules R now ctx = some name → name ≠ ctx.originalName →
        endsWith name ".jpg".toList = true) ∧
    (∀ h n, ctx.contentDisposition = some h → parseContentDisposition R h = some n →
      isGarbage (some (stripExtension n)) = false →
      ∃ name, applyRules R now ctx = some name ∧
        (getExtFromFilename R n = [] → endsWith name ".jpg".toList = true) ∧
        (getExtFromFilename R n ≠ [] →
          endsWith name ('.' :: getExtFromFilename R n) = true)) ∧
    (HeaderUnusable R ctx.contentDisposition →
      isGarbage (some (stripExtension ctx.originalName)) = false →
      applyRules R now ctx = some ctx.originalName) := by
  have hE : resolvedExt R ctx = "jpg".toList := by
    unfold resolvedExt
    rw [hm]
    rcases hjpg with rfl | rfl <;> rfl
  refine ⟨hE, ?_, ?_, applyRules_passThrough R now ctx⟩
  · intro hcd hg name hname hne
    rcases titleSlug_or_throws R now ctx hcd hg with ⟨T, hT⟩ | hthrow
    · have h := applyRules_synthesis R now ctx T hcd hg hT
      rw [hname, hE] at h
      have h' := Option.some.inj h
      cases hc : specCandidate (getFormattedDate now) (getSiteName R ctx.url) T with
      | none => rw [hc] at h'; exact absurd h' hne
      | some c =>
        rw [hc] at h'
        by_cases hlt : jsLength c < 15
        · simp only [hlt, if_true] at h'; exact absurd h' hne
        · simp only [hlt, if_false] at h'
          have hw : withExt c "jpg".toList = c ++ ".jpg".toList := by
            unfold withExt
            rw [if_neg (by decide)]
            simp
          rw [h', hw]
          exact endsWith_append _ _
    · rw [hthrow] at hname; cases hname
  · intro h n hcd hp hg
    refine ⟨_, applyRules_header R now ctx h n hcd hp hg, ?_, ?_⟩
    · intro he
      unfold normalizeFilename
      rw [he, hE]
      exact endsWith_append _ (".jpg".toList)
    · intro he
      unfold normalizeFilename
      have hj : jsOr (getExtFromFilename R n) (resolvedExt R ctx) = getExtFromFilename R n := by
        unfold jsOr
        rw [if_neg (by simpa using he)]
      simp only [hj]
      rw [if_neg (by simpa using he)]
      exact endsWith_append _ _

set_option maxRecDepth 100000 in
/-- Witness of C6: the name of the camera-default variant of Scenario A ends in `.jpg`. -/
theorem C6_extension_witness :
    scenarioACamera.mimeType = some "image/jpeg".toList ∧
    resolvedExt refRuntime scenarioACamera = "jpg".toList ∧
    endsWith "2024-01-05-pinterest-cozy-reading-nook-ideas.jpg".toList ".jpg".toList = true :=
  have h := C6_extension refRuntime sampleDate scenarioACamera "image/jpeg".toList rfl
    (Or.inl rfl)
  ⟨rfl, h.1,
    h.2.1 (fun _ h => by cases h) (by decide) _ (by decide) (by decide)⟩

/-! ## The garbage classifier -/

namespace Re

theorem mem_seq_intro {a b : Re} {st m e : MState} (h1 : m ∈ run a st) (h2 : e ∈ run b m) :
    e ∈ run (seq a b) st :=
  mem_run_seq.mpr ⟨m, h1, h2⟩

theorem run_one_of {p : Char → Bool} (i : Nat) (c : Char) (t : JSString) (h : p c = true) :
    (i + 1, t) ∈ run (one p) (i, c :: t) := by
  have h1 : [c].all p = true := by simp [h]
  have := run_rep_of_all p 1 (some 1) i [c] t h1 (by simp)
    (by intro h hh; cases hh; simp)
  simpa [one] using this

theorem run_chr_of (i : Nat) (c : Char) (t : JSString) :
    (i + 1, t) ∈ run (chr c) (i, c :: t) :=
  run_one_of i c t (by simp)

/-- A word matches, under the `i` flag, the literal of its lower-case form. -/
theorem run_strCI_lower : ∀ (w : JSString) (i : Nat) (t : JSString),
    (i + w.length, t) ∈ run (strCI (w.map asciiLower)) (i, w ++ t) := by
  intro w
  induction w with
  | nil => intro i t; simp [strCI, cat, run]
  | cons c w ih =>
    intro i t
    have h1 : (i + 1, w ++ t) ∈ run (chrCI (asciiLower c)) (i, c :: (w ++ t)) :=
      run_one_of i c _ (by simp [ciEq, asciiUpper_asciiLower])
    have h2 := ih (i + 1) t
    have : i + (c :: w).length = i + 1 + w.length := by simp; omega
    rw [this]
    exact mem_seq_intro h1 h2

end Re

theorem all_of_forall {p : Char → Bool} {s : JSString} (h : ∀ c ∈ s, p c = true) :
    s.all p = true := List.all_eq_true.mpr h

theorem isGarbage_of_test {p : Re} {n : JSString} (hp : p ∈ garbagePatterns)
    (h : p.test n = true) : isGarbage (some n) = true := by
  unfold isGarbage
  by_cases he : n.isEmpty = true
  · simp [he]
  · simp only [he, if_false]
    exact List.any_eq_true.mpr ⟨p, hp, h⟩

/-- A whole name made of one class, long enough, matches `^[class]{lo,}$`. -/
theorem test_anchored_class {p : Char → Bool} {lo : Nat} {n : JSString}
    (hlen : lo ≤ n.length) (hc : ∀ c ∈ n, p c = true) :
    (Re.cat [Re.bol, Re.rep p lo none, Re.eol]).test n = true := by
  have h1 : (0, n) ∈ Re.run Re.bol (0, n) := by simp [Re.run]
  have h2 : (0 + n.length, []) ∈ Re.run (Re.rep p lo none) (0, n ++ []) :=
    Re.run_rep_of_all p lo none 0 n [] (all_of_forall hc) hlen (by intro h hh; cases hh)
  rw [List.append_nil] at h2
  have h3 : (0 + n.length, []) ∈ Re.run Re.eol (0 + n.length, ([] : JSString)) := by
    simp [Re.run]
  exact Re.test_of_mem (Re.mem_seq_intro h1 (Re.mem_seq_intro h2
    (Re.mem_seq_intro h3 (Re.mem_run_eps.mpr rfl))))

theorem isGarbage_numeric {n : JSString} (h : ShapeNumeric n) : isGarbage (some n) = true :=
  isGarbage_of_test (p := numericPattern) (by simp [garbagePatterns])
    (test_anchored_class h.1 (fun c hc => by rcases h.2 c hc with h | h | h <;> simp [h]))

theorem isGarbage_hex {n : JSString} (h : ShapeHex n) : isGarbage (some n) = true :=
  isGarbage_of_test (p := hexPattern) (by simp [garbagePatterns]) (test_anchored_class h.1 h.2)

theorem isGarbage_alnum {n : JSString} (h : ShapeAlnum n) : isGarbage (some n) = true :=
  isGarbage_of_test (p := alnumPattern) (by simp [garbagePatterns]) (test_anchored_class h.1 h.2)

theorem isWord_of_isAlnum {c : Char} (h : isAlnum c = true) : isWord c = true := by
  simp [isWord, h]

theorem isGarbage_uuid {n : JSString} (h : ShapeUuid n) : isGarbage (some n) = true := by
  obtain ⟨g1, g2, g3, gs, hn, hal, h8, h4⟩ := h
  refine isGarbage_of_test (p := uuidPattern) (by simp [garbagePatterns]) ?_
  obtain ⟨rest, hrest⟩ : ∃ rest, n = g1 ++ '-' :: (g2 ++ '-' :: (g3 ++ rest)) := by
    cases gs with
    | nil => exact ⟨[], by simp [hn, List.intercalate, List.intersperse]⟩
    | cons g gs =>
      exact ⟨'-' :: List.intercalate ['-'] (g :: gs), by
        simp [hn, List.intercalate, List.intersperse]⟩
  have w1 : g1.all isWord = true :=
    all_of_forall (fun c hc => isWord_of_isAlnum (hal g1 (by simp) c hc))
  have w2 : g2.all isWord = true :=
    all_of_forall (fun c hc => isWord_of_isAlnum (hal g2 (by simp) c hc))
  have w3 : g3.all isWord = true :=
    all_of_forall (fun c hc => isWord_of_isAlnum (hal g3 (by simp) c hc))
  have l2 : 4 ≤ g2.length := h4 g2 (by simp)
  have l3 : 4 ≤ g3.length := h4 g3 (by simp)
  rw [hrest]
  have s0 : (0, g1 ++ '-' :: (g2 ++ '-' :: (g3 ++ rest))) ∈
      Re.run Re.bol (0, g1 ++ '-' :: (g2 ++ '-' :: (g3 ++ rest))) := by simp [Re.run]
  have s1 := Re.run_rep_of_all isWord 8 none 0 g1
    ('-' :: (g2 ++ '-' :: (g3 ++ rest))) w1 h8 (by intro h hh; cases hh)
  have s2 := Re.run_chr_of (0 + g1.length) '-' (g2 ++ '-' :: (g3 ++ rest))
  have s3 := Re.run_rep_of_all isWord 4 none (0 + g1.length + 1) g2
    ('-' :: (g3 ++ rest)) w2 l2 (by intro h hh; cases hh)
  have s4 := Re.run_chr_of (0 + g1.length + 1 + g2.length) '-' (g3 ++ rest)
  have s5 := Re.run_rep_of_all isWord 4 none
    (0 + g1.length + 1 + g2.length + 1) g3 rest w3 l3 (by intro h hh; cases hh)
  exact Re.test_of_mem (Re.mem_seq_intro s0 (Re.mem_seq_intro s1 (Re.mem_seq_intro s2
    (Re.mem_seq_intro s3 (Re.mem_seq_intro s4 (Re.mem_seq_intro s5
      (Re.mem_run_eps.mpr rfl)))))))

theorem isGarbage_camera {n : JSString} (h : ShapeCamera n) : isGarbage (some n) = true := by
  obtain ⟨w, u, ds, hn, hw, hu, hds, hdig⟩ := h
  refine isGarbage_of_test (p := cameraPattern) (by simp [garbagePatterns]) ?_
  have hn' : n = w ++ (u ++ (ds ++ [])) := by simp [hn]
  rw [hn']
  have s0 : (0, w ++ (u ++ (ds ++ []))) ∈ Re.run Re.bol (0, w ++ (u ++ (ds ++ []))) := by
    simp [Re.run]
  have hlit := Re.run_strCI_lower w 0 (u ++ (ds ++ []))
  have s1 : (0 + w.length, u ++ (ds ++ [])) ∈
      Re.run (Re.alt (Re.strCI "img".toList) (Re.alt (Re.strCI "dsc".toList)
        (Re.alt (Re.strCI "image".toList) (Re.strCI "photo".toList))))
        (0, w ++ (u ++ (ds ++ []))) := by
    simp only [List.mem_cons, List.mem_singleton, List.not_mem_nil, or_false] at hw
    rcases hw with hw | hw | hw | hw <;> rw [hw] at hlit
    · exact Re.mem_run_alt.mpr (Or.inl hlit)
    · exact Re.mem_run_alt.mpr (Or.inr (Re.mem_run_alt.mpr (Or.inl hlit)))
    · exact Re.mem_run_alt.mpr (Or.inr (Re.mem_run_alt.mpr (Or.inr
        (Re.mem_run_alt.mpr (Or.inl hlit)))))
    · exact Re.mem_run_alt.mpr (Or.inr (Re.mem_run_alt.mpr (Or.inr
        (Re.mem_run_alt.mpr (Or.inr hlit)))))
  have s2 : (0 + w.length + u.length, ds ++ []) ∈
      Re.run (Re.opt (Re.chr '_')) (0 + w.length, u ++ (ds ++ [])) := by
    rcases hu with rfl | rfl
    · exact Re.mem_run_alt.mpr (Or.inr (Re.mem_run_eps.mpr rfl))
    · exact Re.mem_run_alt.mpr (Or.inl (Re.run_chr_of _ '_' _))
  have hpos : 1 ≤ ds.length := by
    cases ds with
    | nil => exact absurd rfl hds
    | cons _ _ => simp
  have s3 := Re.run_rep_of_all isDigit 1 none
    (0 + w.length + u.length) ds [] (all_of_forall hdig) hpos (by intro h hh; cases hh)
  have s4 : (0 + w.length + u.length + ds.length, []) ∈
      Re.run Re.eol (0 + w.length + u.length + ds.length, ([] : JSString)) := by
    simp [Re.run]
  exact Re.test_of_mem (Re.mem_seq_intro s0 (Re.mem_seq_intro s1 (Re.mem_seq_intro s2
    (Re.mem_seq_intro s3 (Re.mem_seq_intro s4 (Re.mem_run_eps.mpr rfl))))))

theorem isGarbage_size {n : JSString} (h : ShapeSize n) : isGarbage (some n) = true := by
  obtain ⟨a, b, hn, ⟨ha3, ha4, had⟩, hb⟩ := h
  refine isGarbage_of_test (p := sizePattern) (by simp [garbagePatterns]) ?_
  have hn' : n = a ++ 'x' :: (b ++ []) := by simp [hn]
  rw [hn']
  have s0 : (0, a ++ 'x' :: (b ++ [])) ∈ Re.run Re.bol (0, a ++ 'x' :: (b ++ [])) := by
    simp [Re.run]
  have s1 := Re.run_rep_of_all isDigit 3 (some 4) 0 a ('x' :: (b ++ []))
    (all_of_forall had) ha3 (by intro h hh; cases hh; exact ha4)
  have s2 := Re.run_chr_of (0 + a.length) 'x' (b ++ [])
  have s3 : (0 + a.length + 1 + b.length, []) ∈
      Re.run (Re.opt (Re.rep isDigit 3 (some 4))) (0 + a.length + 1, b ++ []) := by
    rcases hb with rfl | ⟨hb3, hb4, hbd⟩
    · exact Re.mem_run_alt.mpr (Or.inr (Re.mem_run_eps.mpr rfl))
    · exact Re.mem_run_alt.mpr (Or.inl (Re.run_rep_of_all _ _ _ _ b [] (all_of_forall hbd) hb3
        (by intro h hh; cases hh; exact hb4)))
  have s4 : (0 + a.length + 1 + b.length, []) ∈
      Re.run Re.eol (0 + a.length + 1 + b.length, ([] : JSString)) := by
    simp [Re.run]
  exact Re.test_of_mem (Re.mem_seq_intro s0 (Re.mem_seq_intro s1 (Re.mem_seq_intro s2
    (Re.mem_seq_intro s3 (Re.mem_seq_intro s4 (Re.mem_run_eps.mpr rfl))))))

theorem isGarbage_hashPair {n : JSString} (h : ShapeHashPair n) :
    isGarbage (some n) = true := by
  obtain ⟨a, b, hn, ha6, hb6, hah, hbh⟩ := h
  refine isGarbage_of_test (p := hashPairPattern) (by simp [garbagePatterns]) ?_
  have hn' : n = a ++ '-' :: (b ++ []) := by simp [hn]
  rw [hn']
  have s0 : (0, a ++ '-' :: (b ++ [])) ∈ Re.run Re.bol (0, a ++ '-' :: (b ++ [])) := by
    simp [Re.run]
  have s1 := Re.run_rep_of_all isHexCI 6 none 0 a ('-' :: (b ++ []))
    (all_of_forall hah) ha6 (by intro h hh; cases hh)
  have s2 := Re.run_chr_of (0 + a.length) '-' (b ++ [])
  have s3 := Re.run_rep_of_all isHexCI 6 none (0 + a.length + 1) b []
    (all_of_forall hbh) hb6 (by intro h hh; cases hh)
  have s4 : (0 + a.length + 1 + b.length, []) ∈
      Re.run Re.eol (0 + a.length + 1 + b.length, ([] : JSString)) := by
    simp [Re.run]
  exact Re.test_of_mem (Re.mem_seq_intro s0 (Re.mem_seq_intro s1 (Re.mem_seq_intro s2
    (Re.mem_seq_intro s3 (Re.mem_seq_intro s4 (Re.mem_run_eps.mpr rfl))))))

/-- C10. Classifier completeness: `isGarbage` is true for the absent name, for the empty name
and for every name of one of the seven documented shape classes. -/
theorem C10_classifier_complete :
    isGarbage none = true ∧ isGarbage (some []) = true ∧
    ∀ n : JSString,
      (ShapeNumeric n ∨ ShapeHex n ∨ ShapeAlnum n ∨ ShapeUuid n ∨ ShapeCamera n ∨
        ShapeSize n ∨ ShapeHashPair n) →
      isGarbage (some n) = true := by
  refine ⟨rfl, rfl, ?_⟩
  rintro n (h | h | h | h | h | h | h)
  · exact isGarbage_numeric h
  · exact isGarbage_hex h
  · exact isGarbage_alnum h
  · exact isGarbage_uuid h
  · exact isGarbage_camera h
  · exact isGarbage_size h
  · exact isGarbage_hashPair h

set_option maxRecDepth 100000 in
/-- Witness of C10: one name of the UUID-like class and one of the camera class, with the
classifier evaluated on them. -/
theorem C10_classifier_complete_witness :
    ShapeUuid "123e4567-e89b-12d3-a456-426614174000".toList ∧
    ShapeCamera "IMG_0012".toList ∧
    isGarbage (some "123e4567-e89b-12d3-a456-426614174000".toList) = true ∧
    isGarbage (some "IMG_0012".toList) = true :=
  have h1 : ShapeUuid "123e4567-e89b-12d3-a456-426614174000".toList :=
    ⟨"123e4567".toList, "e89b".toList, "12d3".toList, ["a456".toList, "426614174000".toList],
      by decide, by decide, by decide, by decide⟩
  have h2 : ShapeCamera "IMG_0012".toList :=
    ⟨"IMG".toList, "_".toList, "0012".toList, by decide, by decide, by decide, by decide,
      by decide⟩
  ⟨h1, h2, C10_classifier_complete.2.2 _ (Or.inr (Or.inr (Or.inr (Or.inl h1)))),
    C10_classifier_complete.2.2 _ (Or.inr (Or.inr (Or.inr (Or.inr (Or.inl h2)))))⟩

/-! ## Global replacements of `slugify` in closed form -/

theorem countsDown_head_of_le {lo k : Nat} (h : lo ≤ k) (hk : 0 < k) :
    (countsDown lo k).head? = some k := by
  cases k with
  | zero => omega
  | succ k => simp [countsDown, h]

theorem countsDown_eq_nil {lo k : Nat} (h : k < lo) : countsDown lo k = [] := by
  cases k with
  | zero => simp [countsDown]; omega
  | succ k => simp [countsDown]; omega

theorem drop_spanLen (p : Char → Bool) (s : JSString) :
    s.drop (spanLen p s) = s.dropWhile p := by
  induction s with
  | nil => rfl
  | cons c t ih =>
    by_cases h : p c = true
    · simp [spanLen, h, List.dropWhile_cons, ih]
    · simp [spanLen, h, List.dropWhile_cons]

theorem spanLen_eq_length_iff {p : Char → Bool} {s : JSString} :
    spanLen p s = s.length ↔ s.all p = true := by
  induction s with
  | nil => simp [spanLen]
  | cons c t ih =>
    by_cases h : p c = true
    · simp [spanLen, h, ih]
    · simp [spanLen, h]

namespace Re

theorem matchAt_plus_pos {p : Char → Bool} (i : Nat) (s : JSString) (h : 0 < spanLen p s) :
    (plus p).matchAt (i, s) = some (i + spanLen p s, s.dropWhile p) := by
  unfold matchAt plus run
  simp only [capAt, List.head?_map, countsDown_head_of_le (Nat.succ_le_of_lt h) h,
    Option.map_some', drop_spanLen]

theorem matchAt_plus_zero {p : Char → Bool} (i : Nat) (s : JSString) (h : spanLen p s = 0) :
    (plus p).matchAt (i, s) = none := by
  unfold matchAt plus run
  simp [capAt, h, countsDown]

theorem matchAt_one_pos {p : Char → Bool} (i : Nat) (c : Char) (t : JSString)
    (h : p c = true) : (one p).matchAt (i, c :: t) = some (i + 1, t) := by
  unfold matchAt one run
  simp [capAt, spanLen, h, countsDown]

theorem matchAt_one_neg {p : Char → Bool} (i : Nat) (c : Char) (t : JSString)
    (h : p c = false) : (one p).matchAt (i, c :: t) = none := by
  unfold matchAt one run
  simp [capAt, spanLen, h, countsDown]

theorem matchAt_one_nil {p : Char → Bool} (i : Nat) : (one p).matchAt (i, []) = none := by
  unfold matchAt one run
  simp [capAt, spanLen, countsDown]

/-- Deleting every character of a class is a filter. -/
theorem replaceAllAux_one (p : Char → Bool) : ∀ (s : JSString) (i : Nat),
    (one p).replaceAllAux [] 0 i s = s.filter (fun c => !p c) := by
  intro s
  induction s with
  | nil => intro i; rw [replaceAllAux_nil, matchAt_one_nil]; rfl
  | cons c t ih =>
    intro i
    by_cases h : p c = true
    · rw [replaceAllAux_some _ _ _ _ _ _ (matchAt_one_pos i c t h)]
      simp [h, ih]
    · have h' : p c = false := by simpa using h
      rw [replaceAllAux_none _ _ _ _ _ (matchAt_one_neg i c t h')]
      simp [h', ih]

theorem replaceAll_one (p : Char → Bool) (s : JSString) :
    (one p).replaceAll [] s = s.filter (fun c => !p c) :=
  replaceAllAux_one p s 0

/-- Replacing every run of a class by one character, in closed form. -/
theorem replaceAllAux_plus (p : Char → Bool) (x : Char) : ∀ (s : JSString) (i : Nat),
    (plus p).replaceAllAux [x] 0 i s = collapseRuns p x false s ∧
    (plus p).replaceAllAux [x] (spanLen p s) i s = collapseRuns p x true s := by
  intro s
  induction s with
  | nil =>
    intro i
    have : (plus p).matchAt (i, []) = none := matchAt_plus_zero i [] rfl
    simp [replaceAllAux_nil, this, collapseRuns, spanLen]
  | cons c t ih =>
    intro i
    by_cases h : p c = true
    · have hs : spanLen p (c :: t) = spanLen p t + 1 := by simp [spanLen, h]
      have hm := matchAt_plus_pos (p := p) i (c :: t) (by omega)
      have hA : (plus p).replaceAllAux [x] 0 i (c :: t) = collapseRuns p x false (c :: t) := by
        rw [replaceAllAux_some _ _ _ _ _ _ hm]
        have : i + spanLen p (c :: t) - i - 1 = spanLen p t := by omega
        have hne : ¬ (i + spanLen p (c :: t) - i = 0) := by omega
        simp only [hne, if_false, this, (ih (i + 1)).2]
        simp [collapseRuns, h]
      refine ⟨hA, ?_⟩
      rw [hs, replaceAllAux_skip, (ih (i + 1)).2]
      simp [collapseRuns, h]
    · have h' : p c = false := by simpa using h
      have hs : spanLen p (c :: t) = 0 := by simp [spanLen, h']
      have hm := matchAt_plus_zero (p := p) i (c :: t) hs
      have hA : (plus p).replaceAllAux [x] 0 i (c :: t) = collapseRuns p x false (c :: t) := by
        rw [replaceAllAux_none _ _ _ _ _ hm, (ih (i + 1)).1]
        simp [collapseRuns, h']
      refine ⟨hA, ?_⟩
      rw [hs, hA]
      simp [collapseRuns, h']

theorem replaceAll_plus (p : Char → Bool) (x : Char) (s : JSString) :
    (plus p).replaceAll [x] s = collapseRuns p x false s :=
  (replaceAllAux_plus p x s 0).1

/-- Skipping the rest of a match moves the scan to its end. -/
theorem replaceAllAux_skip_drop (r : Re) (repl : JSString) : ∀ (k : Nat) (s : JSString)
    (i : Nat), k ≤ s.length →
    r.replaceAllAux repl k i s = r.replaceAllAux repl 0 (i + k) (s.drop k) := by
  intro k
  induction k with
  | zero => intro s i _; rfl
  | succ k ih =>
    intro s i hk
    cases s with
    | nil => simp at hk
    | cons c t =>
      rw [replaceAllAux_skip, ih t (i + 1) (by simpa using hk)]
      have : i + 1 + k = i + (k + 1) := by omega
      rw [this]; rfl

end Re

namespace Re

theorem run_bol_seq_zero (r : Re) (s : JSString) : run (seq bol r) (0, s) = run r (0, s) := by
  simp [run]

theorem run_bol_seq_pos (r : Re) (i : Nat) (s : JSString) (h : i ≠ 0) :
    run (seq bol r) (i, s) = [] := by
  simp [run, h]

theorem run_plus_eol_eq_nil {p : Char → Bool} (i : Nat) (s : JSString)
    (h : s.all p = false ∨ s = []) : run (seq (plus p) eol) (i, s) = [] := by
  apply List.eq_nil_iff_forall_not_mem.mpr
  intro e he
  rw [mem_run_seq] at he
  obtain ⟨m, hm, hme⟩ := he
  rw [plus, mem_run_rep] at hm
  obtain ⟨n, h1, h2, rfl⟩ := hm
  rw [mem_run_eol] at hme
  have hd := hme.1
  simp only [capAt] at h2
  simp only [List.drop_eq_nil_iff] at hd
  have hle := spanLen_le p s
  rcases h with h | h
  · have : spanLen p s = s.length := by omega
    rw [spanLen_eq_length_iff] at this
    rw [this] at h; cases h
  · subst h
    simp [spanLen] at h2
    omega

theorem matchAt_edge_none (i : Nat) (s : JSString)
    (h : spanLen (fun c => c == '-') s = 0) : edgeHyphens.matchAt (i, s) = none := by
  have h1 : run (plus (fun c => c == '-')) (i, s) = [] := by
    simp [plus, run, capAt, h, countsDown]
  have h2 : run edgeHyphens (i, s) = [] := by
    apply List.eq_nil_iff_forall_not_mem.mpr
    intro e he
    unfold edgeHyphens at he
    rw [mem_run_alt, mem_run_seq, mem_run_seq] at he
    rcases he with ⟨m, hm, hme⟩ | ⟨m, hm, _⟩
    · rw [mem_run_bol] at hm
      rw [hm.2, h1] at hme
      cases hme
    · rw [h1] at hm
      cases hm
  unfold matchAt
  rw [h2]
  rfl

theorem matchAt_edge_start (s : JSString) (h : 0 < spanLen (fun c => c == '-') s) :
    edgeHyphens.matchAt (0, s) =
      some (0 + spanLen (fun c => c == '-') s, s.dropWhile (fun c => c == '-')) := by
  have hp := matchAt_plus_pos (p := fun c => c == '-') 0 s h
  unfold matchAt at hp
  unfold matchAt edgeHyphens
  rw [run, run_bol_seq_zero]
  cases hr : run (plus (fun c => c == '-')) (0, s) with
  | nil => rw [hr] at hp; cases hp
  | cons a l => rw [hr] at hp; simpa using hp

theorem matchAt_edge_tail (i : Nat) (s : JSString) (hi : i ≠ 0) (hs : s ≠ [])
    (h : s.all (fun c => c == '-') = true) :
    edgeHyphens.matchAt (i, s) = some (i + s.length, []) := by
  have hlen : spanLen (fun c => c == '-') s = s.length := spanLen_eq_length_iff.mpr h
  have hpos : 0 < s.length := List.length_pos.mpr hs
  unfold matchAt edgeHyphens
  rw [run, run_bol_seq_pos _ i s hi, List.nil_append]
  obtain ⟨k, hk⟩ : ∃ k, s.length = k + 1 := ⟨s.length - 1, by omega⟩
  have hcd : countsDown 1 (k + 1) = (k + 1) :: countsDown 1 k := by simp [countsDown]
  simp only [run, plus, capAt, hlen, hk, hcd, List.map_cons, List.flatMap_cons]
  have hd : List.drop (k + 1) s = [] := by
    rw [List.drop_eq_nil_iff]; omega
  simp [hd]

theorem matchAt_edge_inner (i : Nat) (s : JSString) (hi : i ≠ 0)
    (h : s.all (fun c => c == '-') = false) : edgeHyphens.matchAt (i, s) = none := by
  unfold matchAt edgeHyphens
  rw [run, run_bol_seq_pos _ i s hi, run_plus_eol_eq_nil i s (Or.inl h)]
  rfl

/-- Past the start of the input, the edge pattern removes the hyphens that end it. -/
theorem replaceAllAux_edge_pos : ∀ (s : JSString) (i : Nat), i ≠ 0 →
    edgeHyphens.replaceAllAux [] 0 i s = dropTrailingHyphens s := by
  intro s
  induction s with
  | nil =>
    intro i _
    rw [replaceAllAux_nil, matchAt_edge_none i [] rfl]
    rfl
  | cons c t ih =>
    intro i hi
    by_cases h : (c :: t).all (fun d => d == '-') = true
    · rw [replaceAllAux_some _ _ _ _ _ _ (matchAt_edge_tail i (c :: t) hi (by simp) h)]
      have hne : ¬ (i + (c :: t).length - i = 0) := by simp
      have hk : i + (c :: t).length - i - 1 = t.length := by simp
      simp only [hne, if_false, hk, List.nil_append]
      rw [replaceAllAux_skip_drop _ _ _ _ _ (le_refl _), List.drop_length, replaceAllAux_nil,
        matchAt_edge_none _ [] rfl]
      simp [dropTrailingHyphens, h]
    · have h' : (c :: t).all (fun d => d == '-') = false := by simpa using h
      rw [replaceAllAux_none _ _ _ _ _ (matchAt_edge_inner i (c :: t) hi h'),
        ih (i + 1) (by omega)]
      simp [dropTrailingHyphens, h']

/-- The edge pattern removes the hyphens that start the input and those that end it. -/
theorem replaceAll_edge (s : JSString) :
    edgeHyphens.replaceAll [] s = dropTrailingHyphens (s.dropWhile (fun c => c == '-')) := by
  unfold replaceAll
  cases s with
  | nil =>
    rw [replaceAllAux_nil, matchAt_edge_none 0 [] rfl]
    rfl
  | cons c t =>
    by_cases h : (c == '-') = true
    · have hs : spanLen (fun c => c == '-') (c :: t) = spanLen (fun c => c == '-') t + 1 := by
        simp [spanLen, h]
      rw [replaceAllAux_some _ _ _ _ _ _ (matchAt_edge_start (c :: t) (by omega))]
      have hne : ¬ (0 + spanLen (fun c => c == '-') (c :: t) - 0 = 0) := by omega
      have hk : 0 + spanLen (fun c => c == '-') (c :: t) - 0 - 1
          = spanLen (fun c => c == '-') t := by omega
      simp only [hne, if_false, hk, List.nil_append]
      rw [replaceAllAux_skip_drop _ _ _ _ _ (spanLen_le _ t),
        replaceAllAux_edge_pos _ _ (by omega), drop_spanLen]
      simp [List.dropWhile_cons, h]
    · have h' : (c == '-') = false := by simpa using h
      have hs : spanLen (fun c => c == '-') (c :: t) = 0 := by simp [spanLen, h']
      rw [replaceAllAux_none _ _ _ _ _ (matchAt_edge_none 0 (c :: t) hs),
        replaceAllAux_edge_pos _ _ (by omega)]
      simp [List.dropWhile_cons, h', dropTrailingHyphens]

end Re

/-- The function `slugify` in closed form. -/
theorem slugify_eq (R : Runtime) (s : JSString) :
    slugify R s =
      if s.isEmpty then []
      else dropTrailingHyphens
        ((collapseRuns (fun c => c == '-') '-' false
          (collapseRuns isSpace '-' false
            (trim (((R.normalizeNFD (R.toLowerCase s)).filter (fun c => !isCombining c)).filter
              (fun c => !(!isSlugInput c)))))).dropWhile (fun c => c == '-')) := by
  unfold slugify
  simp only [Re.replaceAll_one, Re.replaceAll_plus, Re.replaceAll_edge]

/-! ## Characters of a slug -/

theorem slugChar_cases {c : Char} (h : isSlugChar c = true) :
    (97 ≤ c.toNat ∧ c.toNat ≤ 122) ∨ (48 ≤ c.toNat ∧ c.toNat ≤ 57) ∨ c = '-' := by
  have e1 : ('a' : Char).toNat = 97 := by decide
  have e2 : ('z' : Char).toNat = 122 := by decide
  have e3 : ('0' : Char).toNat = 48 := by decide
  have e4 : ('9' : Char).toNat = 57 := by decide
  simp only [isSlugChar, isLowerAZ, isDigit, inRange, Bool.or_eq_true, Bool.and_eq_true,
    decide_eq_true_eq, beq_iff_eq, e1, e2, e3, e4] at h
  rcases h with (h | h) | h
  · exact Or.inl h
  · exact Or.inr (Or.inl h)
  · exact Or.inr (Or.inr h)

theorem slugChar_toNat {c : Char} (h : isSlugChar c = true) :
    (97 ≤ c.toNat ∧ c.toNat ≤ 122) ∨ (48 ≤ c.toNat ∧ c.toNat ≤ 57) ∨ c.toNat = 45 := by
  rcases slugChar_cases h with h | h | h
  · exact Or.inl h
  · exact Or.inr (Or.inl h)
  · exact Or.inr (Or.inr (by rw [h]; decide))

theorem slugChar_isAscii {c : Char} (h : isSlugChar c = true) : isAscii c = true := by
  have := slugChar_toNat h
  simp only [isAscii, decide_eq_true_eq]
  omega

theorem slugChar_not_upper {c : Char} (h : isSlugChar c = true) : isUpperAZ c = false := by
  have := slugChar_toNat h
  have e1 : ('A' : Char).toNat = 65 := by decide
  have e2 : ('Z' : Char).toNat = 90 := by decide
  simp only [isUpperAZ, inRange, e1, e2, Bool.and_eq_false_imp, decide_eq_true_eq,
    decide_eq_false_iff_not]
  omega

theorem slugChar_not_combining {c : Char} (h : isSlugChar c = true) :
    isCombining c = false := by
  have := slugChar_toNat h
  simp only [isCombining, Bool.and_eq_false_imp, decide_eq_true_eq, decide_eq_false_iff_not]
  omega

theorem slugChar_not_space {c : Char} (h : isSlugChar c = true) : isSpace c = false := by
  have := slugChar_toNat h
  simp only [isSpace, Bool.or_eq_false_iff, Bool.and_eq_false_imp, decide_eq_true_eq,
    decide_eq_false_iff_not]
  omega

theorem slugChar_isSlugInput {c : Char} (h : isSlugChar c = true) : isSlugInput c = true := by
  simp only [isSlugChar, Bool.or_eq_true] at h
  simp only [isSlugInput, Bool.or_eq_true]
  rcases h with (h | h) | h
  · exact Or.inl (Or.inl (Or.inl h))
  · exact Or.inl (Or.inl (Or.inr h))
  · exact Or.inr h

theorem slugChar_of_input {c : Char} (h : isSlugInput c = true) (hs : isSpace c = false) :
    isSlugChar c = true := by
  simp only [isSlugInput, Bool.or_eq_true, hs] at h
  simp only [isSlugChar, Bool.or_eq_true]
  rcases h with ((h | h) | h) | h
  · exact Or.inl (Or.inl h)
  · exact Or.inl (Or.inr h)
  · cases h
  · exact Or.inr h

theorem asciiLower_slugChar {c : Char} (h : isSlugChar c = true) : asciiLower c = c := by
  unfold asciiLower
  rw [slugChar_not_upper h]
  rfl

/-! ## Runs and edges -/

theorem mem_collapseRuns {p : Char → Bool} {x : Char} : ∀ {s : JSString} {b : Bool} {c : Char},
    c ∈ collapseRuns p x b s → c = x ∨ (c ∈ s ∧ p c = false) := by
  intro s
  induction s with
  | nil => intro b c h; simp [collapseRuns] at h
  | cons d t ih =>
    intro b c h
    unfold collapseRuns at h
    by_cases hd : p d = true
    · rw [if_pos hd] at h
      cases b with
      | true =>
        simp only [if_true] at h
        rcases ih h with h | ⟨h1, h2⟩
        · exact Or.inl h
        · exact Or.inr ⟨List.mem_cons_of_mem _ h1, h2⟩
      | false =>
        simp only [Bool.false_eq_true, if_false, List.mem_cons] at h
        rcases h with h | h
        · exact Or.inl h
        · rcases ih h with h | ⟨h1, h2⟩
          · exact Or.inl h
          · exact Or.inr ⟨List.mem_cons_of_mem _ h1, h2⟩
    · rw [if_neg hd, List.mem_cons] at h
      rcases h with h | h
      · exact Or.inr ⟨by rw [h]; exact List.mem_cons_self _ _, by rw [h]; simpa using hd⟩
      · rcases ih h with h | ⟨h1, h2⟩
        · exact Or.inl h
        · exact Or.inr ⟨List.mem_cons_of_mem _ h1, h2⟩

/-- Collapsing runs of hyphens leaves no two consecutive hyphens, and no leading hyphen when
the text continues a run. -/
theorem collapseRuns_hyphen_chain : ∀ (s : JSString) (b : Bool),
    List.Chain' (fun x y : Char => ¬ (x = '-' ∧ y = '-'))
      (collapseRuns (fun c => c == '-') '-' b s) ∧
    (b = true → (collapseRuns (fun c => c == '-') '-' b s).head? ≠ some '-') := by
  intro s
  induction s with
  | nil => intro b; simp [collapseRuns]
  | cons d t ih =>
    intro b
    unfold collapseRuns
    by_cases hd : (d == '-') = true
    · simp only [hd, if_true]
      cases b with
      | true => simpa using ih true
      | false =>
        simp only [Bool.false_eq_true, if_false, false_implies, and_true]
        rw [List.chain'_cons']
        refine ⟨?_, (ih true).1⟩
        intro y hy hyy
        exact (ih true).2 rfl (by rw [Option.mem_def] at hy; rw [hy, hyy.2])
    · have hd' : d ≠ '-' := by simpa using hd
      simp only [hd, Bool.false_eq_true, if_false]
      refine ⟨?_, fun _ => by simpa using hd'⟩
      rw [List.chain'_cons']
      exact ⟨fun y _ hyy => hd' hyy.1, (ih false).1⟩

theorem chain_no_double {s : JSString}
    (h : List.Chain' (fun x y : Char => ¬ (x = '-' ∧ y = '-')) s) :
    ∀ a b : JSString, s ≠ a ++ '-' :: '-' :: b := by
  intro a b heq
  have hin : ['-', '-'] <:+: s := ⟨a, b, by rw [heq]; simp⟩
  have := h.infix hin
  simp at this

theorem dropTrailingHyphens_initial : ∀ s : JSString, dropTrailingHyphens s <+: s := by
  intro s
  induction s with
  | nil => exact List.prefix_refl _
  | cons c t ih =>
    unfold dropTrailingHyphens
    split
    · exact List.nil_prefix
    · exact (List.prefix_cons_inj c).mpr ih

theorem dropTrailingHyphens_eq_nil : ∀ {s : JSString}, dropTrailingHyphens s = [] →
    s.all (fun d => d == '-') = true := by
  intro s h
  cases s with
  | nil => rfl
  | cons c t =>
    unfold dropTrailingHyphens at h
    by_cases ha : (c :: t).all (fun d => d == '-') = true
    · exact ha
    · rw [if_neg ha] at h; cases h

theorem dropTrailingHyphens_last : ∀ s : JSString,
    (dropTrailingHyphens s).getLast? ≠ some '-' := by
  intro s
  induction s with
  | nil => simp [dropTrailingHyphens]
  | cons c t ih =>
    unfold dropTrailingHyphens
    by_cases ha : (c :: t).all (fun d => d == '-') = true
    · rw [if_pos ha]; simp
    · rw [if_neg ha]
      cases hd : dropTrailingHyphens t with
      | nil =>
        have ht := dropTrailingHyphens_eq_nil hd
        simp only [List.all_cons, ht, Bool.and_true, beq_iff_eq] at ha
        simpa using ha
      | cons e l =>
        rw [hd] at ih
        rw [List.getLast?_cons_cons]
        exact ih

theorem head_of_initial {a s : JSString} (h : a <+: s) (ha : a ≠ []) : a.head? = s.head? := by
  obtain ⟨t, rfl⟩ := h
  cases a with
  | nil => exact absurd rfl ha
  | cons c l => rfl

theorem dropWhile_head (p : Char → Bool) (s : JSString) (c : Char)
    (h : (s.dropWhile p).head? = some c) : p c = false := by
  induction s with
  | nil => simp at h
  | cons d t ih =>
    rw [List.dropWhile_cons] at h
    by_cases hd : p d = true
    · rw [if_pos hd] at h; exact ih h
    · rw [if_neg hd] at h
      simp only [List.head?_cons, Option.some.injEq] at h
      rw [← h]; simpa using hd

/-- The result of `slugify` is a valid Slug. -/
theorem slugify_valid (R : Runtime) (s : JSString) : ValidSlug (slugify R s) := by
  rw [slugify_eq]
  by_cases he : s.isEmpty = true
  · rw [if_pos he]
    exact ⟨by simp, by simp, by simp, by simp⟩
  · rw [if_neg he]
    generalize ((R.normalizeNFD (R.toLowerCase s)).filter (fun c => !isCombining c)) = u
    have hpre := dropTrailingHyphens_initial
      ((collapseRuns (fun c => c == '-') '-' false
        (collapseRuns isSpace '-' false
          (trim (u.filter (fun c => !(!isSlugInput c)))))).dropWhile (fun c => c == '-'))
    have hsuf := List.dropWhile_suffix (fun c => c == '-')
      (l := collapseRuns (fun c => c == '-') '-' false
        (collapseRuns isSpace '-' false (trim (u.filter (fun c => !(!isSlugInput c))))))
    have hchain := (collapseRuns_hyphen_chain
      (collapseRuns isSpace '-' false (trim (u.filter (fun c => !(!isSlugInput c))))) false).1
    refine ⟨?_, ?_, dropTrailingHyphens_last _, ?_⟩
    · intro c hc
      have h1 := hsuf.subset (hpre.subset hc)
      rcases mem_collapseRuns h1 with h | ⟨h2, _⟩
      · rw [h]; decide
      · rcases mem_collapseRuns h2 with h | ⟨h3, h4⟩
        · rw [h]; decide
        · have h5 := trim_subset _ h3
          rw [List.mem_filter] at h5
          exact slugChar_of_input (by simpa using h5.2) h4
    · intro hh
      by_cases hn : dropTrailingHyphens
        ((collapseRuns (fun c => c == '-') '-' false
          (collapseRuns isSpace '-' false
            (trim (u.filter (fun c => !(!isSlugInput c)))))).dropWhile (fun c => c == '-')) = []
      · rw [hn] at hh; cases hh
      · rw [head_of_initial hpre hn] at hh
        have := dropWhile_head _ _ _ hh
        simp at this
    · exact chain_no_double ( List.Chain'.prefix (hchain.suffix hsuf) hpre)

/-! ## `slugify` on a valid Slug -/

theorem filter_eq_self_of_forall {p : Char → Bool} {s : JSString}
    (h : ∀ c ∈ s, p c = true) : s.filter p = s :=
  List.filter_eq_self.mpr h

theorem dropWhile_eq_self_of_head {p : Char → Bool} {s : JSString}
    (h : ∀ c, s.head? = some c → p c = false) : s.dropWhile p = s := by
  cases s with
  | nil => rfl
  | cons c t =>
    rw [List.dropWhile_cons, h c rfl]
    rfl

theorem trim_eq_self {s : JSString} (h : ∀ c ∈ s, isSpace c = false) : trim s = s := by
  unfold trim
  rw [dropWhile_eq_self_of_head (s := s) (fun c hc => h c (List.mem_of_mem_head? hc)),
    dropWhile_eq_self_of_head (s := s.reverse)
      (fun c hc => h c (List.mem_reverse.mp (List.mem_of_mem_head? hc))),
    List.reverse_reverse]

theorem collapseRuns_eq_self {p : Char → Bool} {x : Char} : ∀ {s : JSString} (b : Bool),
    (∀ c ∈ s, p c = false) → collapseRuns p x b s = s := by
  intro s
  induction s with
  | nil => intro b _; rfl
  | cons c t ih =>
    intro b h
    unfold collapseRuns
    rw [h c (List.mem_cons_self _ _)]
    simp only [Bool.false_eq_true, if_false]
    rw [ih false (fun d hd => h d (List.mem_cons_of_mem _ hd))]

/-- Text without two consecutive hyphens is left as it is by the collapse of hyphen runs. -/
theorem collapseRuns_hyphen_eq_self : ∀ (s : JSString),
    (∀ a b : JSString, s ≠ a ++ '-' :: '-' :: b) →
    collapseRuns (fun c => c == '-') '-' false s = s ∧
    (s.head? ≠ some '-' → collapseRuns (fun c => c == '-') '-' true s = s) := by
  intro s
  induction s with
  | nil => intro _; exact ⟨rfl, fun _ => rfl⟩
  | cons c t ih =>
    intro h
    have ht : ∀ a b : JSString, t ≠ a ++ '-' :: '-' :: b := by
      intro a b e
      exact h (c :: a) b (by rw [e]; rfl)
    obtain ⟨ih1, ih2⟩ := ih ht
    by_cases hc : (c == '-') = true
    · have hc' : c = '-' := by simpa using hc
      have hth : t.head? ≠ some '-' := by
        intro e
        cases t with
        | nil => cases e
        | cons d u =>
          simp only [List.head?_cons, Option.some.injEq] at e
          exact h [] u (by rw [hc', e]; rfl)
      constructor
      · unfold collapseRuns
        simp only [hc, if_true, Bool.false_eq_true, if_false]
        rw [ih2 hth, hc']
      · intro hh
        exact absurd (by rw [hc']; rfl) hh
    · constructor
      · unfold collapseRuns
        simp only [hc, Bool.false_eq_true, if_false]
        rw [ih1]
      · intro _
        unfold collapseRuns
        simp only [hc, Bool.false_eq_true, if_false]
        rw [ih1]

theorem dropTrailingHyphens_eq_self : ∀ (s : JSString), s.getLast? ≠ some '-' →
    dropTrailingHyphens s = s := by
  intro s
  induction s with
  | nil => intro _; rfl
  | cons c t ih =>
    intro h
    unfold dropTrailingHyphens
    have hna : ¬ ((c :: t).all (fun d => d == '-') = true) := by
      intro ha
      rw [List.all_eq_true] at ha
      obtain ⟨l, hl⟩ : ∃ l, (c :: t).getLast? = some l := by
        cases hg : (c :: t).getLast? with
        | none => simp at hg
        | some l => exact ⟨l, rfl⟩
      have hm : l ∈ c :: t := List.mem_of_getLast?_eq_some hl
      have := ha l hm
      simp only [beq_iff_eq] at this
      rw [hl, this] at h
      exact h rfl
    rw [if_neg hna]
    cases t with
    | nil => rfl
    | cons d u =>
      rw [ih (by rw [List.getLast?_cons_cons] at h; exact h)]

/-- A valid Slug is a fixed point of `slugify`. -/
theorem slugify_of_valid (R : Runtime) {t : JSString} (h : ValidSlug t) : slugify R t = t := by
  obtain ⟨hch, hhead, hlast, hdbl⟩ := h
  rw [slugify_eq]
  by_cases he : t.isEmpty = true
  · rw [if_pos he]
    exact (List.isEmpty_iff.mp he).symm
  · rw [if_neg he]
    have hascii : t.all isAscii = true :=
      List.all_eq_true.mpr (fun c hc => slugChar_isAscii (hch c hc))
    have hmap : t.map asciiLower = t := by
      conv_rhs => rw [← List.map_id t]
      exact List.map_congr_left (fun c hc => asciiLower_slugChar (hch c hc))
    have h1 : R.toLowerCase t = t := by rw [R.toLowerCase_ascii t hascii, hmap]
    have h2 : R.normalizeNFD t = t := R.normalizeNFD_ascii t hascii
    have h3 : t.filter (fun c => !isCombining c) = t :=
      filter_eq_self_of_forall (fun c hc => by simp [slugChar_not_combining (hch c hc)])
    have h4 : t.filter (fun c => !(!isSlugInput c)) = t :=
      filter_eq_self_of_forall (fun c hc => by simp [slugChar_isSlugInput (hch c hc)])
    have h5 : trim t = t := trim_eq_self (fun c hc => slugChar_not_space (hch c hc))
    have h6 : collapseRuns isSpace '-' false t = t :=
      collapseRuns_eq_self false (fun c hc => slugChar_not_space (hch c hc))
    have h7 : collapseRuns (fun c => c == '-') '-' false t = t :=
      (collapseRuns_hyphen_eq_self t hdbl).1
    have h8 : t.dropWhile (fun c => c == '-') = t :=
      dropWhile_eq_self_of_head (fun c hc => by
        have : c ≠ '-' := fun e => hhead (by rw [hc, e])
        simpa using this)
    rw [h1, h2, h3, h4, h5, h6, h7, h8]
    exact dropTrailingHyphens_eq_self t hlast

/-- C7. `slugify` is idempotent: `slugify(slugify(s)) = slugify(s)` for every string `s`,
the empty string, text outside ASCII, accented text, white space and hyphens included. -/
theorem C7_slugify_idempotent (R : Runtime) (s : JSString) :
    slugify R (slugify R s) = slugify R s :=
  slugify_of_valid R (slugify_valid R s)

/-- C8. `slugify` always produces a valid Slug: every character of `slugify(s)` is in
`[a-z0-9-]`, `slugify(s)` neither starts nor ends with `-`, and it contains no two
consecutive `-`. -/
theorem C8_slugify_valid (R : Runtime) (s : JSString) :
    (∀ c ∈ slugify R s, isLowerAZ c = true ∨ isDigit c = true ∨ c = '-') ∧
    (slugify R s).head? ≠ some '-' ∧ (slugify R s).getLast? ≠ some '-' ∧
    ∀ a b : JSString, slugify R s ≠ a ++ '-' :: '-' :: b := by
  obtain ⟨h1, h2, h3, h4⟩ := slugify_valid R s
  refine ⟨fun c hc => ?_, h2, h3, h4⟩
  have := h1 c hc
  simp only [isSlugChar, Bool.or_eq_true, beq_iff_eq] at this
  rcases this with (h | h) | h
  · exact Or.inl h
  · exact Or.inr (Or.inl h)
  · exact Or.inr (Or.inr h)

/-! ## Building slugs -/

theorem no_double_chain : ∀ {s : JSString}, (∀ a b : JSString, s ≠ a ++ '-' :: '-' :: b) →
    List.Chain' (fun x y : Char => ¬ (x = '-' ∧ y = '-')) s := by
  intro s
  induction s with
  | nil => intro _; exact List.chain'_nil
  | cons c t ih =>
    intro h
    rw [List.chain'_cons']
    refine ⟨?_, ih (fun a b e => h (c :: a) b (by rw [e]; rfl))⟩
    intro y hy hcy
    cases t with
    | nil => cases hy
    | cons d u =>
      simp only [List.head?_cons, Option.mem_def, Option.some.injEq] at hy
      exact h [] u (by rw [hcy.1, hy, hcy.2]; rfl)

theorem head?_append_of_ne_nil {a b : JSString} (h : a ≠ []) : (a ++ b).head? = a.head? := by
  cases a with
  | nil => exact absurd rfl h
  | cons _ _ => rfl

/-- Two non-empty slugs joined by a hyphen form a slug. -/
theorem validSlug_join {a b : JSString} (ha : ValidSlug a) (hb : ValidSlug b)
    (hane : a ≠ []) (hbne : b ≠ []) : ValidSlug (a ++ '-' :: b) := by
  obtain ⟨a1, a2, a3, a4⟩ := ha
  obtain ⟨b1, b2, b3, b4⟩ := hb
  refine ⟨?_, ?_, ?_, ?_⟩
  · intro c hc
    rw [List.mem_append, List.mem_cons] at hc
    rcases hc with hc | hc | hc
    · exact a1 c hc
    · rw [hc]; decide
    · exact b1 c hc
  · rw [head?_append_of_ne_nil hane]; exact a2
  · rw [List.getLast?_append_of_ne_nil _ (by simp)]
    cases b with
    | nil => exact absurd rfl hbne
    | cons d u => rw [List.getLast?_cons_cons]; exact b3
  · apply chain_no_double
    rw [List.chain'_split]
    constructor
    · rw [List.chain'_append]
      refine ⟨no_double_chain a4, List.chain'_singleton _, ?_⟩
      intro x hx y hy hxy
      exact a3 (by rw [hx, hxy.1])
    · rw [List.chain'_cons']
      refine ⟨?_, no_double_chain b4⟩
      intro y hy hyy
      exact b2 (by rw [Option.mem_def] at hy; rw [hy, hyy.2])

theorem isDigit_digitChar (n : Nat) (h : n < 10) : isDigit (Nat.digitChar n) = true := by
  interval_cases n <;> decide

theorem toDigitsCore_digits : ∀ (f n : Nat) (ds : JSString),
    (∀ c ∈ ds, isDigit c = true) → ∀ c ∈ Nat.toDigitsCore 10 f n ds, isDigit c = true := by
  intro f
  induction f with
  | zero => intro n ds h; simpa [Nat.toDigitsCore] using h
  | succ f ih =>
    intro n ds h
    have hd : isDigit (Nat.digitChar (n % 10)) = true :=
      isDigit_digitChar _ (Nat.mod_lt _ (by decide))
    have hds : ∀ c ∈ Nat.digitChar (n % 10) :: ds, isDigit c = true := by
      intro c hc
      rw [List.mem_cons] at hc
      rcases hc with hc | hc
      · rw [hc]; exact hd
      · exact h c hc
    unfold Nat.toDigitsCore
    by_cases h0 : n / 10 = 0
    · simp only [h0, if_true]; exact hds
    · simp only [h0, if_false]; exact ih _ _ hds

theorem toDigitsCore_ne_nil : ∀ (f n : Nat) (ds : JSString), ds ≠ [] →
    Nat.toDigitsCore 10 f n ds ≠ [] := by
  intro f
  induction f with
  | zero => intro n ds h; simpa [Nat.toDigitsCore] using h
  | succ f ih =>
    intro n ds _
    unfold Nat.toDigitsCore
    by_cases h0 : n / 10 = 0
    · simp [h0]
    · simp only [h0, if_false]; exact ih _ _ (by simp)

theorem natToString_ne_nil (n : Nat) : natToString n ≠ [] := by
  unfold natToString Nat.toDigits Nat.toDigitsCore
  by_cases h0 : n / 10 = 0
  · simp [h0]
  · simp only [h0, if_false]; exact toDigitsCore_ne_nil _ _ _ (by simp)

theorem natToString_digits (n : Nat) : ∀ c ∈ natToString n, isDigit c = true :=
  toDigitsCore_digits _ _ [] (by simp)

/-- A string of digits is a slug. -/
theorem validSlug_digits {s : JSString} (h : ∀ c ∈ s, isDigit c = true) : ValidSlug s := by
  have hnh : ∀ c ∈ s, c ≠ '-' := by
    intro c hc e
    have := h c hc
    rw [e] at this
    revert this; decide
  refine ⟨fun c hc => by simp [isSlugChar, h c hc], ?_, ?_, ?_⟩
  · intro e
    exact hnh _ (List.mem_of_mem_head? e) rfl
  · intro e
    exact hnh _ (List.mem_of_getLast?_eq_some e) rfl
  · intro a b e
    exact hnh '-' (by rw [e]; simp) rfl

theorem padStart_digits (s : JSString) (hne : s ≠ []) (h : ∀ c ∈ s, isDigit c = true) :
    padStart 2 '0' s ≠ [] ∧ ∀ c ∈ padStart 2 '0' s, isDigit c = true := by
  unfold padStart
  refine ⟨by simp [hne], ?_⟩
  intro c hc
  rw [List.mem_append] at hc
  rcases hc with hc | hc
  · rw [List.eq_of_mem_replicate hc]; decide
  · exact h c hc

/-- The date string is a non-empty slug. -/
theorem getFormattedDate_valid (d : JSDate) :
    ValidSlug (getFormattedDate d) ∧ getFormattedDate d ≠ [] := by
  have hy := validSlug_digits (natToString_digits d.fullYear)
  have pm := padStart_digits _ (natToString_ne_nil (d.month + 1)) (natToString_digits _)
  have pd := padStart_digits _ (natToString_ne_nil d.date) (natToString_digits _)
  have hm := validSlug_digits pm.2
  have hd := validSlug_digits pd.2
  have e : getFormattedDate d =
      natToString d.fullYear ++ '-' :: (padStart 2 '0' (natToString (d.month + 1)) ++
        '-' :: padStart 2 '0' (natToString d.date)) := by
    unfold getFormattedDate
    simp
  rw [e]
  exact ⟨validSlug_join hy (validSlug_join hm hd pm.1 pd.1) (natToString_ne_nil _) (by simp),
    by simp [natToString_ne_nil]⟩

/-! ## Truncation of a slug -/

theorem lastIndexAux_spec (c : Char) : ∀ (s : JSString) (i : Nat) (acc : Int),
    (lastIndexAux c s i acc = acc ∧ c ∉ s) ∨
    ∃ k : Nat, lastIndexAux c s i acc = ((i + k : Nat) : Int) ∧ s[k]? = some c := by
  intro s
  induction s with
  | nil => intro i acc; exact Or.inl ⟨rfl, by simp⟩
  | cons d t ih =>
    intro i acc
    unfold lastIndexAux
    rcases ih (i + 1) (if d = c then (i : Int) else acc) with ⟨h1, h2⟩ | ⟨k, h1, h2⟩
    · by_cases hd : d = c
      · right
        refine ⟨0, ?_, by simp [hd]⟩
        rw [h1, if_pos hd]; rfl
      · left
        rw [if_neg hd] at h1 ⊢
        refine ⟨h1, ?_⟩
        intro hm
        rw [List.mem_cons] at hm
        rcases hm with hm | hm
        · exact hd hm.symm
        · exact h2 hm
    · right
      refine ⟨k + 1, ?_, by simpa using h2⟩
      rw [h1]
      congr 1
      omega

/-- A prefix of a slug that does not end with a hyphen is a slug. -/
theorem validSlug_initial {p s : JSString} (hp : p <+: s) (hs : ValidSlug s)
    (hl : p.getLast? ≠ some '-') : ValidSlug p := by
  obtain ⟨h1, h2, _, h4⟩ := hs
  refine ⟨fun c hc => h1 c (hp.subset hc), ?_, hl, ?_⟩
  · by_cases hn : p = []
    · rw [hn]; simp
    · rw [head_of_initial hp hn]; exact h2
  · intro a b e
    obtain ⟨r, hr⟩ := hp
    exact h4 a (b ++ r) (by rw [← hr, e]; simp)

/-- The function `truncateAtWord` maps a slug to a slug that is a prefix of it. -/
theorem truncateAtWord_valid {s : JSString} (n : Nat) (hs : ValidSlug s) :
    ValidSlug (truncateAtWord s n) ∧ truncateAtWord s n <+: s := by
  unfold truncateAtWord
  by_cases hlen : jsLength s ≤ n
  · rw [if_pos hlen]; exact ⟨hs, List.prefix_refl _⟩
  · rw [if_neg hlen]
    simp only
    unfold lastIndexOfFrom lastIndexOf
    rcases lastIndexAux_spec '-' (s.take (n + 1)) 0 (-1) with ⟨h1, h2⟩ | ⟨k, h1, h2⟩
    · rw [h1]
      simp only [show ¬ ((-1 : Int) > 0) by decide, if_false]
      refine ⟨validSlug_initial (List.take_prefix _ _) hs ?_, List.take_prefix _ _⟩
      intro e
      have hm : '-' ∈ s.take n := List.mem_of_getLast?_eq_some e
      have hsub : s.take n ⊆ s.take (n + 1) :=
        (List.take_prefix_take_left s (Nat.le_succ n)).subset
      exact h2 (hsub hm)
    · rw [h1]
      have hk : s[k]? = some '-' := by
        rw [List.getElem?_take] at h2
        split at h2
        · exact h2
        · cases h2
      by_cases hpos : ((0 + k : Nat) : Int) > 0
      · rw [if_pos hpos]
        have hk0 : (0 + k : Nat) = k := by omega
        simp only [hk0, Int.toNat_ofNat]
        refine ⟨validSlug_initial (List.take_prefix _ _) hs ?_, List.take_prefix _ _⟩
        intro e
        obtain ⟨hklt, hget⟩ := List.getElem?_eq_some_iff.mp hk
        have hdrop : s.drop k = '-' :: s.drop (k + 1) := by
          rw [List.drop_eq_getElem_cons hklt, hget]
        obtain ⟨q, hq⟩ : ∃ q, s.take k = q ++ ['-'] := List.getLast?_eq_some_iff.mp e
        have hsplit : s = q ++ '-' :: '-' :: s.drop (k + 1) := by
          conv_lhs => rw [← List.take_append_drop k s, hq, hdrop]
          simp
        exact hs.2.2.2 _ _ hsplit
      · rw [if_neg hpos]
        have hk0 : k = 0 := by omega
        subst hk0
        exfalso
        apply hs.2.1
        cases s with
        | nil => simp at hk
        | cons c t => simpa using hk

/-- The title slug that `cleanPageTitle` returns is a slug. -/
theorem cleanPageTitle_valid {R : Runtime} {title site T : JSString}
    (h : cleanPageTitle R title site = some T) : ValidSlug T := by
  unfold cleanPageTitle at h
  simp only [Option.map_eq_some'] at h
  obtain ⟨c2, _, hT⟩ := h
  rw [← hT]
  exact (truncateAtWord_valid 50 (slugify_valid R _)).1

/-! ## Format of the emitted names -/

theorem validSlug_nil : ValidSlug [] :=
  ⟨by simp, by simp, by simp, by simp⟩

/-- A string of lower-case letters is a slug. -/
theorem validSlug_letters {s : JSString} (h : ∀ c ∈ s, isLowerAZ c = true) : ValidSlug s := by
  have hnh : ∀ c ∈ s, c ≠ '-' := by
    intro c hc e
    have := h c hc
    rw [e] at this
    revert this; decide
  refine ⟨fun c hc => by simp [isSlugChar, h c hc], ?_, ?_, ?_⟩
  · intro e
    exact hnh _ (List.mem_of_mem_head? e) rfl
  · intro e
    exact hnh _ (List.mem_of_getLast?_eq_some e) rfl
  · intro a b e
    exact hnh '-' (by rw [e]; simp) rfl

theorem titleSlug_valid {R : Runtime} {ctx : Context} {S T : JSString}
    (h : TitleSlug R ctx S T) : ValidSlug T := by
  unfold TitleSlug at h
  cases hpt : ctx.pageTitle with
  | none => rw [hpt] at h; rw [h]; exact validSlug_nil
  | some t =>
    rw [hpt] at h
    by_cases ht : t = []
    · simp only [ht, if_true] at h; rw [h]; exact validSlug_nil
    · simp only [ht, if_false] at h; exact cleanPageTitle_valid h

theorem ne_nil_of_jsLength_pos {s : JSString} (h : 0 < jsLength s) : s ≠ [] := by
  rintro rfl
  simp [jsLength] at h

/-- A candidate built from slugs is a slug. -/
theorem specCandidate_valid {D S T c : JSString} (hD : ValidSlug D) (hDne : D ≠ [])
    (hS : S = [] ∨ ValidSlug S) (hT : ValidSlug T) (hc : specCandidate D S T = some c) :
    ValidSlug c := by
  unfold specCandidate at hc
  by_cases h5 : jsLength T > 5
  · rw [if_pos h5] at hc
    have hTne : T ≠ [] := ne_nil_of_jsLength_pos (by omega)
    by_cases hSe : S = []
    · rw [if_pos hSe] at hc
      cases hc
      have := validSlug_join hD hT hDne hTne
      simpa using this
    · rw [if_neg hSe] at hc
      cases hc
      have hSv : ValidSlug S := hS.resolve_left hSe
      have := validSlug_join (validSlug_join hD hSv hDne hSe) hT (by simp [hDne]) hTne
      simpa using this
  · rw [if_neg h5] at hc
    by_cases h2 : jsLength S > 2
    · rw [if_pos h2] at hc
      cases hc
      have hSe : S ≠ [] := ne_nil_of_jsLength_pos (by omega)
      have := validSlug_join hD (hS.resolve_left hSe) hDne hSe
      simpa using this
    · rw [if_neg h2] at hc; cases hc

set_option maxRecDepth 100000 in
/-- Counterexample to C9 as stated.  For the host `cool--site.com` the site identity is
`cool--site`, and the name emitted
for a camera-default original is `2024-01-05-cool--site-holiday-pictures.jpg`: its part before
the extension has two consecutive hyphens, so the name is not a valid Slug, with or without
the extension. -/
theorem C9_counterexample :
    HeaderUnusable refRuntime scenarioDoubleHyphen.contentDisposition ∧
    getSiteName refRuntime scenarioDoubleHyphen.url = "cool--site".toList ∧
    applyRules refRuntime sampleDate scenarioDoubleHyphen =
      some "2024-01-05-cool--site-holiday-pictures.jpg".toList ∧
    "2024-01-05-cool--site-holiday-pictures.jpg".toList ≠ scenarioDoubleHyphen.originalName ∧
    ¬ ∃ slug : JSString, ValidSlug slug ∧
      ("2024-01-05-cool--site-holiday-pictures.jpg".toList = slug ∨
       "2024-01-05-cool--site-holiday-pictures.jpg".toList =
          slug ++ '.' :: resolvedExt refRuntime scenarioDoubleHyphen) := by
  refine ⟨(fun _ h => by cases h), by decide, by decide, by decide, ?_⟩
  rintro ⟨slug, hv, h | h⟩
  · have hdot : isSlugChar '.' = true := hv.1 '.' (by rw [← h]; decide)
    revert hdot; decide
  · have hE : resolvedExt refRuntime scenarioDoubleHyphen = "jpg".toList := by decide
    rw [hE] at h
    have hb : "2024-01-05-cool--site-holiday-pictures.jpg".toList =
        "2024-01-05-cool--site-holiday-pictures".toList ++ '.' :: "jpg".toList := by decide
    rw [hb] at h
    have hs := List.append_cancel_right h
    exact hv.2.2.2 "2024-01-05-cool".toList "site-holiday-pictures".toList
      (by rw [← hs]; decide)

/-- C9 (amended). Emitted-name format: with no usable header name, a returned name that
differs from the original one is the candidate `D-S-T`, `D-T` or `D-S`, followed by `.` and
the resolved extension when there is one, where the title part `T` is a valid Slug and the
site identity `S` is inserted as `getSiteName` returns it.  The candidate is a valid Slug
whenever the site identity is empty or is itself a valid Slug. -/
theorem C9_emitted_format (R : Runtime) (now : JSDate) (ctx : Context) (name : JSString)
    (hcd : HeaderUnusable R ctx.contentDisposition)
    (hname : applyRules R now ctx = some name) (hne : name ≠ ctx.originalName) :
    ∃ T c, ValidSlug T ∧
      specCandidate (getFormattedDate now) (getSiteName R ctx.url) T = some c ∧
      name = withExt c (resolvedExt R ctx) ∧
      ((getSiteName R ctx.url = [] ∨ ValidSlug (getSiteName R ctx.url)) → ValidSlug c) := by
  by_cases hg : isGarbage (some (stripExtension ctx.originalName)) = true
  · rcases titleSlug_or_throws R now ctx hcd hg with ⟨T, hT⟩ | hthrow
    · have h := applyRules_synthesis R now ctx T hcd hg hT
      rw [hname] at h
      have h' := Option.some.inj h
      cases hc : specCandidate (getFormattedDate now) (getSiteName R ctx.url) T with
      | none => rw [hc] at h'; exact absurd h' hne
      | some c =>
        rw [hc] at h'
        by_cases hlt : jsLength c < 15
        · simp only [hlt, if_true] at h'; exact absurd h' hne
        · simp only [hlt, if_false] at h'
          exact ⟨T, c, titleSlug_valid hT, hc, h', fun hS =>
            specCandidate_valid (getFormattedDate_valid now).1 (getFormattedDate_valid now).2
              hS (titleSlug_valid hT) hc⟩
    · rw [hthrow] at hname; cases hname
  · have hg' : isGarbage (some (stripExtension ctx.originalName)) = false := by simpa using hg
    rw [applyRules_passThrough R now ctx hcd hg'] at hname
    exact absurd (Option.some.inj hname).symm hne

set_option maxRecDepth 100000 in
/-- Witness of C9, on the camera-default variant of Scenario A, whose candidate is
`2024-01-05-pinterest-cozy-reading-nook-ideas`. -/
theorem C9_emitted_format_witness :
    HeaderUnusable refRuntime scenarioACamera.contentDisposition ∧
    applyRules refRuntime sampleDate scenarioACamera =
      some "2024-01-05-pinterest-cozy-reading-nook-ideas.jpg".toList ∧
    "2024-01-05-pinterest-cozy-reading-nook-ideas.jpg".toList ≠ scenarioACamera.originalName ∧
    ∃ T c, ValidSlug T ∧
      specCandidate (getFormattedDate sampleDate)
        (getSiteName refRuntime scenarioACamera.url) T = some c ∧
      "2024-01-05-pinterest-cozy-reading-nook-ideas.jpg".toList =
        withExt c (resolvedExt refRuntime scenarioACamera) ∧
      ((getSiteName refRuntime scenarioACamera.url = [] ∨
        ValidSlug (getSiteName refRuntime scenarioACamera.url)) → ValidSlug c) :=
  have h1 : HeaderUnusable refRuntime scenarioACamera.contentDisposition :=
    fun _ h => by cases h
  have h2 : applyRules refRuntime sampleDate scenarioACamera =
      some "2024-01-05-pinterest-cozy-reading-nook-ideas.jpg".toList := by decide
  have h3 : "2024-01-05-pinterest-cozy-reading-nook-ideas.jpg".toList ≠
      scenarioACamera.originalName := by decide
  ⟨h1, h2, h3, C9_emitted_format refRuntime sampleDate scenarioACamera _ h1 h2 h3⟩

/-! ## Undecodable header values -/

set_option maxRecDepth 100000 in
/-- Counterexample to C14 as stated.  For the header `attachment; filename*=UTF-8''%ZZ.pdf` the
value of the `filename*=` parameter is `%ZZ.pdf`, decoding it throws, and
`parseContentDisposition` returns no name, not the raw value. -/
theorem C14_counterexample :
    rfc5987Pattern.capture undecodableHeader = some "%ZZ.pdf".toList ∧
    refRuntime.decodeURIComponent (trim "%ZZ.pdf".toList) = none ∧
    parseContentDisposition refRuntime undecodableHeader = none ∧
    parseContentDisposition refRuntime undecodableHeader ≠ some (trim "%ZZ.pdf".toList) := by
  decide

/-- When decoding the `filename*=` value throws, the result is that of the two plain forms. -/
theorem parseContentDisposition_undecodable (R : Runtime) (header v : JSString)
    (hv : rfc5987Pattern.capture header = some v)
    (hd : R.decodeURIComponent (trim v) = none) :
    parseContentDisposition R header =
      match quotedPattern.capture header with
      | some q => some (trim q)
      | none => (barePattern.capture header).map trim := by
  unfold parseContentDisposition
  simp only [hv, hd]
  cases quotedPattern.capture header with
  | some q => rfl
  | none =>
    cases barePattern.capture header with
    | some b => rfl
    | none => rfl

set_option maxRecDepth 100000 in
/-- C14 (amended). Undecodable header value: when the value of the `filename*=` parameter is not
valid percent-encoding, `parseContentDisposition` drops that parameter and returns what the
plain forms give: the trimmed value of a quoted `filename="..."` parameter if the header has
one, else that of a bare `filename=...` parameter, else no name.  For the header
`attachment; filename*=UTF-8''%ZZ.pdf`, which has no plain parameter, it returns no name in
every runtime. -/
theorem C14_undecodable (R : Runtime) :
    (∀ header v : JSString, rfc5987Pattern.capture header = some v →
      R.decodeURIComponent (trim v) = none →
      parseContentDisposition R header =
        match quotedPattern.capture header with
        | some q => some (trim q)
        | none => (barePattern.capture header).map trim) ∧
    parseContentDisposition R undecodableHeader = none := by
  refine ⟨parseContentDisposition_undecodable R, ?_⟩
  have hv : rfc5987Pattern.capture undecodableHeader = some "%ZZ.pdf".toList := by decide
  have ht : trim "%ZZ.pdf".toList = [] ++ '%' :: "ZZ.pdf".toList := by decide
  have hd : R.decodeURIComponent (trim "%ZZ.pdf".toList) = none := by
    rw [ht]
    exact R.decode_malformed [] "ZZ.pdf".toList (by decide)
  rw [parseContentDisposition_undecodable R _ _ hv hd]
  have hq : quotedPattern.capture undecodableHeader = none := by decide
  have hb : barePattern.capture undecodableHeader = none := by decide
  rw [hq, hb]
  rfl

set_option maxRecDepth 100000 in
/-- Witness of C14: with a plain `filename=fallback.pdf` after the undecodable parameter, the
name is `fallback.pdf`. -/
theorem C14_undecodable_witness :
    rfc5987Pattern.capture undecodableHeaderWithPlain = some "%ZZ.pdf".toList ∧
    refRuntime.decodeURIComponent (trim "%ZZ.pdf".toList) = none ∧
    parseContentDisposition refRuntime undecodableHeaderWithPlain
      = some "fallback.pdf".toList :=
  have h1 : rfc5987Pattern.capture undecodableHeaderWithPlain = some "%ZZ.pdf".toList := by
    decide
  have h2 : refRuntime.decodeURIComponent (trim "%ZZ.pdf".toList) = none := by decide
  ⟨h1, h2, ((C14_undecodable refRuntime).1 _ _ h1 h2).trans (by decide)⟩

/-! ## Titles with several separators -/

set_option maxRecDepth 100000 in
/-- C17. Failing inputs of the title-suffix step, in every runtime.  For the title
`Spider-Man Poster | Pinterest` the result is `spider`: the text is cut at its first separator,
not at the final one, where the claim gives `spider-man-poster`.  For the title
`Best - Pinterest boards - Home`, whose text after its last separator names no platform, the
result is `best`: the step does not leave the title unchanged. -/
theorem C17_first_separator (R : Runtime) :
    cleanPageTitle R "Spider-Man Poster | Pinterest".toList "pinterest".toList
      = some "spider".toList ∧
    slugify R "Spider-Man Poster".toList = "spider-man-poster".toList ∧
    cleanPageTitle R "Best - Pinterest boards - Home".toList [] = some "best".toList ∧
    slugify R "Best - Pinterest boards - Home".toList
      = "best-pinterest-boards-home".toList := by
  refine ⟨?_, ?_, ?_, ?_⟩
  · rw [cleanPageTitle_ascii R _ _ (by decide) (by decide)]; decide
  · rw [slugify_ascii R _ (by decide)]; decide
  · rw [cleanPageTitle_ascii R _ _ (by decide) (by decide)]; decide
  · rw [slugify_ascii R _ (by decide)]; decide

/-! ## Exceptions -/

/-- When building the title slug throws, so does `applyRules`. -/
theorem applyRules_throws (R : Runtime) (now : JSDate) (ctx : Context) (t : JSString)
    (hcd : HeaderUnusable R ctx.contentDisposition)
    (hg : isGarbage (some (stripExtension ctx.originalName)) = true)
    (hpt : ctx.pageTitle = some t) (ht : t ≠ [])
    (hc : cleanPageTitle R t (getSiteName R ctx.url) = none) :
    applyRules R now ctx = none := by
  rw [applyRules_skipHeader R now ctx hcd]
  unfold applyRules
  simp [hg, hpt, ht, hc]

set_option maxRecDepth 100000 in
/-- C13. A failing input, in every runtime whose URL parser gives the host `a(b.com` for
`https://a(b.com/x.jpg`: the site identity is `a(b`, the pattern built from it has an
unterminated group, `new RegExp` throws, and the exception leaves `applyRules`. -/
theorem C13_regexp_throws (R : Runtime) (now : JSDate)
    (hhost : R.urlHostname "https://a(b.com/x.jpg".toList = some "a(b.com".toList) :
    getSiteName R scenarioParen.url = "a(b".toList ∧
    applyRules R now scenarioParen = none := by
  have hS : getSiteName R scenarioParen.url = "a(b".toList := by
    show getSiteName R "https://a(b.com/x.jpg".toList = _
    unfold getSiteName
    rw [hhost]
    decide
  refine ⟨hS, ?_⟩
  apply applyRules_throws R now scenarioParen "Holiday pictures".toList
    (fun _ h => by cases h) (by decide) rfl (by decide)
  rw [hS]
  have hp : sitePattern R "a(b".toList = none := by
    unfold sitePattern
    rw [if_neg (by decide)]
    exact R.compile_unclosed _ (by decide) (by decide) (by decide) (by decide)
  have he : ("a(b".toList).isEmpty = false := by decide
  unfold cleanPageTitle
  simp only [he, hp]
  rfl

set_option maxRecDepth 100000 in
/-- Witness of C13, in the reference runtime. -/
theorem C13_regexp_throws_witness :
    refRuntime.urlHostname "https://a(b.com/x.jpg".toList = some "a(b.com".toList ∧
    applyRules refRuntime sampleDate scenarioParen = none :=
  have h : refRuntime.urlHostname "https://a(b.com/x.jpg".toList = some "a(b.com".toList := by
    decide
  ⟨h, (C13_regexp_throws refRuntime sampleDate h).2⟩

/-! ## Inherited properties of the MIME table -/

/-- On an ASCII name `getExtFromFilename` does not depend on the runtime. -/
theorem getExtFromFilename_ascii (R : Runtime) (name : JSString)
    (h : ((split '.' name).getLast?.getD []).all isAscii = true) :
    getExtFromFilename R name = getExtFromFilename refRuntime name := by
  unfold getExtFromFilename
  rw [R.toLowerCase_ascii _ h]
  rfl

/-- The extension resolved for the content type `constructor` is the string form of the
inherited function. -/
theorem getExtension_constructor (R : Runtime) :
    ∃ v : JSString, "function".toList <+: v ∧ 5 < jsLength v ∧
      getExtension R (some "constructor".toList) = v := by
  obtain ⟨v, hv, hp⟩ := R.protoLookup_constructor
  refine ⟨v, hp, ?_, ?_⟩
  · have h1 := length_le_jsLength v
    have h2 := hp.length_le
    have h3 : ("function".toList).length = 8 := by decide
    omega
  · have hl : mimeMap.lookup "constructor".toList = none := by decide
    have he : ("constructor".toList).isEmpty = false := by decide
    unfold getExtension
    simp only [he, hl, hv]
    rfl

set_option maxRecDepth 100000 in
/-- C16. A failing input, in every runtime: for the MIME type `constructor`, which is not a key
of the table, and the original name `123456789012.png`, the resolved extension is not the
lower-cased suffix `png` but the string form of the function that the table object inherits
under that name; it starts with `function` and is longer than 5 characters. -/
theorem C16_inherited_key (R : Runtime) :
    mimeMap.lookup "constructor".toList = none ∧
    getExtFromFilename R scenarioProto.originalName = "png".toList ∧
    ∃ v : JSString, resolvedExt R scenarioProto = v ∧ "function".toList <+: v ∧
      5 < jsLength v ∧ v ≠ "png".toList := by
  obtain ⟨v, hp, hl, hv⟩ := getExtension_constructor R
  have hne : v ≠ [] := by
    rintro rfl
    simp [jsLength] at hl
  refine ⟨by decide, ?_, v, ?_, hp, hl, ?_⟩
  · rw [getExtFromFilename_ascii R _ (by decide)]; decide
  · unfold resolvedExt jsOr
    show (if (getExtension R (some "constructor".toList)).isEmpty = true then _ else _) = v
    rw [hv, if_neg (by simpa using hne)]
    exact hv
  · rintro rfl
    revert hl; decide

theorem length_padStart (s : JSString) : 2 ≤ (padStart 2 '0' s).length := by
  unfold padStart
  simp only [List.length_append, List.length_replicate]
  omega

theorem length_getFormattedDate (d : JSDate) : 7 ≤ jsLength (getFormattedDate d) := by
  have h0 := length_le_jsLength (getFormattedDate d)
  have h1 : 1 ≤ (natToString d.fullYear).length :=
    List.length_pos.mpr (natToString_ne_nil _)
  have h2 := length_padStart (natToString (d.month + 1))
  have h3 := length_padStart (natToString d.date)
  have : (getFormattedDate d).length = (natToString d.fullYear).length + 1 +
      (padStart 2 '0' (natToString (d.month + 1))).length + 1 +
      (padStart 2 '0' (natToString d.date)).length := by
    unfold getFormattedDate
    simp only [List.length_append, List.length_cons]
    omega
  omega

set_option maxRecDepth 100000 in
/-- C12. A failing input, in every runtime whose URL parser gives the host `www.example.com`:
the MIME type `constructor` is not a key of the table and the original name `123456789012` has
no suffix, so no extension is determinable; yet the name returned is the candidate followed by
`.` and the string form of the inherited function. -/
theorem C12_inherited_extension (R : Runtime) (now : JSDate)
    (hhost : R.urlHostname "https://www.example.com/a".toList = some "www.example.com".toList) :
    mimeMap.lookup "constructor".toList = none ∧
    getExtFromFilename R scenarioProtoBare.originalName = [] ∧
    ∃ v : JSString, "function".toList <+: v ∧
      applyRules R now scenarioProtoBare =
        some (getFormattedDate now ++ "-example".toList ++ '.' :: v) := by
  obtain ⟨v, hp, hl, hv⟩ := getExtension_constructor R
  have hne : v ≠ [] := by
    rintro rfl
    simp [jsLength] at hl
  have hE : resolvedExt R scenarioProtoBare = v := by
    unfold resolvedExt jsOr
    show (if (getExtension R (some "constructor".toList)).isEmpty = true then _ else _) = v
    rw [hv, if_neg (by simpa using hne)]
    exact hv
  have hS : getSiteName R scenarioProtoBare.url = "example".toList := by
    show getSiteName R "https://www.example.com/a".toList = _
    unfold getSiteName
    rw [hhost]
    decide
  refine ⟨by decide, rfl, v, hp, ?_⟩
  have hT : TitleSlug R scenarioProtoBare (getSiteName R scenarioProtoBare.url) [] := rfl
  have h := applyRules_synthesis R now scenarioProtoBare [] (fun _ h => by cases h)
    (by decide) hT
  have hc : specCandidate (getFormattedDate now) (getSiteName R scenarioProtoBare.url) [] =
      some (getFormattedDate now ++ "-example".toList) := by
    rw [hS]
    unfold specCandidate
    rw [if_neg (by decide), if_pos (by decide)]
    simp
  have hlen : 15 ≤ jsLength (getFormattedDate now ++ "-example".toList) := by
    rw [jsLength_append]
    have := length_getFormattedDate now
    have h8 : jsLength "-example".toList = 8 := by decide
    omega
  rw [hc] at h
  simp only [Nat.not_lt.mpr hlen, if_false] at h
  rw [h, hE, withExt, if_neg hne]
  simp

set_option maxRecDepth 100000 in
/-- Witness of C12, in the reference runtime on 5 January 2024. -/
theorem C12_inherited_extension_witness :
    refRuntime.urlHostname "https://www.example.com/a".toList
      = some "www.example.com".toList ∧
    (mimeMap.lookup "constructor".toList = none ∧
     getExtFromFilename refRuntime scenarioProtoBare.originalName = [] ∧
     ∃ v : JSString, "function".toList <+: v ∧
       applyRules refRuntime sampleDate scenarioProtoBare =
         some (getFormattedDate sampleDate ++ "-example".toList ++ '.' :: v)) :=
  ⟨by decide, C12_inherited_extension refRuntime sampleDate (by decide)⟩

set_option maxRecDepth 100000 in
/-- The name returned for the failing input of C12 in the reference runtime. -/
theorem applyRules_scenarioProtoBare :
    applyRules refRuntime sampleDate scenarioProtoBare =
      some "2024-01-05-example.function Object() \x7b [native code] \x7d".toList := by
  decide

/-! ## Truncation of the title slug -/

/-- A slug has as many UTF-16 code units as characters. -/
theorem jsLength_of_slugChars : ∀ {s : JSString}, (∀ c ∈ s, isSlugChar c = true) →
    jsLength s = s.length := by
  intro s
  induction s with
  | nil => intro _; rfl
  | cons c t ih =>
    intro h
    have hc := slugChar_toNat (h c (List.mem_cons_self _ _))
    have hu : unitsOf c = 1 := by
      unfold unitsOf
      rw [if_pos (by omega)]
    simp only [jsLength, hu, List.length_cons, ih (fun d hd => h d (List.mem_cons_of_mem _ hd))]
    omega

/-- The index that `lastIndexAux` returns is that of an occurrence, and no later position holds
the character. -/
theorem lastIndexAux_last (c : Char) : ∀ (s : JSString) (i : Nat) (acc : Int),
    (lastIndexAux c s i acc = acc ∧ c ∉ s) ∨
    ∃ k : Nat, lastIndexAux c s i acc = ((i + k : Nat) : Int) ∧ s[k]? = some c ∧
      ∀ j, k < j → s[j]? ≠ some c := by
  intro s
  induction s with
  | nil => intro i acc; exact Or.inl ⟨rfl, by simp⟩
  | cons d t ih =>
    intro i acc
    unfold lastIndexAux
    rcases ih (i + 1) (if d = c then (i : Int) else acc) with ⟨h1, h2⟩ | ⟨k, h1, h2, h3⟩
    · by_cases hd : d = c
      · right
        refine ⟨0, ?_, by simp [hd], ?_⟩
        · rw [h1, if_pos hd]; rfl
        · intro j hj e
          obtain ⟨j, rfl⟩ : ∃ m, j = m + 1 := ⟨j - 1, by omega⟩
          rw [List.getElem?_cons_succ] at e
          exact h2 (List.mem_iff_getElem?.mpr ⟨_, e⟩)
      · left
        rw [if_neg hd] at h1 ⊢
        refine ⟨h1, ?_⟩
        intro hm
        rw [List.mem_cons] at hm
        rcases hm with hm | hm
        · exact hd hm.symm
        · exact h2 hm
    · right
      refine ⟨k + 1, ?_, by simpa using h2, ?_⟩
      · rw [h1]
        congr 1
        omega
      · intro j hj e
        obtain ⟨j, rfl⟩ : ∃ m, j = m + 1 := ⟨j - 1, by omega⟩
        rw [List.getElem?_cons_succ] at e
        exact h3 j (by omega) e

/-- Where `truncateAtWord` cuts a slug that is longer than the cap: at the last hyphen among the
positions `0..n` when there is one, and after `n` characters otherwise. -/
theorem truncateAtWord_cut {s : JSString} (n : Nat) (hs : ValidSlug s)
    (hlen : n < jsLength s) :
    ('-' ∈ s.take (n + 1) →
      ∃ k : Nat, 0 < k ∧ k ≤ n ∧ truncateAtWord s n = s.take k ∧ s[k]? = some '-' ∧
        ∀ j, k < j → j ≤ n → s[j]? ≠ some '-') ∧
    ('-' ∉ s.take (n + 1) → truncateAtWord s n = s.take n) := by
  unfold truncateAtWord
  rw [if_neg (by omega)]
  simp only
  unfold lastIndexOfFrom lastIndexOf
  rcases lastIndexAux_last '-' (s.take (n + 1)) 0 (-1) with ⟨h1, h2⟩ | ⟨k, h1, h2, h3⟩
  · refine ⟨fun h => absurd h h2, fun _ => ?_⟩
    rw [h1]
    simp
  · refine ⟨fun _ => ?_, fun h => absurd (List.mem_iff_getElem?.mpr ⟨_, h2⟩) h⟩
    rw [h1]
    have hkn : k < n + 1 := by
      rw [List.getElem?_take] at h2
      split at h2
      · assumption
      · cases h2
    have hk : s[k]? = some '-' := by
      rw [List.getElem?_take, if_pos hkn] at h2
      exact h2
    have hk0 : 0 < k := by
      rcases Nat.eq_zero_or_pos k with e | e
      · subst e
        exfalso
        apply hs.2.1
        cases s with
        | nil => simp at hk
        | cons c t => simpa using hk
      · exact e
    refine ⟨k, hk0, by omega, ?_, hk, ?_⟩
    · have hpos : ((0 + k : Nat) : Int) > 0 := by omega
      rw [if_pos hpos]
      simp
    · intro j hj hjn e
      apply h3 j hj
      rw [List.getElem?_take, if_pos (by omega)]
      exact e

/-- Counterexample to C18 as stated.  The word of 60 letters `a` is a valid Slug longer than 50
characters; `truncateAtWord` cuts it after 50 letters, and the character that follows the result
is `a`, not a hyphen: the word is cut in the middle. -/
theorem C18_counterexample :
    ValidSlug longWord ∧ 50 < jsLength longWord ∧
    truncateAtWord longWord 50 = List.replicate 50 'a' ∧
    longWord[(truncateAtWord longWord 50).length]? = some 'a' ∧
    longWord[(truncateAtWord longWord 50).length]? ≠ some '-' := by
  refine ⟨validSlug_letters ?_, by decide, by decide, by decide, by decide⟩
  intro c hc
  rw [List.eq_of_mem_replicate hc]
  decide

/-- C18 (amended). Title truncation: for every valid Slug `s`, `truncateAtWord(s, 50)` is a
prefix of `s` of at most 50 characters that is itself a valid Slug, and equals `s` when `s` has
at most 50 characters.  When `s` is longer and one of its 51 first characters is a hyphen, the
result ends at the last such hyphen: the character of `s` right after the result is `-`, and no
hyphen stands between that position and position 50.  When `s` is longer and none of its 51 first
characters is a hyphen, the result is the 50 first characters of `s`. -/
theorem C18_truncation (s : JSString) (hs : ValidSlug s) :
    truncateAtWord s 50 <+: s ∧ jsLength (truncateAtWord s 50) ≤ 50 ∧
    ValidSlug (truncateAtWord s 50) ∧
    (jsLength s ≤ 50 → truncateAtWord s 50 = s) ∧
    (50 < jsLength s → '-' ∈ s.take 51 →
      s[(truncateAtWord s 50).length]? = some '-' ∧
      ∀ j, (truncateAtWord s 50).length < j → j ≤ 50 → s[j]? ≠ some '-') ∧
    (50 < jsLength s → '-' ∉ s.take 51 → truncateAtWord s 50 = s.take 50) := by
  have hv := truncateAtWord_valid 50 hs
  have hjl : jsLength s = s.length := jsLength_of_slugChars hs.1
  refine ⟨hv.2, ?_, hv.1, ?_, ?_, ?_⟩
  · rw [jsLength_of_slugChars hv.1.1]
    by_cases hlen : jsLength s ≤ 50
    · have e : truncateAtWord s 50 = s := by
        unfold truncateAtWord
        rw [if_pos hlen]
      rw [e]; omega
    · have hc := truncateAtWord_cut 50 hs (by omega)
      by_cases hm : '-' ∈ s.take (50 + 1)
      · obtain ⟨k, _, hk, e, _, _⟩ := hc.1 hm
        rw [e, List.length_take]
        omega
      · rw [hc.2 hm, List.length_take]
        omega
  · intro hlen
    unfold truncateAtWord
    rw [if_pos hlen]
  · intro hlen hm
    obtain ⟨k, _, hk, e, hget, hmax⟩ := (truncateAtWord_cut 50 hs hlen).1 hm
    have hl : (truncateAtWord s 50).length = k := by
      rw [e, List.length_take]
      omega
    rw [hl]
    exact ⟨hget, hmax⟩
  · intro hlen hm
    exact (truncateAtWord_cut 50 hs hlen).2 hm

set_option maxRecDepth 100000 in
/-- Witness of C18: a slug of 65 characters, cut after `...-dog-and` (47 characters). -/
theorem C18_truncation_witness :
    ValidSlug longSlug ∧
    (truncateAtWord longSlug 50 <+: longSlug ∧ jsLength (truncateAtWord longSlug 50) ≤ 50 ∧
    ValidSlug (truncateAtWord longSlug 50) ∧
    (jsLength longSlug ≤ 50 → truncateAtWord longSlug 50 = longSlug) ∧
    (50 < jsLength longSlug → '-' ∈ longSlug.take 51 →
      longSlug[(truncateAtWord longSlug 50).length]? = some '-' ∧
      ∀ j, (truncateAtWord longSlug 50).length < j → j ≤ 50 → longSlug[j]? ≠ some '-') ∧
    (50 < jsLength longSlug → '-' ∉ longSlug.take 51 →
      truncateAtWord longSlug 50 = longSlug.take 50)) :=
  have h : ValidSlug longSlug := by
    have e : slugify refRuntime longSlug = longSlug := by decide
    rw [← e]
    exact slugify_valid refRuntime longSlug
  ⟨h, C18_truncation longSlug h⟩

set_option maxRecDepth 100000 in
/-- The value of the truncation on the slug of 65 characters. -/
theorem truncateAtWord_longSlug :
    truncateAtWord longSlug 50 = "the-quick-brown-fox-jumps-over-the-lazy-dog-and".toList := by
  decide

/-! ## The site identity -/

namespace Re

theorem run_one_eq (p : Char → Bool) (i : Nat) (s : JSString) :
    run (one p) (i, s) =
      match s with
      | [] => []
      | c :: t => if p c = true then [(i + 1, t)] else [] := by
  cases s with
  | nil => simp [one, run, capAt, spanLen, countsDown]
  | cons c t =>
    by_cases h : p c = true
    · simp [one, run, capAt, spanLen, h, countsDown]
    · simp [one, run, capAt, spanLen, h, countsDown]

/-- A literal string matches exactly when it is a prefix of the input. -/
theorem run_str_eq : ∀ (w : JSString) (i : Nat) (s : JSString),
    run (str w) (i, s) =
      if w.isPrefixOf s = true then [(i + w.length, s.drop w.length)] else [] := by
  intro w
  induction w with
  | nil => intro i s; simp [str, cat, run]
  | cons c w ih =>
    intro i s
    have hstr : str (c :: w) = seq (chr c) (str w) := rfl
    rw [hstr]
    rw [show run (seq (chr c) (str w)) (i, s) =
      (run (chr c) (i, s)).flatMap (run (str w)) from rfl]
    have h1 := run_one_eq (fun d => d == c) i s
    have h1c : run (chr c) (i, s) = run (one (fun d => d == c)) (i, s) := rfl
    rw [h1c, h1]
    cases s with
    | nil => simp
    | cons d t =>
      by_cases hd : d = c
      · subst hd
        simp only [beq_self_eq_true, if_true, List.flatMap_cons, List.flatMap_nil,
          List.append_nil, ih, List.isPrefixOf_cons₂_self, List.length_cons, List.drop_succ_cons]
        congr 2
        · congr 1; omega
      · have hb : (d == c) = false := by simpa using hd
        have hp : (c :: w).isPrefixOf (d :: t) = false := by
          simp [List.isPrefixOf, Ne.symm hd]
        simp [hb, hp]

/-- An expression anchored at the start of the input matches at index 0 only. -/
theorem searchFrom_bol_pos (r : Re) : ∀ (s : JSString) (i : Nat), i ≠ 0 →
    (seq bol r).searchFrom i s = none := by
  intro s
  induction s with
  | nil =>
    intro i hi
    unfold searchFrom matchAt
    rw [run_bol_seq_pos r i [] hi]
    rfl
  | cons c t ih =>
    intro i hi
    unfold searchFrom matchAt
    rw [run_bol_seq_pos r i _ hi]
    exact ih (i + 1) (by omega)

end Re

/-- The replacement `hostname.replace(/^www\./, '')` drops a leading `www.`. -/
theorem wwwPattern_replaceFirst (host : JSString) :
    wwwPattern.replaceFirst [] host =
      if "www.".toList.isPrefixOf host = true then host.drop 4 else host := by
  have hm : ∀ s : JSString, wwwPattern.matchAt (0, s) =
      if "www.".toList.isPrefixOf s = true then some (4, s.drop 4) else none := by
    intro s
    unfold wwwPattern Re.matchAt
    rw [Re.run_bol_seq_zero, Re.run_str_eq]
    split <;> rfl
  unfold Re.replaceFirst
  cases host with
  | nil =>
    have : wwwPattern.searchFrom 0 [] = none := by
      unfold Re.searchFrom
      rw [hm]
      rfl
    rw [this]
    rfl
  | cons c t =>
    by_cases hp : "www.".toList.isPrefixOf (c :: t) = true
    · have : wwwPattern.searchFrom 0 (c :: t) = some (0, (4, (c :: t).drop 4)) := by
        unfold Re.searchFrom
        rw [hm, if_pos hp]
      rw [this, if_pos hp]
      rfl
    · have : wwwPattern.searchFrom 0 (c :: t) = none := by
        unfold Re.searchFrom
        rw [hm, if_neg hp]
        exact Re.searchFrom_bol_pos _ t 1 (by omega)
      rw [this, if_neg hp]

set_option maxRecDepth 100000 in
/-- No key of `CDN_MAP` is a suffix of another key. -/
theorem CDN_MAP_keys_apart : ∀ e ∈ CDN_MAP, ∀ f ∈ CDN_MAP,
    (e.1.isSuffixOf f.1 || f.1.isSuffixOf e.1) = true → e = f := by
  decide

/-- A hostname that ends with a key of `CDN_MAP` gets the brand of that key. -/
theorem getSiteName_of_key (R : Runtime) {url host : JSString}
    (hurl : R.urlHostname url = some host) {e : JSString × JSString} (he : e ∈ CDN_MAP)
    (hs : e.1 <:+ wwwPattern.replaceFirst [] host) : getSiteName R url = e.2 := by
  unfold getSiteName
  rw [hurl]
  simp only
  cases hf : CDN_MAP.find? (fun e => endsWith (wwwPattern.replaceFirst [] host) e.1) with
  | none =>
    exfalso
    have := List.find?_eq_none.mp hf e he
    apply this
    simpa [endsWith] using hs
  | some f =>
    have hfm : f ∈ CDN_MAP := List.mem_of_find?_eq_some hf
    have hfs : f.1 <:+ wwwPattern.replaceFirst [] host := by
      have := List.find?_some hf
      simpa [endsWith] using this
    have hor := List.suffix_or_suffix_of_suffix hs hfs
    have : e = f := by
      apply CDN_MAP_keys_apart e he f hfm
      rcases hor with h | h
      · simp [h]
      · simp [h]
    rw [this]

/-- A hostname that ends with no key of `CDN_MAP` gets a label of its own. -/
theorem getSiteName_of_no_key (R : Runtime) {url host : JSString}
    (hurl : R.urlHostname url = some host)
    (hn : ∀ e ∈ CDN_MAP, ¬ e.1 <:+ wwwPattern.replaceFirst [] host) :
    getSiteName R url =
      let parts := split '.' (wwwPattern.replaceFirst [] host)
      let domain :=
        if parts.length ≥ 2 then parts.getD (parts.length - 2) [] else parts.getD 0 []
      if jsLength domain > 2 then domain else [] := by
  unfold getSiteName
  rw [hurl]
  simp only
  have hf : CDN_MAP.find? (fun e => endsWith (wwwPattern.replaceFirst [] host) e.1) = none := by
    apply List.find?_eq_none.mpr
    intro e he
    have := hn e he
    simpa [endsWith] using this
  rw [hf]

set_option maxRecDepth 100000 in
/-- Counterexample to C15 as stated.  The hostname `localhost` ends with no key of the table and
has a single label, hence no second-to-last label; `getSiteName` returns `localhost`, not the
empty identity. -/
theorem C15_counterexample :
    refRuntime.urlHostname "http://localhost/a.png".toList = some "localhost".toList ∧
    (∀ e ∈ CDN_MAP, endsWith "localhost".toList e.1 = false) ∧
    split '.' "localhost".toList = ["localhost".toList] ∧
    getSiteName refRuntime "http://localhost/a.png".toList = "localhost".toList ∧
    getSiteName refRuntime "http://localhost/a.png".toList ≠ [] := by
  decide

set_option maxRecDepth 100000 in
/-- The suffix test of `getSiteName` does not look for a dot before the key: the hostname
`notpinimg.com`, which is neither `pinimg.com` nor a subdomain of it, gets `pinterest`. -/
theorem getSiteName_suffix_no_dot :
    getSiteName refRuntime "https://notpinimg.com/a.png".toList = "pinterest".toList ∧
    ¬ ('.' :: "pinimg.com".toList) <:+ "notpinimg.com".toList := by
  refine ⟨by decide, ?_⟩
  intro h
  have := List.isSuffixOf_iff_suffix.mpr h
  revert this
  decide

/-- C15 (amended). Site identity: let `h` be the hostname of a parseable url after a leading
`www.` is dropped.  If `h` is a key of `CDN_MAP` or ends with `.` and a key, `getSiteName`
returns the brand of that key, which is the empty identity for `akamaized.net`, `cloudfront.net`
and `amazonaws.com`.  If `h` ends with no key of the table at all, `getSiteName` returns the
second-to-last dot-separated label of `h` when `h` has at least two labels, and the only label of
`h` when it has one, provided that label is longer than 2 characters, and the empty identity
otherwise. -/
theorem C15_site_identity (R : Runtime) (url host h : JSString)
    (hurl : R.urlHostname url = some host)
    (hh : wwwPattern.replaceFirst [] host = h) :
    (h = if "www.".toList.isPrefixOf host = true then host.drop 4 else host) ∧
    (∀ key brand : JSString, (key, brand) ∈ CDN_MAP → (h = key ∨ ('.' :: key) <:+ h) →
      getSiteName R url = brand) ∧
    (∀ key : JSString,
      key ∈ ["akamaized.net".toList, "cloudfront.net".toList, "amazonaws.com".toList] →
      (h = key ∨ ('.' :: key) <:+ h) → getSiteName R url = []) ∧
    ((∀ e ∈ CDN_MAP, ¬ e.1 <:+ h) →
      (∀ (last label : JSString) (front : List JSString),
        (split '.' h).reverse = last :: label :: front →
        getSiteName R url = if jsLength label > 2 then label else []) ∧
      (∀ label : JSString, split '.' h = [label] →
        getSiteName R url = if jsLength label > 2 then label else [])) := by
  subst hh
  have hkey : ∀ key brand : JSString, (key, brand) ∈ CDN_MAP →
      (wwwPattern.replaceFirst [] host = key ∨
        ('.' :: key) <:+ wwwPattern.replaceFirst [] host) → getSiteName R url = brand := by
    intro key brand hm hk
    apply getSiteName_of_key R hurl hm
    rcases hk with hk | hk
    · rw [hk]
    · exact (List.suffix_cons '.' key).trans hk
  refine ⟨wwwPattern_replaceFirst host, hkey, ?_, ?_⟩
  · intro key hm hk
    simp only [List.mem_cons, List.mem_singleton, List.not_mem_nil, or_false] at hm
    rcases hm with rfl | rfl | rfl
    · exact hkey _ [] (by decide) hk
    · exact hkey _ [] (by decide) hk
    · exact hkey _ [] (by decide) hk
  · intro hn
    have hg := getSiteName_of_no_key R hurl hn
    simp only at hg
    refine ⟨?_, ?_⟩
    · intro last label front hr
      have hp : split '.' (wwwPattern.replaceFirst [] host) =
          front.reverse ++ [label, last] := by
        have := congrArg List.reverse hr
        simpa using this
      rw [hg, hp]
      have hl : (front.reverse ++ [label, last]).length ≥ 2 := by simp
      rw [if_pos hl]
      have hget : (front.reverse ++ [label, last]).getD
          ((front.reverse ++ [label, last]).length - 2) [] = label := by
        have e : (front.reverse ++ [label, last]).length - 2 = front.reverse.length := by simp
        rw [e, List.getD_eq_getElem?_getD, List.getElem?_append_right (Nat.le_refl _)]
        simp
      rw [hget]
    · intro label hp
      rw [hg, hp]
      simp

set_option maxRecDepth 100000 in
/-- Witness of C15: the url of Scenario A, with the hostname `i.pinimg.com`. -/
theorem C15_site_identity_witness :
    refRuntime.urlHostname "https://i.pinimg.com/x/abc.jpg".toList
      = some "i.pinimg.com".toList ∧
    wwwPattern.replaceFirst [] "i.pinimg.com".toList = "i.pinimg.com".toList ∧
    getSiteName refRuntime "https://i.pinimg.com/x/abc.jpg".toList = "pinterest".toList :=
  have h1 : refRuntime.urlHostname "https://i.pinimg.com/x/abc.jpg".toList
      = some "i.pinimg.com".toList := by decide
  have h2 : wwwPattern.replaceFirst [] "i.pinimg.com".toList = "i.pinimg.com".toList := by
    decide
  ⟨h1, h2, (C15_site_identity refRuntime _ _ _ h1 h2).2.1 "pinimg.com".toList
    "pinterest".toList (by decide) (Or.inr (by decide))⟩

set_option maxRecDepth 100000 in
/-- Values of `getSiteName` in the reference runtime. -/
theorem getSiteName_examples :
    getSiteName refRuntime "https://www.example.com/a".toList = "example".toList ∧
    getSiteName refRuntime "https://bucket.s3.amazonaws.com/a".toList = [] ∧
    getSiteName refRuntime "https://t.co/a".toList = [] ∧
    getSiteName refRuntime "https://docs.example.co.uk/a".toList = [] ∧
    getSiteName refRuntime "not a url".toList = [] := by
  decide

/-! ## Emptiness of the returned name -/

theorem withExt_ne_nil {c : JSString} (e : JSString) (h : c ≠ []) : withExt c e ≠ [] := by
  unfold withExt
  split
  · exact h
  · simp [h]

theorem withExt_head {c : JSString} (e : JSString) (h : c ≠ []) :
    (withExt c e).head? = c.head? := by
  unfold withExt
  split
  · rfl
  · cases c with
    | nil => exact absurd rfl h
    | cons a t => rfl

/-- A candidate starts with the date string. -/
theorem specCandidate_initial {D S T c : JSString} (h : specCandidate D S T = some c) :
    D <+: c := by
  unfold specCandidate at h
  split at h
  · split at h
    · rw [← Option.some.inj h, List.append_assoc]; exact List.prefix_append _ _
    · rw [← Option.some.inj h, List.append_assoc, List.append_assoc, List.append_assoc]
      exact List.prefix_append _ _
  · split at h
    · rw [← Option.some.inj h, List.append_assoc]; exact List.prefix_append _ _
    · cases h

set_option maxRecDepth 100000 in
/-- Counterexample to C19 as stated.  The original name `.gitignore` is non-empty and its base
is not garbage, so `applyRules` returns it unchanged: a name of the form `.ext`, with nothing
before its dot. -/
theorem C19_counterexample :
    scenarioDotfile.originalName ≠ [] ∧
    isGarbage (some (stripExtension scenarioDotfile.originalName)) = false ∧
    applyRules refRuntime sampleDate scenarioDotfile = some ".gitignore".toList ∧
    ".gitignore".toList = '.' :: "gitignore".toList := by
  decide

set_option maxRecDepth 100000 in
/-- On the Content-Disposition path a header name accepted as non-garbage can have an empty
slug: `attachment; filename="!!!.pdf"` gives the name `.pdf`, and `attachment; filename="!!!"`,
with no extension anywhere, gives the empty name. -/
theorem applyRules_header_empty_slug :
    parseContentDisposition refRuntime "attachment; filename=\"!!!.pdf\"".toList
      = some "!!!.pdf".toList ∧
    isGarbage (some (stripExtension "!!!.pdf".toList)) = false ∧
    slugify refRuntime (stripExtension "!!!.pdf".toList) = [] ∧
    applyRules refRuntime sampleDate scenarioSymbols = some ".pdf".toList ∧
    applyRules refRuntime sampleDate scenarioSymbolsBare = some [] := by
  decide

/-- C19 (amended). Non-empty name: for every context with a non-empty original name, when the
header gives no usable name the name returned is non-empty: it is the original name itself, or
an accepted candidate of at least 15 characters that starts with the date string, hence with a
digit, followed by the extension if there is one.  When the header gives a name with a sound
base, the name returned is the slug of that base followed by the extension if there is one; it
is non-empty and does not start with `.` provided that slug is non-empty. -/
theorem C19_nonempty_name (R : Runtime) (now : JSDate) (ctx : Context) (name : JSString)
    (hne : ctx.originalName ≠ []) (hname : applyRules R now ctx = some name) :
    (HeaderUnusable R ctx.contentDisposition →
      name ≠ [] ∧
      (name = ctx.originalName ∨
        ∃ c d, 15 ≤ jsLength c ∧ getFormattedDate now <+: c ∧
          name = withExt c (resolvedExt R ctx) ∧
          name.head? = some d ∧ isDigit d = true)) ∧
    (∀ h n, ctx.contentDisposition = some h → parseContentDisposition R h = some n →
      isGarbage (some (stripExtension n)) = false →
        name = withExt (slugify R (stripExtension n))
          (jsOr (getExtFromFilename R n) (resolvedExt R ctx)) ∧
        (slugify R (stripExtension n) ≠ [] → name ≠ [] ∧ name.head? ≠ some '.')) := by
  constructor
  · intro hcd
    have horig : name = ctx.originalName → name ≠ [] := fun e => e ▸ hne
    by_cases hg : isGarbage (some (stripExtension ctx.originalName)) = true
    · by_cases heq : name = ctx.originalName
      · exact ⟨horig heq, Or.inl heq⟩
      · rcases titleSlug_or_throws R now ctx hcd hg with ⟨T, hT⟩ | hthrow
        · have h := applyRules_synthesis R now ctx T hcd hg hT
          rw [hname] at h
          cases hc : specCandidate (getFormattedDate now) (getSiteName R ctx.url) T with
          | none => rw [hc] at h; exact absurd (Option.some.inj h) heq
          | some c =>
            rw [hc] at h
            by_cases hlt : jsLength c < 15
            · simp only [hlt, if_true] at h; exact absurd (Option.some.inj h) heq
            · simp only [hlt, if_false] at h
              have hn : name = withExt c (resolvedExt R ctx) := Option.some.inj h
              have hcne : c ≠ [] := ne_nil_of_jsLength_pos (by omega)
              have hpre := specCandidate_initial hc
              have hDne : getFormattedDate now ≠ [] := by
                intro e
                have := length_getFormattedDate now
                rw [e] at this
                simp [jsLength] at this
              obtain ⟨d, t, hdt⟩ : ∃ d t, getFormattedDate now = d :: t := by
                cases hd : getFormattedDate now with
                | nil => exact absurd hd hDne
                | cons d t => exact ⟨d, t, rfl⟩
              have hdig : isDigit d = true := by
                have hy : natToString now.fullYear ≠ [] := natToString_ne_nil _
                have hyd := natToString_digits now.fullYear
                unfold getFormattedDate at hdt
                cases hn0 : natToString now.fullYear with
                | nil => exact absurd hn0 hy
                | cons y ys =>
                  rw [hn0] at hdt hyd
                  simp only [List.cons_append, List.cons.injEq] at hdt
                  rw [← hdt.1]
                  exact hyd y (List.mem_cons_self _ _)
              have hch : c.head? = some d := by
                rw [← head_of_initial hpre hDne, hdt]
                rfl
              refine ⟨hn ▸ withExt_ne_nil _ hcne, Or.inr ⟨c, d, Nat.not_lt.mp hlt, hpre, hn, ?_,
                hdig⟩⟩
              rw [hn, withExt_head _ hcne, hch]
        · rw [hthrow] at hname; cases hname
    · have hg' : isGarbage (some (stripExtension ctx.originalName)) = false := by
        simpa using hg
      have h := applyRules_passThrough R now ctx hcd hg'
      rw [hname] at h
      have heq : name = ctx.originalName := Option.some.inj h
      exact ⟨horig heq, Or.inl heq⟩
  · intro h n hcd hp hg
    have h1 := applyRules_header R now ctx h n hcd hp hg
    rw [hname] at h1
    have hn : name = withExt (slugify R (stripExtension n))
        (jsOr (getExtFromFilename R n) (resolvedExt R ctx)) := by
      rw [Option.some.inj h1]
      unfold normalizeFilename withExt
      by_cases he : jsOr (getExtFromFilename R n) (resolvedExt R ctx) = []
      · simp [he]
      · simp [he]
    refine ⟨hn, fun hs => ?_⟩
    refine ⟨hn ▸ withExt_ne_nil _ hs, ?_⟩
    rw [hn, withExt_head _ hs]
    have hv := slugify_valid R (stripExtension n)
    intro e
    have hm : '.' ∈ slugify R (stripExtension n) := by
      cases hsl : slugify R (stripExtension n) with
      | nil => exact absurd hsl hs
      | cons a t =>
        rw [hsl] at e
        simp only [List.head?_cons, Option.some.injEq] at e
        rw [e]
        exact List.mem_cons_self _ _
    have := hv.1 '.' hm
    revert this
    decide

set_option maxRecDepth 100000 in
/-- Witness of C19, on the camera-default variant of Scenario A. -/
theorem C19_nonempty_name_witness :
    scenarioACamera.originalName ≠ [] ∧
    applyRules refRuntime sampleDate scenarioACamera
      = some "2024-01-05-pinterest-cozy-reading-nook-ideas.jpg".toList ∧
    "2024-01-05-pinterest-cozy-reading-nook-ideas.jpg".toList ≠ [] :=
  have h1 : scenarioACamera.originalName ≠ [] := by decide
  have h2 : applyRules refRuntime sampleDate scenarioACamera
      = some "2024-01-05-pinterest-cozy-reading-nook-ideas.jpg".toList := by decide
  ⟨h1, h2, ((C19_nonempty_name refRuntime sampleDate scenarioACamera _ h1 h2).1
    (fun _ h => by cases h)).1⟩

/-! ## The length guard -/

theorem jsLength_hyphen : jsLength "-".toList = 1 := by decide

/-- With a date string of 10 characters, a candidate is short exactly when the title slug has
at most 5 characters and the site identity at most 3. -/
theorem specCandidate_length {D : JSString} (S T : JSString) (hD : jsLength D = 10) :
    (jsLength T ≤ 5 ∧ jsLength S ≤ 3 → ∀ c, specCandidate D S T = some c → jsLength c < 15) ∧
    (¬ (jsLength T ≤ 5 ∧ jsLength S ≤ 3) →
      ∃ c, specCandidate D S T = some c ∧ 15 ≤ jsLength c) := by
  unfold specCandidate
  constructor
  · rintro ⟨hT, hS⟩ c hc
    rw [if_neg (by omega)] at hc
    split at hc
    · rw [← Option.some.inj hc]
      simp only [jsLength_append, jsLength_hyphen, hD]
      omega
    · cases hc
  · intro hn
    by_cases hT : jsLength T > 5
    · rw [if_pos hT]
      by_cases hS : S = []
      · rw [if_pos hS]
        refine ⟨_, rfl, ?_⟩
        simp only [jsLength_append, jsLength_hyphen, hD]
        omega
      · rw [if_neg hS]
        refine ⟨_, rfl, ?_⟩
        simp only [jsLength_append, jsLength_hyphen, hD]
        omega
    · rw [if_neg hT]
      have hS : jsLength S > 2 := by omega
      rw [if_pos hS]
      refine ⟨_, rfl, ?_⟩
      simp only [jsLength_append, jsLength_hyphen, hD]
      omega

set_option maxRecDepth 100000 in
/-- Counterexample to C20 as stated.  The original name
`2024-01-05-pinterest-cozy-reading-nook-ideas.jpg` has a garbage base, so the context of
Scenario A with it reaches synthesis; the date string has 10 characters and the title slug
`cozy-reading-nook-ideas` has 23, more than 5; the candidate is accepted, and the name returned
is the original name itself. -/
theorem C20_counterexample :
    HeaderUnusable refRuntime scenarioRenamed.contentDisposition ∧
    isGarbage (some (stripExtension scenarioRenamed.originalName)) = true ∧
    jsLength (getFormattedDate sampleDate) = 10 ∧
    TitleSlug refRuntime scenarioRenamed (getSiteName refRuntime scenarioRenamed.url)
      "cozy-reading-nook-ideas".toList ∧
    ¬ (jsLength "cozy-reading-nook-ideas".toList ≤ 5 ∧
        jsLength (getSiteName refRuntime scenarioRenamed.url) ≤ 3) ∧
    applyRules refRuntime sampleDate scenarioRenamed = some scenarioRenamed.originalName := by
  refine ⟨(fun _ h => by cases h), by decide, by decide, ?_, by decide, by decide⟩
  show cleanPageTitle refRuntime _ _ = some _
  decide

/-- C20 (amended). Trigger of the length guard: with a date string of 10 characters, for every
context that reaches synthesis with the title slug `T` and the site identity `S`: when `T` has
at most 5 characters and `S` at most 3, `applyRules` returns the original name unchanged;
otherwise there is a candidate, it is accepted, and `applyRules` returns it with the extension.
Hence the name returned is the original name if and only if `T` has at most 5 characters and `S`
at most 3, or the original name is already the candidate with the extension.  A candidate built
from a title slug of more than 5 characters is never rejected, and a site identity of 3
characters never produces a rename on its own. -/
theorem C20_length_guard (R : Runtime) (now : JSDate) (ctx : Context) (T : JSString)
    (hcd : HeaderUnusable R ctx.contentDisposition)
    (hg : isGarbage (some (stripExtension ctx.originalName)) = true)
    (hT : TitleSlug R ctx (getSiteName R ctx.url) T)
    (hD : jsLength (getFormattedDate now) = 10) :
    (jsLength T ≤ 5 ∧ jsLength (getSiteName R ctx.url) ≤ 3 →
      applyRules R now ctx = some ctx.originalName) ∧
    (¬ (jsLength T ≤ 5 ∧ jsLength (getSiteName R ctx.url) ≤ 3) →
      ∃ c, specCandidate (getFormattedDate now) (getSiteName R ctx.url) T = some c ∧
        15 ≤ jsLength c ∧ applyRules R now ctx = some (withExt c (resolvedExt R ctx))) ∧
    (applyRules R now ctx = some ctx.originalName ↔
      (jsLength T ≤ 5 ∧ jsLength (getSiteName R ctx.url) ≤ 3) ∨
      ∃ c, specCandidate (getFormattedDate now) (getSiteName R ctx.url) T = some c ∧
        ctx.originalName = withExt c (resolvedExt R ctx)) ∧
    (5 < jsLength T →
      ∃ c, specCandidate (getFormattedDate now) (getSiteName R ctx.url) T = some c ∧
        applyRules R now ctx = some (withExt c (resolvedExt R ctx))) ∧
    (jsLength T ≤ 5 → jsLength (getSiteName R ctx.url) = 3 →
      applyRules R now ctx = some ctx.originalName) := by
  have h := applyRules_synthesis R now ctx T hcd hg hT
  have hlen := specCandidate_length (getSiteName R ctx.url) T hD
  have hshort : jsLength T ≤ 5 ∧ jsLength (getSiteName R ctx.url) ≤ 3 →
      applyRules R now ctx = some ctx.originalName := by
    intro hs
    cases hc : specCandidate (getFormattedDate now) (getSiteName R ctx.url) T with
    | none => rw [hc] at h; exact h
    | some c =>
      rw [hc] at h
      simp only [hlen.1 hs c hc, if_true] at h
      exact h
  have hlong : ¬ (jsLength T ≤ 5 ∧ jsLength (getSiteName R ctx.url) ≤ 3) →
      ∃ c, specCandidate (getFormattedDate now) (getSiteName R ctx.url) T = some c ∧
        15 ≤ jsLength c ∧ applyRules R now ctx = some (withExt c (resolvedExt R ctx)) := by
    intro hn
    obtain ⟨c, hc, hl⟩ := hlen.2 hn
    refine ⟨c, hc, hl, ?_⟩
    rw [hc] at h
    simp only [Nat.not_lt.mpr hl, if_false] at h
    exact h
  refine ⟨hshort, hlong, ⟨?_, ?_⟩, ?_, ?_⟩
  · intro he
    by_cases hs : jsLength T ≤ 5 ∧ jsLength (getSiteName R ctx.url) ≤ 3
    · exact Or.inl hs
    · obtain ⟨c, hc, _, ha⟩ := hlong hs
      rw [he] at ha
      exact Or.inr ⟨c, hc, Option.some.inj ha⟩
  · rintro (hs | ⟨c, hc, he⟩)
    · exact hshort hs
    · by_cases hs : jsLength T ≤ 5 ∧ jsLength (getSiteName R ctx.url) ≤ 3
      · exact hshort hs
      · obtain ⟨c', hc', _, ha⟩ := hlong hs
        rw [hc] at hc'
        rw [ha, ← Option.some.inj hc', he]
  · intro h5
    obtain ⟨c, hc, _, ha⟩ := hlong (by omega)
    exact ⟨c, hc, ha⟩
  · intro h5 h3
    exact hshort ⟨h5, by omega⟩

set_option maxRecDepth 100000 in
/-- Witness of C20, on the camera-default variant of Scenario A on 5 January 2024. -/
theorem C20_length_guard_witness :
    HeaderUnusable refRuntime scenarioACamera.contentDisposition ∧
    isGarbage (some (stripExtension scenarioACamera.originalName)) = true ∧
    TitleSlug refRuntime scenarioACamera (getSiteName refRuntime scenarioACamera.url)
      "cozy-reading-nook-ideas".toList ∧
    jsLength (getFormattedDate sampleDate) = 10 ∧
    ∃ c, specCandidate (getFormattedDate sampleDate) (getSiteName refRuntime scenarioACamera.url)
        "cozy-reading-nook-ideas".toList = some c ∧
      applyRules refRuntime sampleDate scenarioACamera
        = some (withExt c (resolvedExt refRuntime scenarioACamera)) :=
  have h1 : HeaderUnusable refRuntime scenarioACamera.contentDisposition :=
    fun _ h => by cases h
  have h2 : isGarbage (some (stripExtension scenarioACamera.originalName)) = true := by decide
  have h3 : TitleSlug refRuntime scenarioACamera (getSiteName refRuntime scenarioACamera.url)
      "cozy-reading-nook-ideas".toList := by
    show cleanPageTitle refRuntime _ _ = some _
    decide
  have h4 : jsLength (getFormattedDate sampleDate) = 10 := by decide
  ⟨h1, h2, h3, h4,
    (C20_length_guard refRuntime sampleDate scenarioACamera _ h1 h2 h3 h4).2.2.2.1 (by decide)⟩

/-! ## What the patterns of `isGarbage` accept -/

theorem asciiLower_asciiUpper (c : Char) : asciiLower (asciiUpper c) = asciiLower c := by
  unfold asciiUpper
  by_cases h : isLowerAZ c = true
  · rw [if_pos h]
    have h' := h
    simp only [isLowerAZ, inRange, Bool.and_eq_true, decide_eq_true_eq] at h'
    have e1 : ('a' : Char).toNat = 97 := by decide
    have e2 : ('z' : Char).toNat = 122 := by decide
    rw [e1, e2] at h'
    have hn : (Char.ofNat (c.toNat - 32)).toNat = c.toNat - 32 := toNat_ofNat_small _ (by omega)
    have hu : isUpperAZ (Char.ofNat (c.toNat - 32)) = true := by
      simp only [isUpperAZ, inRange, Bool.and_eq_true, decide_eq_true_eq, hn]
      have e3 : ('A' : Char).toNat = 65 := by decide
      have e4 : ('Z' : Char).toNat = 90 := by decide
      rw [e3, e4]; omega
    have hc : isUpperAZ c = false := by
      simp only [isUpperAZ, inRange, Bool.and_eq_false_imp, decide_eq_true_eq,
        decide_eq_false_iff_not]
      have e4 : ('Z' : Char).toNat = 90 := by decide
      rw [e4]; intro; omega
    unfold asciiLower
    rw [if_pos hu, hn, hc]
    have : c.toNat - 32 + 32 = c.toNat := by omega
    rw [this]
    simp
  · rw [if_neg h]

/-- Two characters that the `i` flag identifies have the same lower-case form. -/
theorem asciiLower_of_ciEq {c d : Char} (h : ciEq c d = true) : asciiLower d = asciiLower c := by
  have e : asciiUpper c = asciiUpper d := by simpa [ciEq] using h
  rw [← asciiLower_asciiUpper d, ← e, asciiLower_asciiUpper]

namespace Re

/-- A match of a quantified class consumes a run of the class of an admissible length. -/
theorem rep_elim {p : Char → Bool} {lo : Nat} {hi : Option Nat} {i : Nat} {s : JSString}
    {e : MState} (h : e ∈ run (rep p lo hi) (i, s)) :
    ∃ a, s = a ++ e.2 ∧ e.1 = i + a.length ∧ lo ≤ a.length ∧
      (∀ k, hi = some k → a.length ≤ k) ∧ ∀ c ∈ a, p c = true := by
  rw [mem_run_rep] at h
  obtain ⟨n, hlo, hn, rfl⟩ := h
  simp only at hn ⊢
  have hcap : capAt hi (spanLen p s) ≤ spanLen p s := by
    cases hi with
    | none => exact le_refl _
    | some k => exact Nat.min_le_right _ _
  have hsp : n ≤ spanLen p s := le_trans hn hcap
  have hlen : n ≤ s.length := le_trans hsp (spanLen_le p s)
  have hl : (s.take n).length = n := by simp [hlen]
  refine ⟨s.take n, (List.take_append_drop n s).symm, by rw [hl], by rw [hl]; exact hlo, ?_, ?_⟩
  · intro k hk
    subst hk
    rw [hl]
    exact le_trans hn (Nat.min_le_left _ _)
  · intro c hc
    exact List.all_eq_true.mp (take_all_of_le_spanLen hsp) c hc

theorem one_elim {p : Char → Bool} {i : Nat} {s : JSString} {e : MState}
    (h : e ∈ run (one p) (i, s)) : ∃ c, s = c :: e.2 ∧ e.1 = i + 1 ∧ p c = true := by
  rw [run_one_eq] at h
  cases s with
  | nil => simp at h
  | cons c t =>
    by_cases hc : p c = true
    · simp only [hc, if_true, List.mem_singleton] at h
      subst h
      exact ⟨c, rfl, rfl, hc⟩
    · simp [hc] at h

theorem chr_elim {c : Char} {i : Nat} {s : JSString} {e : MState}
    (h : e ∈ run (chr c) (i, s)) : s = c :: e.2 ∧ e.1 = i + 1 := by
  obtain ⟨d, hs, he, hd⟩ := one_elim (p := fun d => d == c) h
  have : d = c := by simpa using hd
  subst this
  exact ⟨hs, he⟩

/-- A match of a literal under the `i` flag consumes a word with the same lower-case form. -/
theorem strCI_elim : ∀ (w : JSString) {i : Nat} {s : JSString} {e : MState},
    e ∈ run (strCI w) (i, s) →
    ∃ a, s = a ++ e.2 ∧ e.1 = i + a.length ∧ a.map asciiLower = w.map asciiLower := by
  intro w
  induction w with
  | nil =>
    intro i s e h
    have : e = (i, s) := by simpa [strCI, cat, run] using h
    subst this
    exact ⟨[], rfl, rfl, rfl⟩
  | cons c w ih =>
    intro i s e h
    have h' : e ∈ run (seq (chrCI c) (strCI w)) (i, s) := h
    rw [mem_run_seq] at h'
    obtain ⟨⟨j, t⟩, hm, he⟩ := h'
    obtain ⟨d, hs, hj, hd⟩ := one_elim (p := ciEq c) hm
    obtain ⟨a, ha, he1, hmap⟩ := ih he
    simp only at hs hj
    refine ⟨d :: a, ?_, ?_, ?_⟩
    · rw [hs, ha]; rfl
    · rw [he1, hj, List.length_cons]; omega
    · simp only [List.map_cons, hmap, asciiLower_of_ciEq hd]

/-- A successful test of an expression anchored at the start is a match at index 0. -/
theorem test_bol_elim {r : Re} {n : JSString} (h : (seq bol r).test n = true) :
    ∃ e, e ∈ run r (0, n) := by
  unfold test at h
  cases hs : (seq bol r).searchFrom 0 n with
  | none => rw [hs] at h; cases h
  | some m =>
    obtain ⟨j, e⟩ := m
    obtain ⟨a, b, hab, hj, he⟩ := searchFrom_some hs
    rw [mem_run_seq] at he
    obtain ⟨m, hm, he⟩ := he
    rw [mem_run_bol] at hm
    obtain ⟨h0, rfl⟩ := hm
    simp only at h0
    have ha : a = [] := List.length_eq_zero.mp (by omega)
    subst ha
    simp only [List.nil_append] at hab
    subst hab
    rw [h0] at he
    exact ⟨e, he⟩

/-- A match of `$` and nothing more ends at the end of the input. -/
theorem eol_eps_elim {st e : MState} (h : e ∈ run (seq eol eps) st) : st.2 = [] := by
  rw [mem_run_seq] at h
  obtain ⟨m, hm, _⟩ := h
  exact (mem_run_eol.mp hm).1

end Re

/-- What `^[class]{lo,}$` accepts: a whole name made of the class, long enough. -/
theorem anchored_class_elim {p : Char → Bool} {lo : Nat} {n : JSString}
    (h : (Re.cat [Re.bol, Re.rep p lo none, Re.eol]).test n = true) :
    lo ≤ n.length ∧ ∀ c ∈ n, p c = true := by
  obtain ⟨e, he⟩ := Re.test_bol_elim (r := Re.cat [Re.rep p lo none, Re.eol]) h
  have he' : e ∈ Re.run (Re.seq (Re.rep p lo none) (Re.seq Re.eol Re.eps)) (0, n) := he
  rw [Re.mem_run_seq] at he'
  obtain ⟨m, hm, hend⟩ := he'
  obtain ⟨a, ha, _, hlo, _, hall⟩ := Re.rep_elim hm
  have hnil := Re.eol_eps_elim hend
  rw [hnil, List.append_nil] at ha
  subst ha
  exact ⟨hlo, hall⟩

theorem shapeNumeric_of_test {n : JSString} (h : numericPattern.test n = true) :
    ShapeNumeric n := by
  obtain ⟨h1, h2⟩ := anchored_class_elim h
  refine ⟨h1, fun c hc => ?_⟩
  have := h2 c hc
  simpa [or_assoc] using this

theorem shapeHex_of_test {n : JSString} (h : hexPattern.test n = true) : ShapeHex n :=
  anchored_class_elim h

theorem shapeAlnum_of_test {n : JSString} (h : alnumPattern.test n = true) : ShapeAlnum n :=
  anchored_class_elim h

theorem shapeUuidPrefix_of_test {n : JSString} (h : uuidPattern.test n = true) :
    ShapeUuidPrefix n := by
  obtain ⟨e, he⟩ := Re.test_bol_elim
    (r := Re.cat [Re.rep isWord 8 none, Re.chr '-', Re.rep isWord 4 none, Re.chr '-',
      Re.rep isWord 4 none]) h
  have he' : e ∈ Re.run (Re.seq (Re.rep isWord 8 none) (Re.seq (Re.chr '-')
      (Re.seq (Re.rep isWord 4 none) (Re.seq (Re.chr '-')
        (Re.seq (Re.rep isWord 4 none) Re.eps))))) (0, n) := he
  rw [Re.mem_run_seq] at he'
  obtain ⟨⟨i1, s1⟩, h1, he'⟩ := he'
  rw [Re.mem_run_seq] at he'
  obtain ⟨⟨i2, s2⟩, h2, he'⟩ := he'
  rw [Re.mem_run_seq] at he'
  obtain ⟨⟨i3, s3⟩, h3, he'⟩ := he'
  rw [Re.mem_run_seq] at he'
  obtain ⟨⟨i4, s4⟩, h4, he'⟩ := he'
  rw [Re.mem_run_seq] at he'
  obtain ⟨⟨i5, s5⟩, h5, _⟩ := he'
  obtain ⟨x, hx, _, hx8, _, hxa⟩ := Re.rep_elim h1
  obtain ⟨hd1, _⟩ := Re.chr_elim h2
  obtain ⟨y, hy, _, hy4, _, hya⟩ := Re.rep_elim h3
  obtain ⟨hd2, _⟩ := Re.chr_elim h4
  obtain ⟨z, hz, _, hz4, _, hza⟩ := Re.rep_elim h5
  simp only at hx hd1 hy hd2 hz
  refine ⟨x, y, z, s5, ?_, hx8, hy4, hz4, hxa, hya, hza⟩
  rw [hx, hd1, hy, hd2, hz]

theorem test_of_shapeUuidPrefix {n : JSString} (h : ShapeUuidPrefix n) :
    uuidPattern.test n = true := by
  obtain ⟨x, y, z, rest, hn, h8, l2, l3, w1, w2, w3⟩ := h
  rw [hn]
  have s0 : (0, x ++ '-' :: (y ++ '-' :: (z ++ rest))) ∈
      Re.run Re.bol (0, x ++ '-' :: (y ++ '-' :: (z ++ rest))) := by simp [Re.run]
  have s1 := Re.run_rep_of_all isWord 8 none 0 x
    ('-' :: (y ++ '-' :: (z ++ rest))) (all_of_forall w1) h8 (by intro h hh; cases hh)
  have s2 := Re.run_chr_of (0 + x.length) '-' (y ++ '-' :: (z ++ rest))
  have s3 := Re.run_rep_of_all isWord 4 none (0 + x.length + 1) y
    ('-' :: (z ++ rest)) (all_of_forall w2) l2 (by intro h hh; cases hh)
  have s4 := Re.run_chr_of (0 + x.length + 1 + y.length) '-' (z ++ rest)
  have s5 := Re.run_rep_of_all isWord 4 none
    (0 + x.length + 1 + y.length + 1) z rest (all_of_forall w3) l3 (by intro h hh; cases hh)
  exact Re.test_of_mem (Re.mem_seq_intro s0 (Re.mem_seq_intro s1 (Re.mem_seq_intro s2
    (Re.mem_seq_intro s3 (Re.mem_seq_intro s4 (Re.mem_seq_intro s5
      (Re.mem_run_eps.mpr rfl)))))))

/-- The documented UUID-like shape is a case of the shape the pattern accepts. -/
theorem shapeUuidPrefix_of_shapeUuid {n : JSString} (h : ShapeUuid n) : ShapeUuidPrefix n := by
  obtain ⟨g1, g2, g3, gs, hn, hal, h8, h4⟩ := h
  obtain ⟨rest, hrest⟩ : ∃ rest, n = g1 ++ '-' :: (g2 ++ '-' :: (g3 ++ rest)) := by
    cases gs with
    | nil => exact ⟨[], by simp [hn, List.intercalate, List.intersperse]⟩
    | cons g gs =>
      exact ⟨'-' :: List.intercalate ['-'] (g :: gs), by
        simp [hn, List.intercalate, List.intersperse]⟩
  exact ⟨g1, g2, g3, rest, hrest, h8, h4 g2 (by simp), h4 g3 (by simp),
    fun c hc => isWord_of_isAlnum (hal g1 (by simp) c hc),
    fun c hc => isWord_of_isAlnum (hal g2 (by simp) c hc),
    fun c hc => isWord_of_isAlnum (hal g3 (by simp) c hc)⟩

theorem shapeCamera_of_test {n : JSString} (h : cameraPattern.test n = true) :
    ShapeCamera n := by
  obtain ⟨e, he⟩ := Re.test_bol_elim
    (r := Re.cat [Re.alt (Re.strCI "img".toList) (Re.alt (Re.strCI "dsc".toList)
            (Re.alt (Re.strCI "image".toList) (Re.strCI "photo".toList))),
          Re.opt (Re.chr '_'), Re.plus isDigit, Re.eol]) h
  have he' : e ∈ Re.run (Re.seq (Re.alt (Re.strCI "img".toList)
      (Re.alt (Re.strCI "dsc".toList)
        (Re.alt (Re.strCI "image".toList) (Re.strCI "photo".toList))))
      (Re.seq (Re.opt (Re.chr '_')) (Re.seq (Re.plus isDigit) (Re.seq Re.eol Re.eps))))
      (0, n) := he
  rw [Re.mem_run_seq] at he'
  obtain ⟨⟨i1, s1⟩, h1, he'⟩ := he'
  rw [Re.mem_run_seq] at he'
  obtain ⟨⟨i2, s2⟩, h2, he'⟩ := he'
  rw [Re.mem_run_seq] at he'
  obtain ⟨⟨i3, s3⟩, h3, hend⟩ := he'
  have hnil : s3 = [] := Re.eol_eps_elim hend
  subst hnil
  have h3' : (i3, ([] : JSString)) ∈ Re.run (Re.rep isDigit 1 none) (i2, s2) := h3
  obtain ⟨ds, hds, _, hd1, _, hda⟩ := Re.rep_elim h3'
  simp only [List.append_nil] at hds
  have hw : ∃ w, n = w ++ s1 ∧
      w.map asciiLower ∈ ["img".toList, "dsc".toList, "image".toList, "photo".toList] := by
    rw [Re.mem_run_alt, Re.mem_run_alt, Re.mem_run_alt] at h1
    rcases h1 with h1 | h1 | h1 | h1
    · obtain ⟨w, hw, _, hm⟩ := Re.strCI_elim _ h1
      exact ⟨w, hw, by rw [hm]; decide⟩
    · obtain ⟨w, hw, _, hm⟩ := Re.strCI_elim _ h1
      exact ⟨w, hw, by rw [hm]; decide⟩
    · obtain ⟨w, hw, _, hm⟩ := Re.strCI_elim _ h1
      exact ⟨w, hw, by rw [hm]; decide⟩
    · obtain ⟨w, hw, _, hm⟩ := Re.strCI_elim _ h1
      exact ⟨w, hw, by rw [hm]; decide⟩
  obtain ⟨w, hnw, hwm⟩ := hw
  have hu : ∃ u, s1 = u ++ s2 ∧ (u = [] ∨ u = ['_']) := by
    have h2' : (i2, s2) ∈ Re.run (Re.alt (Re.chr '_') Re.eps) (i1, s1) := h2
    rw [Re.mem_run_alt] at h2'
    rcases h2' with h2' | h2'
    · obtain ⟨hs, _⟩ := Re.chr_elim h2'
      exact ⟨['_'], hs, Or.inr rfl⟩
    · rw [Re.mem_run_eps] at h2'
      simp only [Prod.mk.injEq] at h2'
      exact ⟨[], by rw [h2'.2]; rfl, Or.inl rfl⟩
  obtain ⟨u, hsu, hu⟩ := hu
  refine ⟨w, u, ds, ?_, hwm, hu, ?_, hda⟩
  · rw [hnw, hsu, hds, List.append_assoc]
  · intro e
    rw [e] at hd1
    simp at hd1

theorem shapeSize_of_test {n : JSString} (h : sizePattern.test n = true) : ShapeSize n := by
  obtain ⟨e, he⟩ := Re.test_bol_elim
    (r := Re.cat [Re.rep isDigit 3 (some 4), Re.chr 'x', Re.opt (Re.rep isDigit 3 (some 4)),
          Re.eol]) h
  have he' : e ∈ Re.run (Re.seq (Re.rep isDigit 3 (some 4)) (Re.seq (Re.chr 'x')
      (Re.seq (Re.opt (Re.rep isDigit 3 (some 4))) (Re.seq Re.eol Re.eps)))) (0, n) := he
  rw [Re.mem_run_seq] at he'
  obtain ⟨⟨i1, s1⟩, h1, he'⟩ := he'
  rw [Re.mem_run_seq] at he'
  obtain ⟨⟨i2, s2⟩, h2, he'⟩ := he'
  rw [Re.mem_run_seq] at he'
  obtain ⟨⟨i3, s3⟩, h3, hend⟩ := he'
  have hnil : s3 = [] := Re.eol_eps_elim hend
  subst hnil
  obtain ⟨a, ha, _, ha3, ha4, haa⟩ := Re.rep_elim h1
  obtain ⟨hx, _⟩ := Re.chr_elim h2
  simp only at ha hx
  have hb : s2 = [] ∨ DigitGroup s2 := by
    have h3' : (i3, ([] : JSString)) ∈
        Re.run (Re.alt (Re.rep isDigit 3 (some 4)) Re.eps) (i2, s2) := h3
    rw [Re.mem_run_alt] at h3'
    rcases h3' with h3' | h3'
    · obtain ⟨b, hb, _, hb3, hb4, hba⟩ := Re.rep_elim h3'
      simp only [List.append_nil] at hb
      subst hb
      exact Or.inr ⟨hb3, hb4 4 rfl, hba⟩
    · rw [Re.mem_run_eps] at h3'
      simp only [Prod.mk.injEq] at h3'
      exact Or.inl h3'.2.symm
  exact ⟨a, s2, by rw [ha, hx], ⟨ha3, ha4 4 rfl, haa⟩, hb⟩

theorem shapeHashPair_of_test {n : JSString} (h : hashPairPattern.test n = true) :
    ShapeHashPair n := by
  obtain ⟨e, he⟩ := Re.test_bol_elim
    (r := Re.cat [Re.rep isHexCI 6 none, Re.chr '-', Re.rep isHexCI 6 none, Re.eol]) h
  have he' : e ∈ Re.run (Re.seq (Re.rep isHexCI 6 none) (Re.seq (Re.chr '-')
      (Re.seq (Re.rep isHexCI 6 none) (Re.seq Re.eol Re.eps)))) (0, n) := he
  rw [Re.mem_run_seq] at he'
  obtain ⟨⟨i1, s1⟩, h1, he'⟩ := he'
  rw [Re.mem_run_seq] at he'
  obtain ⟨⟨i2, s2⟩, h2, he'⟩ := he'
  rw [Re.mem_run_seq] at he'
  obtain ⟨⟨i3, s3⟩, h3, hend⟩ := he'
  have hnil : s3 = [] := Re.eol_eps_elim hend
  subst hnil
  obtain ⟨a, ha, _, ha6, _, haa⟩ := Re.rep_elim h1
  obtain ⟨hx, _⟩ := Re.chr_elim h2
  obtain ⟨b, hb, _, hb6, _, hba⟩ := Re.rep_elim h3
  simp only [List.append_nil] at ha hx hb
  subst hb
  exact ⟨a, s2, by rw [ha, hx], ha6, hb6, haa, hba⟩

/-- The names `isGarbage` rejects: the empty name and the names of one of the seven shapes the
patterns accept. -/
theorem isGarbage_iff (n : JSString) :
    isGarbage (some n) = true ↔
      n = [] ∨ ShapeNumeric n ∨ ShapeHex n ∨ ShapeAlnum n ∨ ShapeUuidPrefix n ∨
        ShapeCamera n ∨ ShapeSize n ∨ ShapeHashPair n := by
  constructor
  · intro h
    by_cases hn : n = []
    · exact Or.inl hn
    · right
      unfold isGarbage at h
      have he : n.isEmpty = false := by simpa using hn
      simp only [he, Bool.false_eq_true, if_false] at h
      obtain ⟨p, hp, ht⟩ := List.any_eq_true.mp h
      simp only [garbagePatterns, List.mem_cons, List.mem_singleton, List.not_mem_nil,
        or_false] at hp
      rcases hp with rfl | rfl | rfl | rfl | rfl | rfl | rfl
      · exact Or.inl (shapeNumeric_of_test ht)
      · exact Or.inr (Or.inl (shapeHex_of_test ht))
      · exact Or.inr (Or.inr (Or.inl (shapeAlnum_of_test ht)))
      · exact Or.inr (Or.inr (Or.inr (Or.inl (shapeUuidPrefix_of_test ht))))
      · exact Or.inr (Or.inr (Or.inr (Or.inr (Or.inl (shapeCamera_of_test ht)))))
      · exact Or.inr (Or.inr (Or.inr (Or.inr (Or.inr (Or.inl (shapeSize_of_test ht))))))
      · exact Or.inr (Or.inr (Or.inr (Or.inr (Or.inr (Or.inr (shapeHashPair_of_test ht))))))
  · rintro (h | h | h | h | h | h | h | h)
    · subst h; rfl
    · exact isGarbage_numeric h
    · exact isGarbage_hex h
    · exact isGarbage_alnum h
    · exact isGarbage_of_test (p := uuidPattern) (by simp [garbagePatterns])
        (test_of_shapeUuidPrefix h)
    · exact isGarbage_camera h
    · exact isGarbage_size h
    · exact isGarbage_hashPair h
/-- The first group of a name made of groups joined by hyphens is what stands before its first
hyphen. -/
theorem takeWhile_group (a b : JSString) (ha : ∀ c ∈ a, isAlnum c = true) :
    (a ++ '-' :: b).takeWhile (fun c => !(c == '-')) = a := by
  induction a with
  | nil => simp
  | cons d t ih =>
    have hd : isAlnum d = true := ha d (List.mem_cons_self _ _)
    have hne : (d == '-') = false := by
      cases hq : d == '-' with
      | false => rfl
      | true =>
        have : d = '-' := by simpa using hq
        rw [this] at hd
        revert hd; decide
    simp only [List.cons_append, List.takeWhile_cons, hne, Bool.not_false, if_true]
    rw [ih (fun c hc => ha c (List.mem_cons_of_mem _ hc))]

set_option maxRecDepth 100000 in
/-- Counterexample to C11 as stated.  The phrase `my-summer-vacation-photo-album` is non-empty
and has none of the seven documented shapes: its first dash-separated group, `my`, has 2
characters.  Yet `isGarbage` returns true for it: the class of the UUID-like pattern holds the
hyphen, so `my-summer-vacation`, `photo` and `album` count as its three groups. -/
theorem C11_counterexample :
    phraseName ≠ [] ∧ isGarbage (some phraseName) = true ∧
    uuidPattern.test phraseName = true ∧
    ¬ ShapeNumeric phraseName ∧ ¬ ShapeHex phraseName ∧ ¬ ShapeAlnum phraseName ∧
    ¬ ShapeUuid phraseName ∧ ¬ ShapeCamera phraseName ∧ ¬ ShapeSize phraseName ∧
    ¬ ShapeHashPair phraseName := by
  have hhead : phraseName.head? = some 'm' := by decide
  refine ⟨by decide, by decide, by decide, ?_, ?_, ?_, ?_, ?_, ?_, ?_⟩
  · rintro ⟨_, h⟩
    have := h 'm' (by decide)
    revert this; decide
  · rintro ⟨_, h⟩
    have := h 'm' (by decide)
    revert this; decide
  · rintro ⟨_, h⟩
    have := h '-' (by decide)
    revert this; decide
  · rintro ⟨g1, g2, g3, gs, hn, hal, h8, _⟩
    have hsplit : phraseName = g1 ++ '-' :: List.intercalate ['-'] (g2 :: g3 :: gs) := by
      rw [hn]
      simp [List.intercalate, List.intersperse]
    have ht := takeWhile_group g1 (List.intercalate ['-'] (g2 :: g3 :: gs))
      (hal g1 (List.mem_cons_self _ _))
    rw [← hsplit] at ht
    have hv : phraseName.takeWhile (fun c => !(c == '-')) = "my".toList := by decide
    rw [hv] at ht
    rw [← ht] at h8
    revert h8; decide
  · rintro ⟨w, u, ds, hn, _, _, hds, hdig⟩
    have hlast : phraseName.getLast? = some 'm' := by decide
    rw [hn, List.getLast?_append_of_ne_nil _ hds] at hlast
    have := hdig 'm' (List.mem_of_getLast?_eq_some hlast)
    revert this; decide
  · rintro ⟨a, b, hn, ⟨ha3, _, had⟩, _⟩
    cases a with
    | nil => simp at ha3
    | cons d t =>
      rw [hn] at hhead
      simp only [List.cons_append, List.head?_cons, Option.some.injEq] at hhead
      have := had d (List.mem_cons_self _ _)
      rw [hhead] at this
      revert this; decide
  · rintro ⟨a, b, hn, ha6, _, haa, _⟩
    cases a with
    | nil => simp at ha6
    | cons d t =>
      rw [hn] at hhead
      simp only [List.cons_append, List.head?_cons, Option.some.injEq] at hhead
      have := haa d (List.mem_cons_self _ _)
      rw [hhead] at this
      revert this; decide

set_option maxRecDepth 100000 in
/-- C11 (amended). The classifier accepts exactly what its patterns accept: `isGarbage(name)`
is false if and only if the name is non-empty and has none of the seven shapes, where the
UUID-like shape is that of the pattern: the name starts with three groups joined by hyphens,
the first of at least 8 characters and the two others of at least 4, made of letters, digits,
`_` and `-`, and any text may follow.  The phrase `summer-vacation-photo` is not garbage. -/
theorem C11_classifier_exact (n : JSString) :
    (isGarbage (some n) = false ↔
      n ≠ [] ∧ ¬ ShapeNumeric n ∧ ¬ ShapeHex n ∧ ¬ ShapeAlnum n ∧ ¬ ShapeUuidPrefix n ∧
        ¬ ShapeCamera n ∧ ¬ ShapeSize n ∧ ¬ ShapeHashPair n) ∧
    isGarbage (some "summer-vacation-photo".toList) = false := by
  refine ⟨?_, by decide⟩
  have h := isGarbage_iff n
  constructor
  · intro hf
    have hn : ¬ (n = [] ∨ ShapeNumeric n ∨ ShapeHex n ∨ ShapeAlnum n ∨ ShapeUuidPrefix n ∨
        ShapeCamera n ∨ ShapeSize n ∨ ShapeHashPair n) := by
      intro hs
      rw [h.mpr hs] at hf
      cases hf
    simp only [not_or] at hn
    exact hn
  · intro hs
    cases hg : isGarbage (some n) with
    | false => rfl
    | true =>
      exfalso
      obtain ⟨h0, h1, h2, h3, h4, h5, h6, h7⟩ := hs
      rcases h.mp hg with k | k | k | k | k | k | k | k
      · exact h0 k
      · exact h1 k
      · exact h2 k
      · exact h3 k
      · exact h4 k
      · exact h5 k
      · exact h6 k
      · exact h7 k

set_option maxRecDepth 100000 in
/-- Values of `isGarbage` on hyphenated names. -/
theorem isGarbage_hyphenated :
    isGarbage (some "summer-vacation-photo-2024".toList) = true ∧
    isGarbage (some "abcdefgh-abcd-abcd and more text!".toList) = true ∧
    isGarbage (some "summer-vacation".toList) = false ∧
    isGarbage (some "report-final-version".toList) = false := by
  decide

/-! ## The resolved extension when nothing is inherited -/

theorem split_no_sep (sep : Char) : ∀ (s : JSString), ∀ p ∈ split sep s, sep ∉ p := by
  intro s
  induction s with
  | nil =>
    intro p hp
    simp only [split, List.mem_singleton] at hp
    rw [hp]
    simp
  | cons c t ih =>
    intro p hp
    unfold split at hp
    by_cases hc : c = sep
    · rw [if_pos hc, List.mem_cons] at hp
      rcases hp with rfl | hp
      · simp
      · exact ih p hp
    · rw [if_neg hc] at hp
      cases hs : split sep t with
      | nil =>
        rw [hs] at hp
        simp only [List.mem_singleton] at hp
        rw [hp]
        simpa using Ne.symm hc
      | cons q qs =>
        rw [hs] at hp ih
        simp only [List.mem_cons] at hp
        rcases hp with rfl | hp
        · intro hm
          rw [List.mem_cons] at hm
          rcases hm with hm | hm
          · exact hc hm.symm
          · exact ih q (List.mem_cons_self _ _) hm
        · exact ih p (List.mem_cons_of_mem _ hp)

/-- The suffix that `getExtFromFilename` returns is short, lower-case and without a dot. -/
theorem getExtFromFilename_shape (R : Runtime) (name : JSString) :
    jsLength (getExtFromFilename R name) ≤ 5 ∧
    (∀ c ∈ getExtFromFilename R name, isUpperAZ c = false) ∧
    '.' ∉ getExtFromFilename R name := by
  unfold getExtFromFilename
  split
  · exact ⟨by decide, by simp, by simp⟩
  · simp only
    split
    · rename_i h5
      refine ⟨h5, fun c hc => R.toLowerCase_noUpper _ c hc, ?_⟩
      apply R.toLowerCase_dot
      cases hl : (split '.' name).getLast? with
      | none => simp
      | some p =>
        simp only [Option.getD_some]
        exact split_no_sep '.' name p (List.mem_of_getLast?_eq_some hl)
    · exact ⟨by decide, by simp, by simp⟩

set_option maxRecDepth 100000 in
/-- Every value of the MIME table is a non-empty lower-case token of at most 5 characters
without a dot. -/
theorem mimeMap_values : ∀ e ∈ mimeMap,
    e.2 ≠ [] ∧ jsLength e.2 ≤ 5 ∧ e.2.all (fun c => !isUpperAZ c && !(c == '.')) = true := by
  decide

/-- The resolved extension for a MIME type that is a key of the table, is absent, or names
nothing that the table inherits: the value of the table for a key, and otherwise the
lower-cased suffix of the original name when that has at most 5 characters, else the empty
string; in each case at most 5 characters, no upper-case letter and no dot. -/
theorem resolvedExt_not_inherited (R : Runtime) (ctx : Context)
    (hp : ∀ m, ctx.mimeType = some m → mimeMap.lookup m = none → R.protoLookup m = none) :
    (∀ m e, ctx.mimeType = some m → mimeMap.lookup m = some e → resolvedExt R ctx = e) ∧
    ((ctx.mimeType = none ∨ ∃ m, ctx.mimeType = some m ∧ mimeMap.lookup m = none) →
      resolvedExt R ctx = getExtFromFilename R ctx.originalName) ∧
    jsLength (resolvedExt R ctx) ≤ 5 ∧
    (∀ c ∈ resolvedExt R ctx, isUpperAZ c = false) ∧
    '.' ∉ resolvedExt R ctx := by
  have hkey : ∀ m e, ctx.mimeType = some m → mimeMap.lookup m = some e →
      resolvedExt R ctx = e ∧ (m, e) ∈ mimeMap := by
    intro m e hm hl
    have hmem : (m, e) ∈ mimeMap := by
      have := List.lookup_eq_some_iff.mp hl
      obtain ⟨l1, l2, h1, _⟩ := this
      rw [h1]
      simp
    have hne := (mimeMap_values (m, e) hmem).1
    have hmne : m.isEmpty = false := by
      cases m with
      | nil =>
        have hnone : mimeMap.lookup ([] : JSString) = none := by decide
        rw [hnone] at hl
        cases hl
      | cons _ _ => rfl
    refine ⟨?_, hmem⟩
    unfold resolvedExt getExtension jsOr
    rw [hm]
    simp only [hmne, hl, Bool.false_eq_true, if_false]
    rw [if_neg (by simpa using hne)]
  have hsuf : (ctx.mimeType = none ∨ ∃ m, ctx.mimeType = some m ∧ mimeMap.lookup m = none) →
      resolvedExt R ctx = getExtFromFilename R ctx.originalName := by
    intro h
    have hg : getExtension R ctx.mimeType = [] := by
      rcases h with h | ⟨m, hm, hl⟩
      · rw [h]; rfl
      · rw [hm]
        unfold getExtension
        by_cases he : m.isEmpty = true
        · simp [he]
        · simp [he, hl, hp m hm hl]
    unfold resolvedExt jsOr
    rw [hg]
    simp only [List.isEmpty_nil, if_true]
    split
    · rename_i he
      exact (List.isEmpty_iff.mp he).symm
    · rfl
  have hshape : jsLength (resolvedExt R ctx) ≤ 5 ∧
      (∀ c ∈ resolvedExt R ctx, isUpperAZ c = false) ∧ '.' ∉ resolvedExt R ctx := by
    cases hm : ctx.mimeType with
    | none =>
      rw [hsuf (Or.inl hm)]
      exact getExtFromFilename_shape R _
    | some m =>
      cases hl : mimeMap.lookup m with
      | none =>
        rw [hsuf (Or.inr ⟨m, hm, hl⟩)]
        exact getExtFromFilename_shape R _
      | some e =>
        obtain ⟨he, hmem⟩ := hkey m e hm hl
        obtain ⟨_, h5, hall⟩ := mimeMap_values (m, e) hmem
        rw [he]
        have hall' := List.all_eq_true.mp hall
        refine ⟨h5, fun c hc => ?_, fun hc => ?_⟩
        · have := hall' c hc
          simp only [Bool.and_eq_true, Bool.not_eq_true'] at this
          exact this.1
        · have := hall' '.' hc
          revert this; decide
  exact ⟨fun m e hm hl => (hkey m e hm hl).1, hsuf, hshape⟩

end ContextualTidy
